import Mathlib

/-!
Verification of the ip2cc prefix-indexing engine against its specification.

The Go sources are shallowly embedded: byte slices become `List Nat`
(each entry a byte value), pointers to nodes become `Option TrieNode`,
and fallible operations return `Except String`.  Definitions follow the
Go functions of `internal/index`, `internal/snapshot` and
`internal/cli/update.go` line by line; spec-level definitions used to
state refinement claims are clearly marked as such.
-/

namespace Ip2cc

/-- PrefixData holds data associated with a prefix
(Go struct `PrefixData` in the index package). -/
structure PrefixData where
  CountryCode : String
  PrefixStr : String
deriving DecidableEq

/-- TrieNode embeds the Go struct `TrieNode`: `Pfx` is the Go field
`Prefix` (path-compressed edge bits, stored as a byte list), `PrefixLen`
the number of significant bits, `Data` the optional record, and
`Child0`/`Child1` the two child pointers `Children[0]`/`Children[1]`. -/
inductive TrieNode : Type where
  | mk (Pfx : List Nat) (PrefixLen : Nat) (Data : Option PrefixData)
       (Child0 : Option TrieNode) (Child1 : Option TrieNode) : TrieNode

/-- Edge bits of a node (Go field `Prefix`). -/
def TrieNode.Pfx : TrieNode → List Nat
  | .mk p _ _ _ _ => p

/-- Number of significant bits in the edge (Go field `PrefixLen`). -/
def TrieNode.PrefixLen : TrieNode → Nat
  | .mk _ l _ _ _ => l

/-- Optional record stored at the node (Go field `Data`). -/
def TrieNode.Data : TrieNode → Option PrefixData
  | .mk _ _ d _ _ => d

/-- Child on branch 0 (Go `Children[0]`). -/
def TrieNode.Child0 : TrieNode → Option TrieNode
  | .mk _ _ _ c _ => c

/-- Child on branch 1 (Go `Children[1]`). -/
def TrieNode.Child1 : TrieNode → Option TrieNode
  | .mk _ _ _ _ c => c

/-- Go `node.Children[bit]` for a bit value (0 selects `Children[0]`,
anything else `Children[1]`; the sources only ever pass 0 or 1). -/
def TrieNode.child (n : TrieNode) (bit : Nat) : Option TrieNode :=
  if bit = 0 then n.Child0 else n.Child1

/-- Go `node.Children[bit] = c` as a functional update. -/
def TrieNode.setChild (n : TrieNode) (bit : Nat) (c : Option TrieNode) : TrieNode :=
  match n with
  | .mk p l d c0 c1 => if bit = 0 then .mk p l d c c1 else .mk p l d c0 c

/-- Go `node.Data = d` as a functional update. -/
def TrieNode.setData (n : TrieNode) (d : Option PrefixData) : TrieNode :=
  match n with
  | .mk p l _ c0 c1 => .mk p l d c0 c1

/-- Number of nodes of the tree, used as the termination measure for
the loops of the Go code that descend into a child each iteration. -/
def TrieNode.size : TrieNode → Nat
  | .mk _ _ _ c0 c1 =>
      1 + (match c0 with | some n => n.size | none => 0)
        + (match c1 with | some n => n.size | none => 0)

theorem TrieNode.child_size_lt {n c : TrieNode} {bit : Nat}
    (h : n.child bit = some c) : c.size < n.size := by
  cases n with
  | mk p l d c0 c1 =>
    unfold TrieNode.child at h
    by_cases hb : bit = 0
    · rw [if_pos hb] at h
      replace h : c0 = some c := h
      subst h
      cases c1 with
      | none => show c.size < TrieNode.size (.mk p l d (some c) none)
                show c.size < 1 + c.size + 0
                omega
      | some x => show c.size < TrieNode.size (.mk p l d (some c) (some x))
                  show c.size < 1 + c.size + x.size
                  omega
    · rw [if_neg hb] at h
      replace h : c1 = some c := h
      subst h
      cases c0 with
      | none => show c.size < TrieNode.size (.mk p l d none (some c))
                show c.size < 1 + 0 + c.size
                omega
      | some x => show c.size < TrieNode.size (.mk p l d (some x) (some c))
                  show c.size < 1 + x.size + c.size
                  omega

/-- Go helper `getBit`: read bit `pos` (big-endian within bytes) from a
byte slice, returning 0 when the byte index is out of range. -/
def getBit (data : List Nat) (pos : Nat) : Nat :=
  if pos / 8 ≥ data.length then 0
  else (data.getD (pos / 8) 0 >>> (7 - pos % 8)) &&& 1

/-- Go helper `getBitFromSlice` (an alias of `getBit`). -/
def getBitFromSlice (data : List Nat) (pos : Nat) : Nat :=
  getBit data pos

/-- One iteration of the bit-setting statement inside Go `extractBits`:
`result[i/8] |= 1 << (7 - i%8)`. -/
def setResultBit (result : List Nat) (i : Nat) : List Nat :=
  result.set (i / 8) (result.getD (i / 8) 0 ||| (1 <<< (7 - i % 8)))

/-- Go helper `extractBits`: copy the bit range `[start, start+length)`
of `data` into a fresh zero-padded byte buffer. -/
def extractBits (data : List Nat) (start length : Nat) : List Nat :=
  if length = 0 then []
  else
    (List.range length).foldl
      (fun result i =>
        if getBit data (start + i) = 1 then setResultBit result i else result)
      (List.replicate ((length + 7) / 8) 0)

/-- Go helper `extractBitsFromSlice` (an alias of `extractBits`). -/
def extractBitsFromSlice (data : List Nat) (start length : Nat) : List Nat :=
  extractBits data start length

/-- The common-prefix counting loop of Go `insertRecursive`
(`for i := 0; i < maxCheck; i++ { if bits differ break; commonLen++ }`),
started at index `i`. -/
def commonLenFrom (bits : List Nat) (pos : Nat) (childBits : List Nat)
    (maxCheck i : Nat) : Nat :=
  if i < maxCheck then
    if getBit bits (pos + i) = getBitFromSlice childBits i then
      commonLenFrom bits pos childBits maxCheck (i + 1)
    else i
  else i
termination_by maxCheck - i

/-- Go `insertRecursive`: insert `data` for the key whose bits are
`bits[pos..prefixLen)` below `node`, returning the updated node. -/
def insertRecursive (node : TrieNode) (bits : List Nat) (pos prefixLen : Nat)
    (data : PrefixData) : TrieNode :=
  if pos = prefixLen then
    node.setData (some data)
  else
    let bit := getBit bits pos
    match h : node.child bit with
    | none =>
        node.setChild bit (some (.mk (extractBits bits pos (prefixLen - pos))
          (prefixLen - pos) (some data) none none))
    | some child =>
        let childBits := child.Pfx
        let childLen := child.PrefixLen
        let remainingLen := prefixLen - pos
        let commonLen := commonLenFrom bits pos childBits (min remainingLen childLen) 0
        if commonLen = childLen then
          if commonLen = remainingLen then
            node.setChild bit (some (child.setData (some data)))
          else
            node.setChild bit
              (some (insertRecursive child bits (pos + childLen) prefixLen data))
        else
          let oldChildBit := getBitFromSlice childBits commonLen
          let shortened : TrieNode :=
            .mk (extractBitsFromSlice childBits commonLen (childLen - commonLen))
              (childLen - commonLen) child.Data child.Child0 child.Child1
          let newParent : TrieNode :=
            (TrieNode.mk (extractBits bits pos commonLen) commonLen none none none).setChild
              oldChildBit (some shortened)
          if commonLen = remainingLen then
            node.setChild bit (some (newParent.setData (some data)))
          else
            let newLeafBit := getBit bits (pos + commonLen)
            let newLeaf : TrieNode :=
              .mk (extractBits bits (pos + commonLen) (remainingLen - commonLen))
                (remainingLen - commonLen) (some data) none none
            node.setChild bit (some (newParent.setChild newLeafBit (some newLeaf)))
termination_by node.size
decreasing_by exact TrieNode.child_size_lt h

/-- The match-checking loop of Go `lookupRecursive`
(`for i := 0; i < childLen && i < child.PrefixLen; i++`). -/
def lookupMatchFrom (bits : List Nat) (pos : Nat) (childBits : List Nat)
    (childLen prefixLen i : Nat) : Bool :=
  if i < childLen ∧ i < prefixLen then
    if getBit bits (pos + i) = getBitFromSlice childBits i then
      lookupMatchFrom bits pos childBits childLen prefixLen (i + 1)
    else false
  else true
termination_by childLen - i

/-- The body of the Go `lookupRecursive` loop for a non-nil node,
threading the local `lastMatch` accumulator. -/
def lookupGo (node : TrieNode) (bits : List Nat) (pos maxBits : Nat)
    (lastMatch : Option PrefixData) : Option PrefixData :=
  let lastMatch := match node.Data with
    | some d => some d
    | none => lastMatch
  if pos ≥ maxBits then lastMatch
  else
    let bit := getBit bits pos
    match h : node.child bit with
    | none => lastMatch
    | some child =>
        let childLen :=
          if pos + child.PrefixLen > maxBits then maxBits - pos else child.PrefixLen
        if lookupMatchFrom bits pos child.Pfx childLen child.PrefixLen 0 then
          lookupGo child bits (pos + child.PrefixLen) maxBits lastMatch
        else lastMatch
termination_by node.size
decreasing_by exact TrieNode.child_size_lt h

/-- Go `lookupRecursive`: the `for node != nil` loop with initial
accumulator `nil`. -/
def lookupRecursive (node : Option TrieNode) (bits : List Nat)
    (pos maxBits : Nat) : Option PrefixData :=
  match node with
  | none => none
  | some n => lookupGo n bits pos maxBits none

/-! Bit-level lemmas about `getBit`, `setResultBit` and `extractBits`. -/

theorem getBit_le_one (data : List Nat) (pos : Nat) : getBit data pos ≤ 1 := by
  unfold getBit
  split
  · omega
  · rw [Nat.and_one_is_mod]
    omega

theorem getBit_oob {data : List Nat} {pos : Nat} (h : data.length ≤ pos / 8) :
    getBit data pos = 0 := by
  unfold getBit
  rw [if_pos h]

theorem getBit_eq_testBit (data : List Nat) (pos : Nat) :
    getBit data pos =
      if pos / 8 < data.length then
        ((data.getD (pos / 8) 0).testBit (7 - pos % 8)).toNat
      else 0 := by
  unfold getBit
  by_cases h : data.length ≤ pos / 8
  · rw [if_pos h, if_neg (by omega)]
  · rw [if_neg h, if_pos (by omega)]
    rw [Nat.and_one_is_mod, Nat.shiftRight_eq_div_pow, Nat.testBit_to_div_mod,
      List.getD_eq_getElem?_getD]
    rcases Nat.mod_two_eq_zero_or_one (data[pos / 8]?.getD 0 / 2 ^ (7 - pos % 8)) with h2 | h2 <;>
      rw [h2] <;> rfl

theorem getBit_replicate_zero (m pos : Nat) : getBit (List.replicate m 0) pos = 0 := by
  rw [getBit_eq_testBit]
  split
  · rw [List.getD_eq_getElem?_getD, List.getElem?_replicate]
    split <;> simp
  · rfl

theorem length_setResultBit (r : List Nat) (i : Nat) :
    (setResultBit r i).length = r.length := by
  unfold setResultBit
  exact List.length_set r _ _

theorem getBit_setResultBit_self {r : List Nat} {i : Nat} (h : i / 8 < r.length) :
    getBit (setResultBit r i) i = 1 := by
  rw [getBit_eq_testBit]
  rw [length_setResultBit, if_pos h]
  unfold setResultBit
  rw [List.getD_eq_getElem?_getD, List.getElem?_set_self h, Option.getD_some,
    Nat.testBit_or, Nat.one_shiftLeft, Nat.testBit_two_pow]
  simp

theorem getBit_setResultBit_ne {r : List Nat} {i j : Nat} (hne : i ≠ j) :
    getBit (setResultBit r j) i = getBit r i := by
  rw [getBit_eq_testBit, getBit_eq_testBit, length_setResultBit]
  by_cases hlt : i / 8 < r.length
  · rw [if_pos hlt, if_pos hlt]
    unfold setResultBit
    by_cases hb : j / 8 = i / 8
    · rw [List.getD_eq_getElem?_getD, hb, List.getElem?_set_self hlt, Option.getD_some,
        Nat.testBit_or, Nat.one_shiftLeft, Nat.testBit_two_pow,
        List.getD_eq_getElem?_getD]
      have hmod : i % 8 ≠ j % 8 := by omega
      have h8i : i % 8 < 8 := Nat.mod_lt _ (by omega)
      have h8j : j % 8 < 8 := Nat.mod_lt _ (by omega)
      have hne2 : (7 - j % 8) ≠ (7 - i % 8) := by omega
      simp [hne2]
    · simp only [List.getD_eq_getElem?_getD]
      rw [List.getElem?_set_ne hb]
  · rw [if_neg hlt, if_neg hlt]

theorem extractBits_getBit (data : List Nat) (start len j : Nat) :
    getBit (extractBits data start len) j =
      if j < len then getBit data (start + j) else 0 := by
  unfold extractBits
  by_cases h0 : len = 0
  · subst h0
    rw [if_pos rfl]
    rw [getBit_oob (by simp)]
    simp
  · rw [if_neg h0]
    suffices h : ∀ k, k ≤ len →
        (((List.range k).foldl
          (fun result i =>
            if getBit data (start + i) = 1 then setResultBit result i else result)
          (List.replicate ((len + 7) / 8) 0)).length = (len + 7) / 8 ∧
        ∀ j, getBit ((List.range k).foldl
          (fun result i =>
            if getBit data (start + i) = 1 then setResultBit result i else result)
          (List.replicate ((len + 7) / 8) 0)) j =
          if j < k then getBit data (start + j) else 0) by
      rcases h len (le_refl len) with ⟨-, h2⟩
      exact h2 j
    intro k
    induction k with
    | zero =>
      intro
      refine ⟨by simp, ?_⟩
      intro j
      rw [List.range_zero, List.foldl_nil, getBit_replicate_zero]
      simp
    | succ k ih =>
      intro hk
      rcases ih (by omega) with ⟨ihlen, ihbit⟩
      rw [List.range_succ, List.foldl_append, List.foldl_cons, List.foldl_nil]
      constructor
      · split
        · rw [length_setResultBit]
          exact ihlen
        · exact ihlen
      · intro j
        split
        · rename_i hbit
          by_cases hj : j = k
          · subst hj
            rw [getBit_setResultBit_self (by rw [ihlen]; omega), if_pos (by omega), hbit]
          · rw [getBit_setResultBit_ne hj, ihbit j]
            by_cases hjk : j < k
            · rw [if_pos hjk, if_pos (by omega)]
            · rw [if_neg hjk, if_neg (by omega)]
        · rename_i hbit
          rw [ihbit j]
          by_cases hj : j = k
          · subst hj
            have := getBit_le_one data (start + j)
            rw [if_neg (by omega), if_pos (by omega)]
            omega
          · by_cases hjk : j < k
            · rw [if_pos hjk, if_pos (by omega)]
            · rw [if_neg hjk, if_neg (by omega)]

/-! Bit segments: the sequence of bits `[getBit data start, ...,
getBit data (start+len-1)]`, used to state every structural fact about
the trie. -/

/-- The bit sequence of length `len` starting at bit `start` of `data`. -/
def bitsSeg (data : List Nat) (start len : Nat) : List Nat :=
  (List.range len).map fun i => getBit data (start + i)

theorem length_bitsSeg (data : List Nat) (start len : Nat) :
    (bitsSeg data start len).length = len := by
  unfold bitsSeg
  rw [List.length_map, List.length_range]

theorem bitsSeg_zero (data : List Nat) (start : Nat) : bitsSeg data start 0 = [] := rfl

theorem getElem?_bitsSeg (data : List Nat) (start len j : Nat) :
    (bitsSeg data start len)[j]? =
      if j < len then some (getBit data (start + j)) else none := by
  unfold bitsSeg
  rw [List.getElem?_map]
  by_cases h : j < len
  · rw [List.getElem?_range h, if_pos h]
    rfl
  · rw [if_neg h, List.getElem?_eq_none (by rw [List.length_range]; omega)]
    rfl

theorem bitsSeg_succ (data : List Nat) (start len : Nat) :
    bitsSeg data start (len + 1) =
      getBit data start :: bitsSeg data (start + 1) len := by
  apply List.ext_getElem?
  intro n
  rw [getElem?_bitsSeg]
  cases n with
  | zero => simp
  | succ n =>
    rw [List.getElem?_cons_succ, getElem?_bitsSeg]
    have : start + (n + 1) = start + 1 + n := by omega
    rw [this]
    split <;> split <;> first | rfl | omega

theorem take_bitsSeg (data : List Nat) (start len m : Nat) :
    (bitsSeg data start len).take m = bitsSeg data start (min m len) := by
  apply List.ext_getElem?
  intro n
  rw [List.getElem?_take, getElem?_bitsSeg, getElem?_bitsSeg]
  split
  · split <;> split <;> first | rfl | omega
  · split <;> first | omega | rfl

theorem drop_bitsSeg (data : List Nat) (start len m : Nat) :
    (bitsSeg data start len).drop m = bitsSeg data (start + m) (len - m) := by
  apply List.ext_getElem?
  intro n
  rw [List.getElem?_drop, getElem?_bitsSeg, getElem?_bitsSeg]
  have : start + (m + n) = start + m + n := by omega
  rw [this]
  split <;> split <;> first | rfl | omega

theorem bitsSeg_extractBits (data : List Nat) (start len len2 : Nat)
    (h : len2 ≤ len) :
    bitsSeg (extractBits data start len) 0 len2 = bitsSeg data start len2 := by
  apply List.ext_getElem?
  intro n
  rw [getElem?_bitsSeg, getElem?_bitsSeg]
  split
  · rw [Nat.zero_add, extractBits_getBit, if_pos (by omega)]
  · rfl

theorem bitsSeg_eq_iff (data : List Nat) (start len : Nat) (l : List Nat) :
    bitsSeg data start len = l ↔
      l.length = len ∧ ∀ j, j < len → l[j]? = some (getBit data (start + j)) := by
  constructor
  · intro h
    subst h
    refine ⟨length_bitsSeg data start len, ?_⟩
    intro j hj
    rw [getElem?_bitsSeg, if_pos hj]
  · rintro ⟨hlen, hget⟩
    apply List.ext_getElem?
    intro n
    rw [getElem?_bitsSeg]
    split
    · rw [hget n (by omega)]
    · rw [List.getElem?_eq_none (by omega)]

/-! Structural lemmas about nodes, and the characterization of the
common-length and match loops. -/

@[simp] theorem TrieNode.Pfx_mk (p : List Nat) (l : Nat) (d : Option PrefixData)
    (c0 c1 : Option TrieNode) : (TrieNode.mk p l d c0 c1).Pfx = p := rfl

@[simp] theorem TrieNode.PrefixLen_mk (p : List Nat) (l : Nat) (d : Option PrefixData)
    (c0 c1 : Option TrieNode) : (TrieNode.mk p l d c0 c1).PrefixLen = l := rfl

@[simp] theorem TrieNode.Data_mk (p : List Nat) (l : Nat) (d : Option PrefixData)
    (c0 c1 : Option TrieNode) : (TrieNode.mk p l d c0 c1).Data = d := rfl

@[simp] theorem TrieNode.Child0_mk (p : List Nat) (l : Nat) (d : Option PrefixData)
    (c0 c1 : Option TrieNode) : (TrieNode.mk p l d c0 c1).Child0 = c0 := rfl

@[simp] theorem TrieNode.Child1_mk (p : List Nat) (l : Nat) (d : Option PrefixData)
    (c0 c1 : Option TrieNode) : (TrieNode.mk p l d c0 c1).Child1 = c1 := rfl

theorem TrieNode.child_zero (n : TrieNode) : n.child 0 = n.Child0 := rfl

theorem TrieNode.child_of_ne_zero (n : TrieNode) {b : Nat} (h : b ≠ 0) :
    n.child b = n.Child1 := by
  unfold TrieNode.child
  rw [if_neg h]

@[simp] theorem TrieNode.Pfx_setData (n : TrieNode) (d : Option PrefixData) :
    (n.setData d).Pfx = n.Pfx := by
  cases n; rfl

@[simp] theorem TrieNode.PrefixLen_setData (n : TrieNode) (d : Option PrefixData) :
    (n.setData d).PrefixLen = n.PrefixLen := by
  cases n; rfl

@[simp] theorem TrieNode.Data_setData (n : TrieNode) (d : Option PrefixData) :
    (n.setData d).Data = d := by
  cases n; rfl

@[simp] theorem TrieNode.child_setData (n : TrieNode) (d : Option PrefixData) (b : Nat) :
    (n.setData d).child b = n.child b := by
  cases n with
  | mk p l d0 c0 c1 =>
    by_cases hb : b = 0 <;> simp [TrieNode.setData, TrieNode.child, hb]

@[simp] theorem TrieNode.Pfx_setChild (n : TrieNode) (b : Nat) (c : Option TrieNode) :
    (n.setChild b c).Pfx = n.Pfx := by
  cases n with
  | mk p l d c0 c1 =>
    by_cases hb : b = 0 <;> simp [TrieNode.setChild, hb]

@[simp] theorem TrieNode.PrefixLen_setChild (n : TrieNode) (b : Nat) (c : Option TrieNode) :
    (n.setChild b c).PrefixLen = n.PrefixLen := by
  cases n with
  | mk p l d c0 c1 =>
    by_cases hb : b = 0 <;> simp [TrieNode.setChild, hb]

@[simp] theorem TrieNode.Data_setChild (n : TrieNode) (b : Nat) (c : Option TrieNode) :
    (n.setChild b c).Data = n.Data := by
  cases n with
  | mk p l d c0 c1 =>
    by_cases hb : b = 0 <;> simp [TrieNode.setChild, hb]

theorem TrieNode.child_setChild_same (n : TrieNode) (b : Nat) (c : Option TrieNode) :
    (n.setChild b c).child b = c := by
  cases n with
  | mk p l d c0 c1 =>
    by_cases hb : b = 0 <;> simp [TrieNode.setChild, TrieNode.child, hb]

theorem TrieNode.child_setChild_other (n : TrieNode) {b b2 : Nat} (c : Option TrieNode)
    (hb : b ≤ 1) (hb2 : b2 ≤ 1) (hne : b2 ≠ b) :
    (n.setChild b c).child b2 = n.child b2 := by
  cases n with
  | mk p l d c0 c1 =>
    by_cases h : b = 0
    · have h2 : ¬ b2 = 0 := by omega
      simp [TrieNode.setChild, TrieNode.child, h, h2]
    · have h2 : b2 = 0 := by omega
      simp [TrieNode.setChild, TrieNode.child, h, h2]

theorem commonLenFrom_ge (bits : List Nat) (pos : Nat) (cb : List Nat) (maxC : Nat)
    (i : Nat) : i ≤ commonLenFrom bits pos cb maxC i := by
  induction i using commonLenFrom.induct bits pos cb maxC with
  | case1 x hx heq ih =>
    rw [commonLenFrom, if_pos hx, if_pos heq]
    omega
  | case2 x hx hne =>
    rw [commonLenFrom, if_pos hx, if_neg hne]
  | case3 x hx =>
    rw [commonLenFrom, if_neg hx]

theorem commonLenFrom_le (bits : List Nat) (pos : Nat) (cb : List Nat) (maxC : Nat)
    (i : Nat) (h : i ≤ maxC) : commonLenFrom bits pos cb maxC i ≤ maxC := by
  induction i using commonLenFrom.induct bits pos cb maxC with
  | case1 x hx heq ih =>
    rw [commonLenFrom, if_pos hx, if_pos heq]
    exact ih (by omega)
  | case2 x hx hne =>
    rw [commonLenFrom, if_pos hx, if_neg hne]
    exact h
  | case3 x hx =>
    rw [commonLenFrom, if_neg hx]
    exact h

theorem commonLenFrom_agree (bits : List Nat) (pos : Nat) (cb : List Nat) (maxC : Nat)
    (i : Nat) : ∀ j, i ≤ j → j < commonLenFrom bits pos cb maxC i →
      getBit bits (pos + j) = getBit cb j := by
  induction i using commonLenFrom.induct bits pos cb maxC with
  | case1 x hx heq ih =>
    intro j hij hj
    rw [commonLenFrom, if_pos hx, if_pos heq] at hj
    by_cases hxj : j = x
    · subst hxj
      exact heq
    · exact ih j (by omega) hj
  | case2 x hx hne =>
    intro j hij hj
    rw [commonLenFrom, if_pos hx, if_neg hne] at hj
    omega
  | case3 x hx =>
    intro j hij hj
    rw [commonLenFrom, if_neg hx] at hj
    omega

theorem commonLenFrom_stop (bits : List Nat) (pos : Nat) (cb : List Nat) (maxC : Nat)
    (i : Nat) (h : commonLenFrom bits pos cb maxC i < maxC) :
    getBit bits (pos + commonLenFrom bits pos cb maxC i) ≠
      getBit cb (commonLenFrom bits pos cb maxC i) := by
  induction i using commonLenFrom.induct bits pos cb maxC with
  | case1 x hx heq ih =>
    rw [commonLenFrom, if_pos hx, if_pos heq] at h ⊢
    exact ih h
  | case2 x hx hne =>
    rw [commonLenFrom, if_pos hx, if_neg hne] at h ⊢
    exact hne
  | case3 x hx =>
    rw [commonLenFrom, if_neg hx] at h
    omega

theorem lookupMatchFrom_true_iff (bits : List Nat) (pos : Nat) (cb : List Nat)
    (L P : Nat) (i : Nat) :
    lookupMatchFrom bits pos cb L P i = true ↔
      ∀ j, i ≤ j → j < L → j < P → getBit bits (pos + j) = getBit cb j := by
  induction i using lookupMatchFrom.induct bits pos cb L P with
  | case1 x hx heq ih =>
    rw [lookupMatchFrom, if_pos hx, if_pos heq]
    rw [ih]
    constructor
    · intro hall j hij hjL hjP
      by_cases hxj : j = x
      · subst hxj
        exact heq
      · exact hall j (by omega) hjL hjP
    · intro hall j hij hjL hjP
      exact hall j (by omega) hjL hjP
  | case2 x hx hne =>
    rw [lookupMatchFrom, if_pos hx, if_neg hne]
    constructor
    · intro hfalse
      exact absurd hfalse (by simp)
    · intro hall
      exact absurd (hall x (le_refl x) hx.1 hx.2) hne
  | case3 x hx =>
    rw [lookupMatchFrom, if_neg hx]
    constructor
    · intro _ j hij hjL hjP
      exact absurd (And.intro hjL hjP) (by omega)
    · intro _
      rfl

/-! The trie denotation: `nodeBits` is the edge bit-string of a node,
`findKey` the record stored at an exact bit path, `Wf` the structural
invariant maintained by insertion, and `Bounded` the depth bound that
holds for tries whose keys fit the address family. -/

/-- The edge bit sequence of a node: the first `PrefixLen` bits of `Pfx`. -/
def nodeBits (n : TrieNode) : List Nat :=
  bitsSeg n.Pfx 0 n.PrefixLen

/-- The record stored in the trie at the exact bit path `key` below `n`
(a denotation of the structure; lemmas connect it to insert and lookup). -/
def findKey (n : TrieNode) (key : List Nat) : Option PrefixData :=
  match key with
  | [] => n.Data
  | b :: rest =>
    match h : n.child b with
    | none => none
    | some c =>
      if c.PrefixLen ≤ (b :: rest).length ∧ nodeBits c = (b :: rest).take c.PrefixLen then
        findKey c ((b :: rest).drop c.PrefixLen)
      else none
termination_by n.size
decreasing_by exact TrieNode.child_size_lt h

/-- The structural invariant of the Patricia trie: every child has a
non-empty edge whose first bit equals its branch. -/
inductive Wf : TrieNode → Prop where
  | intro (n : TrieNode)
      (h0len : ∀ c, n.Child0 = some c → 1 ≤ c.PrefixLen)
      (h0bit : ∀ c, n.Child0 = some c → getBit c.Pfx 0 = 0)
      (h0wf : ∀ c, n.Child0 = some c → Wf c)
      (h1len : ∀ c, n.Child1 = some c → 1 ≤ c.PrefixLen)
      (h1bit : ∀ c, n.Child1 = some c → getBit c.Pfx 0 = 1)
      (h1wf : ∀ c, n.Child1 = some c → Wf c) :
      Wf n

theorem Wf.childWf {n c : TrieNode} {b : Nat} (hwf : Wf n) (hb : b ≤ 1)
    (h : n.child b = some c) : 1 ≤ c.PrefixLen ∧ getBit c.Pfx 0 = b ∧ Wf c := by
  cases hwf with
  | intro n h0len h0bit h0wf h1len h1bit h1wf =>
    by_cases hb0 : b = 0
    · subst hb0
      exact ⟨h0len c h, h0bit c h, h0wf c h⟩
    · have hb1 : b = 1 := by omega
      subst hb1
      exact ⟨h1len c h, h1bit c h, h1wf c h⟩

/-- Every root-to-leaf edge-length sum below `n` is at most `d`:
no key stored below `n` is longer than `d` extra bits. -/
inductive Bounded : TrieNode → Nat → Prop where
  | intro (n : TrieNode) (d : Nat)
      (h0len : ∀ c, n.Child0 = some c → c.PrefixLen ≤ d)
      (h0bd : ∀ c, n.Child0 = some c → Bounded c (d - c.PrefixLen))
      (h1len : ∀ c, n.Child1 = some c → c.PrefixLen ≤ d)
      (h1bd : ∀ c, n.Child1 = some c → Bounded c (d - c.PrefixLen)) :
      Bounded n d

theorem Bounded.childBd {n c : TrieNode} {b : Nat} {d : Nat} (hbd : Bounded n d)
    (h : n.child b = some c) : c.PrefixLen ≤ d ∧ Bounded c (d - c.PrefixLen) := by
  cases hbd with
  | intro n d h0len h0bd h1len h1bd =>
    by_cases hb0 : b = 0
    · subst hb0
      exact ⟨h0len c h, h0bd c h⟩
    · rw [TrieNode.child_of_ne_zero n hb0] at h
      exact ⟨h1len c h, h1bd c h⟩

theorem bitsSeg_append (data : List Nat) (start a b : Nat) :
    bitsSeg data start (a + b) = bitsSeg data start a ++ bitsSeg data (start + a) b := by
  apply List.ext_getElem?
  intro n
  rw [getElem?_bitsSeg, List.getElem?_append, length_bitsSeg, getElem?_bitsSeg,
    getElem?_bitsSeg]
  by_cases h : n < a
  · rw [if_pos h, if_pos h, if_pos (by omega)]
  · rw [if_neg h]
    have : start + a + (n - a) = start + n := by omega
    rw [this]
    split <;> split <;> first | rfl | omega

theorem ne_of_getElem?_ne {α : Type} {l1 l2 : List α} (j : Nat)
    (h : l1[j]? ≠ l2[j]?) : l1 ≠ l2 := by
  intro heq
  subst heq
  exact h rfl

theorem TrieNode.Child0_setChild_zero (n : TrieNode) (x : Option TrieNode) :
    (n.setChild 0 x).Child0 = x := by
  cases n with
  | mk p l d c0 c1 => simp [TrieNode.setChild]

theorem TrieNode.Child1_setChild_zero (n : TrieNode) (x : Option TrieNode) :
    (n.setChild 0 x).Child1 = n.Child1 := by
  cases n with
  | mk p l d c0 c1 => simp [TrieNode.setChild]

theorem TrieNode.Child0_setChild_ne (n : TrieNode) {b : Nat} (x : Option TrieNode)
    (hb : b ≠ 0) : (n.setChild b x).Child0 = n.Child0 := by
  cases n with
  | mk p l d c0 c1 => simp [TrieNode.setChild, hb]

theorem TrieNode.Child1_setChild_ne (n : TrieNode) {b : Nat} (x : Option TrieNode)
    (hb : b ≠ 0) : (n.setChild b x).Child1 = x := by
  cases n with
  | mk p l d c0 c1 => simp [TrieNode.setChild, hb]

@[simp] theorem TrieNode.Child0_setData (n : TrieNode) (d : Option PrefixData) :
    (n.setData d).Child0 = n.Child0 := by
  cases n; rfl

@[simp] theorem TrieNode.Child1_setData (n : TrieNode) (d : Option PrefixData) :
    (n.setData d).Child1 = n.Child1 := by
  cases n; rfl

theorem TrieNode.child_mk_none (p : List Nat) (l : Nat) (d : Option PrefixData)
    (b : Nat) : (TrieNode.mk p l d none none).child b = none := by
  unfold TrieNode.child
  split <;> rfl

/-! Unfolding equations of `insertRecursive`, one per branch of the Go code. -/

theorem insertRecursive_done (n : TrieNode) (bits : List Nat) (prefixLen : Nat)
    (data : PrefixData) :
    insertRecursive n bits prefixLen prefixLen data = n.setData (some data) := by
  rw [insertRecursive, if_pos rfl]

theorem insertRecursive_nochild {n : TrieNode} {bits : List Nat} {pos prefixLen : Nat}
    (data : PrefixData) (hne : pos ≠ prefixLen)
    (hc : n.child (getBit bits pos) = none) :
    insertRecursive n bits pos prefixLen data =
      n.setChild (getBit bits pos)
        (some (.mk (extractBits bits pos (prefixLen - pos)) (prefixLen - pos)
          (some data) none none)) := by
  rw [insertRecursive, if_neg hne]
  dsimp only
  split
  · rfl
  · rename_i c hsome
    rw [hc] at hsome
    exact absurd hsome (by simp)

theorem insertRecursive_exact {n c : TrieNode} {bits : List Nat} {pos prefixLen cl : Nat}
    (data : PrefixData) (hne : pos ≠ prefixLen)
    (hc : n.child (getBit bits pos) = some c)
    (hcl : commonLenFrom bits pos c.Pfx (min (prefixLen - pos) c.PrefixLen) 0 = cl)
    (h1 : cl = c.PrefixLen) (h2 : cl = prefixLen - pos) :
    insertRecursive n bits pos prefixLen data =
      n.setChild (getBit bits pos) (some (c.setData (some data))) := by
  rw [insertRecursive, if_neg hne]
  dsimp only
  split
  · rename_i hnone
    rw [hc] at hnone
    exact absurd hnone (by simp)
  · rename_i c2 hsome
    rw [hc] at hsome
    injection hsome with hcc
    subst hcc
    rw [hcl, if_pos h1, if_pos h2]

theorem insertRecursive_descend {n c : TrieNode} {bits : List Nat} {pos prefixLen cl : Nat}
    (data : PrefixData) (hne : pos ≠ prefixLen)
    (hc : n.child (getBit bits pos) = some c)
    (hcl : commonLenFrom bits pos c.Pfx (min (prefixLen - pos) c.PrefixLen) 0 = cl)
    (h1 : cl = c.PrefixLen) (h2 : cl ≠ prefixLen - pos) :
    insertRecursive n bits pos prefixLen data =
      n.setChild (getBit bits pos)
        (some (insertRecursive c bits (pos + c.PrefixLen) prefixLen data)) := by
  rw [insertRecursive, if_neg hne]
  dsimp only
  split
  · rename_i hnone
    rw [hc] at hnone
    exact absurd hnone (by simp)
  · rename_i c2 hsome
    rw [hc] at hsome
    injection hsome with hcc
    subst hcc
    rw [if_pos (hcl ▸ h1), if_neg (hcl ▸ h2)]

theorem insertRecursive_split_end {n c : TrieNode} {bits : List Nat}
    {pos prefixLen cl : Nat}
    (data : PrefixData) (hne : pos ≠ prefixLen)
    (hc : n.child (getBit bits pos) = some c)
    (hcl : commonLenFrom bits pos c.Pfx (min (prefixLen - pos) c.PrefixLen) 0 = cl)
    (h1 : cl ≠ c.PrefixLen) (h2 : cl = prefixLen - pos) :
    insertRecursive n bits pos prefixLen data =
      n.setChild (getBit bits pos)
        (some (((TrieNode.mk (extractBits bits pos cl) cl none none none).setChild (getBitFromSlice c.Pfx cl) (some (TrieNode.mk (extractBitsFromSlice c.Pfx cl (c.PrefixLen - cl)) (c.PrefixLen - cl) c.Data c.Child0 c.Child1))).setData (some data))) := by
  rw [insertRecursive, if_neg hne]
  dsimp only
  split
  · rename_i hnone
    rw [hc] at hnone
    exact absurd hnone (by simp)
  · rename_i c2 hsome
    rw [hc] at hsome
    injection hsome with hcc
    subst hcc
    rw [hcl, if_neg h1, if_pos h2]

theorem insertRecursive_split_mid {n c : TrieNode} {bits : List Nat}
    {pos prefixLen cl : Nat}
    (data : PrefixData) (hne : pos ≠ prefixLen)
    (hc : n.child (getBit bits pos) = some c)
    (hcl : commonLenFrom bits pos c.Pfx (min (prefixLen - pos) c.PrefixLen) 0 = cl)
    (h1 : cl ≠ c.PrefixLen) (h2 : cl ≠ prefixLen - pos) :
    insertRecursive n bits pos prefixLen data =
      n.setChild (getBit bits pos)
        (some (((TrieNode.mk (extractBits bits pos cl) cl none none none).setChild (getBitFromSlice c.Pfx cl) (some (TrieNode.mk (extractBitsFromSlice c.Pfx cl (c.PrefixLen - cl)) (c.PrefixLen - cl) c.Data c.Child0 c.Child1))).setChild (getBit bits (pos + cl)) (some (TrieNode.mk (extractBits bits (pos + cl) (prefixLen - pos - cl)) (prefixLen - pos - cl) (some data) none none)))) := by
  rw [insertRecursive, if_neg hne]
  dsimp only
  split
  · rename_i hnone
    rw [hc] at hnone
    exact absurd hnone (by simp)
  · rename_i c2 hsome
    rw [hc] at hsome
    injection hsome with hcc
    subst hcc
    rw [hcl, if_neg h1, if_neg h2]

theorem extractBits_getBit_zero {bits : List Nat} {pos L : Nat} (h : 0 < L) :
    getBit (extractBits bits pos L) 0 = getBit bits pos := by
  rw [extractBits_getBit, if_pos h, Nat.add_zero]

theorem commonLenFrom_one_le {bits : List Nat} {pos : Nat} {cb : List Nat} {maxC : Nat}
    (h0 : getBit bits pos = getBit cb 0) (hmax : 0 < maxC) :
    1 ≤ commonLenFrom bits pos cb maxC 0 := by
  by_contra hlt
  have hz : commonLenFrom bits pos cb maxC 0 = 0 := by omega
  have := commonLenFrom_stop bits pos cb maxC 0 (by omega)
  rw [hz, Nat.add_zero] at this
  exact this h0

theorem bitsSeg_agree_of_commonLen {bits : List Nat} {pos : Nat} {cb : List Nat}
    {maxC : Nat} (L : Nat) (hL : L ≤ commonLenFrom bits pos cb maxC 0) :
    bitsSeg cb 0 L = bitsSeg bits pos L := by
  apply List.ext_getElem?
  intro j
  rw [getElem?_bitsSeg, getElem?_bitsSeg]
  split
  · rename_i hj
    rw [Nat.zero_add]
    rw [(commonLenFrom_agree bits pos cb maxC 0 j (by omega) (by omega)).symm]
  · rfl

/-! Shape preservation: `insertRecursive` never changes the edge of the
node it is called on, and changes its record only when the key ends there. -/

theorem insertRecursive_Pfx_PrefixLen (n : TrieNode) (bits : List Nat)
    (pos prefixLen : Nat) (data : PrefixData) :
    (insertRecursive n bits pos prefixLen data).Pfx = n.Pfx ∧
    (insertRecursive n bits pos prefixLen data).PrefixLen = n.PrefixLen := by
  induction n, bits, pos, prefixLen, data using insertRecursive.induct with
  | case1 node bits prefixLen data =>
    rw [insertRecursive_done]
    simp
  | case2 node bits pos prefixLen data hne bit hc =>
    rw [insertRecursive_nochild data hne hc]
    simp
  | case3 node bits pos prefixLen data hne bit child hc childBits childLen remainingLen commonLen h1 h2 =>
    rw [insertRecursive_exact data hne hc rfl h1 h2]
    simp
  | case4 node bits pos prefixLen data hne bit child hc childBits childLen remainingLen commonLen h1 h2 ih =>
    rw [insertRecursive_descend data hne hc rfl h1 h2]
    simp
  | case5 node bits pos prefixLen data hne bit child hc childBits childLen remainingLen commonLen h1 h2 =>
    rw [insertRecursive_split_end data hne hc rfl h1 h2]
    simp
  | case6 node bits pos prefixLen data hne bit child hc childBits childLen remainingLen commonLen h1 h2 =>
    rw [insertRecursive_split_mid data hne hc rfl h1 h2]
    simp

theorem nodeBits_insertRecursive (n : TrieNode) (bits : List Nat)
    (pos prefixLen : Nat) (data : PrefixData) :
    nodeBits (insertRecursive n bits pos prefixLen data) = nodeBits n := by
  unfold nodeBits
  rw [(insertRecursive_Pfx_PrefixLen n bits pos prefixLen data).1,
    (insertRecursive_Pfx_PrefixLen n bits pos prefixLen data).2]

theorem insertRecursive_Data_of_ne {n : TrieNode} {bits : List Nat}
    {pos prefixLen : Nat} {data : PrefixData} (hne : pos ≠ prefixLen) :
    (insertRecursive n bits pos prefixLen data).Data = n.Data := by
  induction n, bits, pos, prefixLen, data using insertRecursive.induct with
  | case1 node bits prefixLen data => exact absurd rfl hne
  | case2 node bits pos prefixLen data hne2 bit hc =>
    rw [insertRecursive_nochild data hne2 hc]
    simp
  | case3 node bits pos prefixLen data hne2 bit child hc childBits childLen remainingLen commonLen h1 h2 =>
    rw [insertRecursive_exact data hne2 hc rfl h1 h2]
    simp
  | case4 node bits pos prefixLen data hne2 bit child hc childBits childLen remainingLen commonLen h1 h2 ih =>
    rw [insertRecursive_descend data hne2 hc rfl h1 h2]
    simp
  | case5 node bits pos prefixLen data hne2 bit child hc childBits childLen remainingLen commonLen h1 h2 =>
    rw [insertRecursive_split_end data hne2 hc rfl h1 h2]
    simp
  | case6 node bits pos prefixLen data hne2 bit child hc childBits childLen remainingLen commonLen h1 h2 =>
    rw [insertRecursive_split_mid data hne2 hc rfl h1 h2]
    simp

/-! Unfolding and congruence lemmas for `findKey`. -/

theorem findKey_nil (n : TrieNode) : findKey n [] = n.Data := by
  rw [findKey]

theorem findKey_cons_none {n : TrieNode} {b : Nat} (rest : List Nat)
    (hc : n.child b = none) : findKey n (b :: rest) = none := by
  rw [findKey]
  split
  · rfl
  · rename_i c hsome
    rw [hc] at hsome
    exact absurd hsome (by simp)

theorem findKey_cons_some {n c : TrieNode} {b : Nat} (rest : List Nat)
    (hc : n.child b = some c) :
    findKey n (b :: rest) =
      if c.PrefixLen ≤ (b :: rest).length ∧
          nodeBits c = (b :: rest).take c.PrefixLen then
        findKey c ((b :: rest).drop c.PrefixLen)
      else none := by
  rw [findKey]
  split
  · rename_i hnone
    rw [hc] at hnone
    exact absurd hnone (by simp)
  · rename_i c2 hsome
    rw [hc] at hsome
    injection hsome with hcc
    subst hcc
    rfl

theorem findKey_cons_congr {m n : TrieNode} {b : Nat} (rest : List Nat)
    (h : m.child b = n.child b) : findKey m (b :: rest) = findKey n (b :: rest) := by
  cases hc : n.child b with
  | none =>
    rw [findKey_cons_none rest (h.trans hc), findKey_cons_none rest hc]
  | some c =>
    rw [findKey_cons_some rest (h.trans hc), findKey_cons_some rest hc]

theorem findKey_eq_of_same_children {m n : TrieNode} (hd : m.Data = n.Data)
    (h0 : m.Child0 = n.Child0) (h1 : m.Child1 = n.Child1) (k : List Nat) :
    findKey m k = findKey n k := by
  cases k with
  | nil => rw [findKey_nil, findKey_nil, hd]
  | cons b rest =>
    apply findKey_cons_congr
    unfold TrieNode.child
    rw [h0, h1]

theorem findKey_setData_cons (n : TrieNode) (d : Option PrefixData) (b : Nat)
    (rest : List Nat) : findKey (n.setData d) (b :: rest) = findKey n (b :: rest) := by
  apply findKey_cons_congr
  rw [TrieNode.child_setData]

/-! Construction lemmas for the invariants. -/

theorem Wf_leaf (p : List Nat) (l : Nat) (d : Option PrefixData) :
    Wf (.mk p l d none none) := by
  constructor <;> intro c hc <;> simp at hc

theorem Wf_of_same_children {c sc : TrieNode} (h : Wf c) (h0 : sc.Child0 = c.Child0)
    (h1 : sc.Child1 = c.Child1) : Wf sc := by
  cases h with
  | intro c h0len h0bit h0wf h1len h1bit h1wf =>
    constructor
    · intro x hx; exact h0len x (h0 ▸ hx)
    · intro x hx; exact h0bit x (h0 ▸ hx)
    · intro x hx; exact h0wf x (h0 ▸ hx)
    · intro x hx; exact h1len x (h1 ▸ hx)
    · intro x hx; exact h1bit x (h1 ▸ hx)
    · intro x hx; exact h1wf x (h1 ▸ hx)

theorem Wf_setData {n : TrieNode} (h : Wf n) (d : Option PrefixData) :
    Wf (n.setData d) :=
  Wf_of_same_children h (TrieNode.Child0_setData n d) (TrieNode.Child1_setData n d)

theorem Wf_setChild {n c : TrieNode} {bit : Nat} (hwf : Wf n) (hbit : bit ≤ 1)
    (h1 : 1 ≤ c.PrefixLen) (h2 : getBit c.Pfx 0 = bit) (h3 : Wf c) :
    Wf (n.setChild bit (some c)) := by
  cases hwf with
  | intro n h0len h0bit h0wf h1len h1bit h1wf =>
    by_cases hz : bit = 0
    · subst hz
      constructor
      · intro x hx
        rw [TrieNode.Child0_setChild_zero] at hx
        injection hx with hx
        subst hx; exact h1
      · intro x hx
        rw [TrieNode.Child0_setChild_zero] at hx
        injection hx with hx
        subst hx; exact h2
      · intro x hx
        rw [TrieNode.Child0_setChild_zero] at hx
        injection hx with hx
        subst hx; exact h3
      · intro x hx
        rw [TrieNode.Child1_setChild_zero] at hx
        exact h1len x hx
      · intro x hx
        rw [TrieNode.Child1_setChild_zero] at hx
        exact h1bit x hx
      · intro x hx
        rw [TrieNode.Child1_setChild_zero] at hx
        exact h1wf x hx
    · have hone : bit = 1 := by omega
      constructor
      · intro x hx
        rw [TrieNode.Child0_setChild_ne n _ hz] at hx
        exact h0len x hx
      · intro x hx
        rw [TrieNode.Child0_setChild_ne n _ hz] at hx
        exact h0bit x hx
      · intro x hx
        rw [TrieNode.Child0_setChild_ne n _ hz] at hx
        exact h0wf x hx
      · intro x hx
        rw [TrieNode.Child1_setChild_ne n _ hz] at hx
        injection hx with hx
        subst hx; exact h1
      · intro x hx
        rw [TrieNode.Child1_setChild_ne n _ hz] at hx
        injection hx with hx
        subst hx; rw [h2, hone]
      · intro x hx
        rw [TrieNode.Child1_setChild_ne n _ hz] at hx
        injection hx with hx
        subst hx; exact h3

theorem Bounded_leaf (p : List Nat) (l : Nat) (d : Option PrefixData) (bound : Nat) :
    Bounded (.mk p l d none none) bound := by
  constructor <;> intro c hc <;> simp at hc

theorem Bounded_of_same_children {c sc : TrieNode} {d : Nat} (h : Bounded c d)
    (h0 : sc.Child0 = c.Child0) (h1 : sc.Child1 = c.Child1) : Bounded sc d := by
  cases h with
  | intro c d h0len h0bd h1len h1bd =>
    constructor
    · intro x hx; exact h0len x (h0 ▸ hx)
    · intro x hx; exact h0bd x (h0 ▸ hx)
    · intro x hx; exact h1len x (h1 ▸ hx)
    · intro x hx; exact h1bd x (h1 ▸ hx)

theorem Bounded_setData {n : TrieNode} {d : Nat} (h : Bounded n d)
    (x : Option PrefixData) : Bounded (n.setData x) d :=
  Bounded_of_same_children h (TrieNode.Child0_setData n x) (TrieNode.Child1_setData n x)

theorem Bounded_setChild {n c : TrieNode} {bit d : Nat} (hbd : Bounded n d)
    (h1 : c.PrefixLen ≤ d) (h2 : Bounded c (d - c.PrefixLen)) :
    Bounded (n.setChild bit (some c)) d := by
  cases hbd with
  | intro n d h0len h0bd h1len h1bd =>
    by_cases hz : bit = 0
    · subst hz
      constructor
      · intro x hx
        rw [TrieNode.Child0_setChild_zero] at hx
        injection hx with hx
        subst hx; exact h1
      · intro x hx
        rw [TrieNode.Child0_setChild_zero] at hx
        injection hx with hx
        subst hx; exact h2
      · intro x hx
        rw [TrieNode.Child1_setChild_zero] at hx
        exact h1len x hx
      · intro x hx
        rw [TrieNode.Child1_setChild_zero] at hx
        exact h1bd x hx
    · constructor
      · intro x hx
        rw [TrieNode.Child0_setChild_ne n _ hz] at hx
        exact h0len x hx
      · intro x hx
        rw [TrieNode.Child0_setChild_ne n _ hz] at hx
        exact h0bd x hx
      · intro x hx
        rw [TrieNode.Child1_setChild_ne n _ hz] at hx
        injection hx with hx
        subst hx; exact h1
      · intro x hx
        rw [TrieNode.Child1_setChild_ne n _ hz] at hx
        injection hx with hx
        subst hx; exact h2

theorem Wf_insertRecursive {n : TrieNode} {bits : List Nat} {pos prefixLen : Nat}
    {data : PrefixData} (hwf : Wf n) (hpos : pos ≤ prefixLen) :
    Wf (insertRecursive n bits pos prefixLen data) := by
  induction n, bits, pos, prefixLen, data using insertRecursive.induct with
  | case1 node bits prefixLen data =>
    rw [insertRecursive_done]
    exact Wf_setData hwf _
  | case2 node bits pos prefixLen data hne bit hc =>
    rw [insertRecursive_nochild data hne hc]
    have hrem : 1 ≤ prefixLen - pos := by omega
    refine Wf_setChild hwf (getBit_le_one bits pos) (by simpa using hrem) ?_ (Wf_leaf _ _ _)
    simpa using extractBits_getBit_zero (by omega)
  | case3 node bits pos prefixLen data hne bit child hc childBits childLen remainingLen commonLen h1 h2 =>
    rw [insertRecursive_exact data hne hc rfl h1 h2]
    obtain ⟨hclen, hcbit, hcwf⟩ := hwf.childWf (getBit_le_one bits pos) hc
    refine Wf_setChild hwf (getBit_le_one bits pos) (by simpa using hclen)
      (by simpa using hcbit) (Wf_setData hcwf _)
  | case4 node bits pos prefixLen data hne bit child hc childBits childLen remainingLen commonLen h1 h2 ih =>
    rw [insertRecursive_descend data hne hc rfl h1 h2]
    obtain ⟨hclen, hcbit, hcwf⟩ := hwf.childWf (getBit_le_one bits pos) hc
    have hccl : commonLenFrom bits pos child.Pfx
        (min (prefixLen - pos) child.PrefixLen) 0 = child.PrefixLen := h1
    have hcne : commonLenFrom bits pos child.Pfx
        (min (prefixLen - pos) child.PrefixLen) 0 ≠ prefixLen - pos := h2
    have hle := commonLenFrom_le bits pos child.Pfx
      (min (prefixLen - pos) child.PrefixLen) 0 (Nat.zero_le _)
    have hlep : pos + child.PrefixLen ≤ prefixLen := by omega
    have hp := insertRecursive_Pfx_PrefixLen child bits (pos + child.PrefixLen) prefixLen data
    refine Wf_setChild hwf (getBit_le_one bits pos) ?_ ?_ (ih hcwf hlep)
    · rw [hp.2]
      exact hclen
    · rw [hp.1]
      exact hcbit
  | case5 node bits pos prefixLen data hne bit child hc childBits childLen remainingLen commonLen h1 h2 =>
    rw [insertRecursive_split_end data hne hc rfl h1 h2]
    obtain ⟨hclen, hcbit, hcwf⟩ := hwf.childWf (getBit_le_one bits pos) hc
    have hcne : commonLenFrom bits pos child.Pfx
        (min (prefixLen - pos) child.PrefixLen) 0 ≠ child.PrefixLen := h1
    have hle := commonLenFrom_le bits pos child.Pfx
      (min (prefixLen - pos) child.PrefixLen) 0 (Nat.zero_le _)
    have hone : 1 ≤ commonLenFrom bits pos child.Pfx
        (min (prefixLen - pos) child.PrefixLen) 0 :=
      commonLenFrom_one_le hcbit.symm (by omega)
    have hsc : Wf (TrieNode.mk (extractBitsFromSlice child.Pfx
        (commonLenFrom bits pos child.Pfx (min (prefixLen - pos) child.PrefixLen) 0)
        (child.PrefixLen - commonLenFrom bits pos child.Pfx
          (min (prefixLen - pos) child.PrefixLen) 0))
        (child.PrefixLen - commonLenFrom bits pos child.Pfx
          (min (prefixLen - pos) child.PrefixLen) 0)
        child.Data child.Child0 child.Child1) :=
      Wf_of_same_children hcwf (by simp) (by simp)
    refine Wf_setChild hwf (getBit_le_one bits pos) (by simpa using hone) ?_
      (Wf_setData ?_ _)
    · simpa using extractBits_getBit_zero (by omega)
    · refine Wf_setChild (Wf_leaf _ _ _) (getBit_le_one child.Pfx _)
        (by simpa using by omega) ?_ hsc
      show getBit (extractBitsFromSlice child.Pfx _ _) 0 = _
      unfold extractBitsFromSlice getBitFromSlice
      exact extractBits_getBit_zero (by omega)
  | case6 node bits pos prefixLen data hne bit child hc childBits childLen remainingLen commonLen h1 h2 =>
    rw [insertRecursive_split_mid data hne hc rfl h1 h2]
    obtain ⟨hclen, hcbit, hcwf⟩ := hwf.childWf (getBit_le_one bits pos) hc
    have hcne : commonLenFrom bits pos child.Pfx
        (min (prefixLen - pos) child.PrefixLen) 0 ≠ child.PrefixLen := h1
    have hcne2 : commonLenFrom bits pos child.Pfx
        (min (prefixLen - pos) child.PrefixLen) 0 ≠ prefixLen - pos := h2
    have hle := commonLenFrom_le bits pos child.Pfx
      (min (prefixLen - pos) child.PrefixLen) 0 (Nat.zero_le _)
    have hone : 1 ≤ commonLenFrom bits pos child.Pfx
        (min (prefixLen - pos) child.PrefixLen) 0 :=
      commonLenFrom_one_le hcbit.symm (by omega)
    have hsc : Wf (TrieNode.mk (extractBitsFromSlice child.Pfx
        (commonLenFrom bits pos child.Pfx (min (prefixLen - pos) child.PrefixLen) 0)
        (child.PrefixLen - commonLenFrom bits pos child.Pfx
          (min (prefixLen - pos) child.PrefixLen) 0))
        (child.PrefixLen - commonLenFrom bits pos child.Pfx
          (min (prefixLen - pos) child.PrefixLen) 0)
        child.Data child.Child0 child.Child1) :=
      Wf_of_same_children hcwf (by simp) (by simp)
    refine Wf_setChild hwf (getBit_le_one bits pos) (by simpa using hone) ?_ ?_
    · simpa using extractBits_getBit_zero (by omega)
    · refine Wf_setChild ?_ (getBit_le_one bits _) (by simpa using by omega) ?_
        (Wf_leaf _ _ _)
      · refine Wf_setChild (Wf_leaf _ _ _) (getBit_le_one child.Pfx _)
          (by simpa using by omega) ?_ hsc
        show getBit (extractBitsFromSlice child.Pfx _ _) 0 = _
        unfold extractBitsFromSlice getBitFromSlice
        exact extractBits_getBit_zero (by omega)
      · simpa using extractBits_getBit_zero (by omega)

theorem Bounded_insertRecursive_all (n : TrieNode) (bits : List Nat)
    (pos prefixLen : Nat) (data : PrefixData) :
    ∀ d, Bounded n d → pos ≤ prefixLen → prefixLen - pos ≤ d →
      Bounded (insertRecursive n bits pos prefixLen data) d := by
  induction n, bits, pos, prefixLen, data using insertRecursive.induct with
  | case1 node bits prefixLen data =>
    intro d hbd hpos hd
    rw [insertRecursive_done]
    exact Bounded_setData hbd _
  | case2 node bits pos prefixLen data hne bit hc =>
    intro d hbd hpos hd
    rw [insertRecursive_nochild data hne hc]
    exact Bounded_setChild hbd (by simpa using hd) (Bounded_leaf _ _ _ _)
  | case3 node bits pos prefixLen data hne bit child hc childBits childLen remainingLen commonLen h1 h2 =>
    intro d hbd hpos hd
    rw [insertRecursive_exact data hne hc rfl h1 h2]
    obtain ⟨hclen, hcbd⟩ := hbd.childBd hc
    exact Bounded_setChild hbd (by simpa using hclen) (by simpa using Bounded_setData hcbd _)
  | case4 node bits pos prefixLen data hne bit child hc childBits childLen remainingLen commonLen h1 h2 ih =>
    intro d hbd hpos hd
    rw [insertRecursive_descend data hne hc rfl h1 h2]
    obtain ⟨hclen, hcbd⟩ := hbd.childBd hc
    have hccl : commonLenFrom bits pos child.Pfx
        (min (prefixLen - pos) child.PrefixLen) 0 = child.PrefixLen := h1
    have hle := commonLenFrom_le bits pos child.Pfx
      (min (prefixLen - pos) child.PrefixLen) 0 (Nat.zero_le _)
    have hp := insertRecursive_Pfx_PrefixLen child bits (pos + child.PrefixLen) prefixLen data
    refine Bounded_setChild hbd ?_ ?_
    · rw [hp.2]
      exact hclen
    · rw [hp.2]
      exact ih (d - child.PrefixLen) hcbd (by omega) (by omega)
  | case5 node bits pos prefixLen data hne bit child hc childBits childLen remainingLen commonLen h1 h2 =>
    intro d hbd hpos hd
    rw [insertRecursive_split_end data hne hc rfl h1 h2]
    obtain ⟨hclen, hcbd⟩ := hbd.childBd hc
    have hcne : commonLenFrom bits pos child.Pfx
        (min (prefixLen - pos) child.PrefixLen) 0 ≠ child.PrefixLen := h1
    have hceq : commonLenFrom bits pos child.Pfx
        (min (prefixLen - pos) child.PrefixLen) 0 = prefixLen - pos := h2
    have hle := commonLenFrom_le bits pos child.Pfx
      (min (prefixLen - pos) child.PrefixLen) 0 (Nat.zero_le _)
    have hsc : Bounded (TrieNode.mk (extractBitsFromSlice child.Pfx
        (commonLenFrom bits pos child.Pfx (min (prefixLen - pos) child.PrefixLen) 0)
        (child.PrefixLen - commonLenFrom bits pos child.Pfx
          (min (prefixLen - pos) child.PrefixLen) 0))
        (child.PrefixLen - commonLenFrom bits pos child.Pfx
          (min (prefixLen - pos) child.PrefixLen) 0)
        child.Data child.Child0 child.Child1) (d - child.PrefixLen) :=
      Bounded_of_same_children hcbd (by simp) (by simp)
    refine Bounded_setChild hbd (by simpa using by omega) (Bounded_setData ?_ _)
    refine Bounded_setChild (Bounded_leaf _ _ _ _) (by simpa using by omega) ?_
    have harith : d - commonLenFrom bits pos child.Pfx
        (min (prefixLen - pos) child.PrefixLen) 0 -
        (child.PrefixLen - commonLenFrom bits pos child.Pfx
          (min (prefixLen - pos) child.PrefixLen) 0) = d - child.PrefixLen := by
      omega
    simpa [harith] using hsc
  | case6 node bits pos prefixLen data hne bit child hc childBits childLen remainingLen commonLen h1 h2 =>
    intro d hbd hpos hd
    rw [insertRecursive_split_mid data hne hc rfl h1 h2]
    obtain ⟨hclen, hcbd⟩ := hbd.childBd hc
    have hcne : commonLenFrom bits pos child.Pfx
        (min (prefixLen - pos) child.PrefixLen) 0 ≠ child.PrefixLen := h1
    have hcne2 : commonLenFrom bits pos child.Pfx
        (min (prefixLen - pos) child.PrefixLen) 0 ≠ prefixLen - pos := h2
    have hle := commonLenFrom_le bits pos child.Pfx
      (min (prefixLen - pos) child.PrefixLen) 0 (Nat.zero_le _)
    have hsc : Bounded (TrieNode.mk (extractBitsFromSlice child.Pfx
        (commonLenFrom bits pos child.Pfx (min (prefixLen - pos) child.PrefixLen) 0)
        (child.PrefixLen - commonLenFrom bits pos child.Pfx
          (min (prefixLen - pos) child.PrefixLen) 0))
        (child.PrefixLen - commonLenFrom bits pos child.Pfx
          (min (prefixLen - pos) child.PrefixLen) 0)
        child.Data child.Child0 child.Child1) (d - child.PrefixLen) :=
      Bounded_of_same_children hcbd (by simp) (by simp)
    refine Bounded_setChild hbd (by simpa using by omega) ?_
    refine Bounded_setChild ?_ (by simpa using by omega) (Bounded_leaf _ _ _ _)
    refine Bounded_setChild (Bounded_leaf _ _ _ _) (by simpa using by omega) ?_
    have harith : d - commonLenFrom bits pos child.Pfx
        (min (prefixLen - pos) child.PrefixLen) 0 -
        (child.PrefixLen - commonLenFrom bits pos child.Pfx
          (min (prefixLen - pos) child.PrefixLen) 0) = d - child.PrefixLen := by
      omega
    simpa [harith] using hsc

theorem Bounded_insertRecursive {n : TrieNode} {bits : List Nat} {pos prefixLen d : Nat}
    {data : PrefixData} (hbd : Bounded n d) (hpos : pos ≤ prefixLen)
    (hd : prefixLen - pos ≤ d) :
    Bounded (insertRecursive n bits pos prefixLen data) d :=
  Bounded_insertRecursive_all n bits pos prefixLen data d hbd hpos hd

theorem length_nodeBits (n : TrieNode) : (nodeBits n).length = n.PrefixLen := by
  unfold nodeBits
  exact length_bitsSeg _ _ _

theorem nodeBits_setData (n : TrieNode) (d : Option PrefixData) :
    nodeBits (n.setData d) = nodeBits n := by
  unfold nodeBits
  rw [TrieNode.Pfx_setData, TrieNode.PrefixLen_setData]

theorem nodeBits_mk_extract (bits : List Nat) (pos L : Nat) (d : Option PrefixData)
    (x y : Option TrieNode) :
    nodeBits (.mk (extractBits bits pos L) L d x y) = bitsSeg bits pos L := by
  unfold nodeBits
  rw [TrieNode.Pfx_mk, TrieNode.PrefixLen_mk]
  exact bitsSeg_extractBits bits pos L L (le_refl L)

theorem bitsSeg_ne_nil {bits : List Nat} {pos L : Nat} (h : 0 < L) :
    bitsSeg bits pos L ≠ [] := by
  intro hcon
  have := length_bitsSeg bits pos L
  rw [hcon] at this
  simp at this
  omega

theorem getBitFromSlice_eq (d : List Nat) (p : Nat) :
    getBitFromSlice d p = getBit d p := rfl

theorem extractBitsFromSlice_eq (d : List Nat) (s L : Nat) :
    extractBitsFromSlice d s L = extractBits d s L := rfl

theorem nodeBits_setChild (n : TrieNode) (b : Nat) (c : Option TrieNode) :
    nodeBits (n.setChild b c) = nodeBits n := by
  unfold nodeBits
  rw [TrieNode.Pfx_setChild, TrieNode.PrefixLen_setChild]

theorem bitsSeg_split (data : List Nat) (start L m : Nat) (h : m ≤ L) :
    bitsSeg data start L = bitsSeg data start m ++ bitsSeg data (start + m) (L - m) := by
  have harith : L = m + (L - m) := by omega
  calc bitsSeg data start L = bitsSeg data start (m + (L - m)) := by rw [← harith]
    _ = bitsSeg data start m ++ bitsSeg data (start + m) (L - m) := bitsSeg_append _ _ _ _

theorem take_append_length {α : Type} (l1 l2 : List α) (n : Nat) (h : n = l1.length) :
    (l1 ++ l2).take n = l1 := by
  subst h
  exact List.take_left l1 l2

set_option maxHeartbeats 1000000 in
/-- Full characterization of insertion: after inserting a key, `findKey`
answers the inserted data exactly at that key and is unchanged elsewhere. -/
theorem findKey_insertRecursive_all (n : TrieNode) (bits : List Nat)
    (pos prefixLen : Nat) (data : PrefixData) :
    Wf n → pos ≤ prefixLen → ∀ k : List Nat, (∀ b ∈ k, b ≤ 1) →
      findKey (insertRecursive n bits pos prefixLen data) k =
        if k = bitsSeg bits pos (prefixLen - pos) then some data
        else findKey n k := by
  induction n, bits, pos, prefixLen, data using insertRecursive.induct with
  | case1 node bits prefixLen data =>
    intro hwf hpos k hk
    rw [insertRecursive_done, Nat.sub_self, bitsSeg_zero]
    cases k with
    | nil =>
      rw [if_pos rfl, findKey_nil, TrieNode.Data_setData]
    | cons b rest =>
      rw [if_neg (by simp), findKey_setData_cons]
  | case2 node bits pos prefixLen data hne bit hc =>
    intro hwf hpos k hk
    rw [insertRecursive_nochild data hne hc]
    have hrem : 1 ≤ prefixLen - pos := by omega
    cases k with
    | nil =>
      rw [if_neg (fun h => bitsSeg_ne_nil (by omega) h.symm), findKey_nil,
        TrieNode.Data_setChild, findKey_nil]
    | cons b rest =>
      have hb : b ≤ 1 := hk b (by simp)
      by_cases hbb : b = getBit bits pos
      · subst hbb
        rw [findKey_cons_some rest (TrieNode.child_setChild_same node _ _)]
        rw [findKey_cons_none rest hc]
        rw [TrieNode.PrefixLen_mk, nodeBits_mk_extract]
        by_cases hKk : getBit bits pos :: rest = bitsSeg bits pos (prefixLen - pos)
        · rw [if_pos hKk]
          have hlen : (getBit bits pos :: rest).length = prefixLen - pos := by
            rw [hKk, length_bitsSeg]
          rw [if_pos ⟨by omega, by rw [hKk, take_bitsSeg, min_self]⟩]
          rw [← hlen, List.drop_length, findKey_nil, TrieNode.Data_mk]
        · rw [if_neg hKk]
          split
          · rename_i hcond
            obtain ⟨hlen1, htake⟩ := hcond
            have hsplit := List.take_append_drop (prefixLen - pos) (getBit bits pos :: rest)
            cases hdrop : (getBit bits pos :: rest).drop (prefixLen - pos) with
            | nil =>
              exfalso
              apply hKk
              rw [← hsplit, hdrop, ← htake]
              simp
            | cons t ts =>
              exact findKey_cons_none ts (TrieNode.child_mk_none _ _ _ _)
          · rfl
      · rw [findKey_cons_congr rest
          (TrieNode.child_setChild_other node (some _) (getBit_le_one bits pos) hb hbb)]
        have hne2 : (b :: rest) ≠ bitsSeg bits pos (prefixLen - pos) := by
          apply ne_of_getElem?_ne 0
          rw [getElem?_bitsSeg, if_pos (by omega), Nat.add_zero,
            List.getElem?_cons_zero]
          simp only [ne_eq, Option.some.injEq]
          exact hbb
        rw [if_neg hne2]
  | case3 node bits pos prefixLen data hne bit child hc childBits childLen remainingLen commonLen h1 h2 =>
    intro hwf hpos k hk
    rw [insertRecursive_exact data hne hc rfl h1 h2]
    obtain ⟨hclen, hcbit, hcwf⟩ := hwf.childWf (getBit_le_one bits pos) hc
    have hccl : commonLenFrom bits pos child.Pfx
        ((prefixLen - pos) ⊓ child.PrefixLen) 0 = child.PrefixLen := h1
    have hceq : commonLenFrom bits pos child.Pfx
        ((prefixLen - pos) ⊓ child.PrefixLen) 0 = prefixLen - pos := h2
    have hcp : child.PrefixLen = prefixLen - pos := by omega
    have hnb : nodeBits child = bitsSeg bits pos (prefixLen - pos) := by
      unfold nodeBits
      rw [@bitsSeg_agree_of_commonLen bits pos child.Pfx
        ((prefixLen - pos) ⊓ child.PrefixLen) child.PrefixLen (by omega), hcp]
    have hrem : 1 ≤ prefixLen - pos := by omega
    cases k with
    | nil =>
      rw [if_neg (fun h => bitsSeg_ne_nil (by omega) h.symm), findKey_nil,
        TrieNode.Data_setChild, findKey_nil]
    | cons b rest =>
      have hb : b ≤ 1 := hk b (by simp)
      by_cases hbb : b = getBit bits pos
      · subst hbb
        have hklen : (getBit bits pos :: rest).length = rest.length + 1 := by simp
        rw [findKey_cons_some rest (TrieNode.child_setChild_same node _ _)]
        rw [findKey_cons_some rest hc]
        rw [TrieNode.PrefixLen_setData, nodeBits_setData]
        by_cases hcond : child.PrefixLen ≤ (getBit bits pos :: rest).length ∧
            nodeBits child = (getBit bits pos :: rest).take child.PrefixLen
        · rw [if_pos hcond, if_pos hcond]
          by_cases hKk : getBit bits pos :: rest = bitsSeg bits pos (prefixLen - pos)
          · rw [if_pos hKk]
            have hlen : (getBit bits pos :: rest).length = prefixLen - pos := by
              rw [hKk, length_bitsSeg]
            have hdrop : (getBit bits pos :: rest).drop child.PrefixLen = [] := by
              rw [hcp, ← hlen, List.drop_length]
            rw [hdrop, findKey_nil, TrieNode.Data_setData]
          · rw [if_neg hKk]
            cases hdrop : (getBit bits pos :: rest).drop child.PrefixLen with
            | nil =>
              exfalso
              apply hKk
              have hlen2 : (getBit bits pos :: rest).length ≤ child.PrefixLen := by
                have := congrArg List.length hdrop
                rw [List.length_drop] at this
                simp at this
                omega
              have htk : (getBit bits pos :: rest).take child.PrefixLen =
                  getBit bits pos :: rest := by
                apply List.take_of_length_le
                omega
              rw [htk] at hcond
              rw [← hcond.2, hnb]
            | cons t ts =>
              exact findKey_setData_cons child (some data) t ts
        · rw [if_neg hcond, if_neg hcond]
          have hKk : ¬ (getBit bits pos :: rest = bitsSeg bits pos (prefixLen - pos)) := by
            intro hKk
            apply hcond
            have hlen : (getBit bits pos :: rest).length = prefixLen - pos := by
              rw [hKk, length_bitsSeg]
            constructor
            · omega
            · rw [hnb, hKk, take_bitsSeg]
              congr 1
              omega
          rw [if_neg hKk]
      · rw [findKey_cons_congr rest
          (TrieNode.child_setChild_other node (some _) (getBit_le_one bits pos) hb hbb)]
        have hne2 : (b :: rest) ≠ bitsSeg bits pos (prefixLen - pos) := by
          apply ne_of_getElem?_ne 0
          rw [getElem?_bitsSeg, if_pos (by omega), Nat.add_zero,
            List.getElem?_cons_zero]
          simp only [ne_eq, Option.some.injEq]
          exact hbb
        rw [if_neg hne2]
  | case4 node bits pos prefixLen data hne bit child hc childBits childLen remainingLen commonLen h1 h2 ih =>
    intro hwf hpos k hk
    rw [insertRecursive_descend data hne hc rfl h1 h2]
    obtain ⟨hclen, hcbit, hcwf⟩ := hwf.childWf (getBit_le_one bits pos) hc
    have hccl : commonLenFrom bits pos child.Pfx
        ((prefixLen - pos) ⊓ child.PrefixLen) 0 = child.PrefixLen := h1
    have hcne : commonLenFrom bits pos child.Pfx
        ((prefixLen - pos) ⊓ child.PrefixLen) 0 ≠ prefixLen - pos := h2
    have hle := commonLenFrom_le bits pos child.Pfx
      ((prefixLen - pos) ⊓ child.PrefixLen) 0 (Nat.zero_le _)
    have hcp : child.PrefixLen < prefixLen - pos := by omega
    have hnb : nodeBits child = bitsSeg bits pos child.PrefixLen := by
      unfold nodeBits
      exact @bitsSeg_agree_of_commonLen bits pos child.Pfx
        ((prefixLen - pos) ⊓ child.PrefixLen) child.PrefixLen (by omega)
    have hrem : 1 ≤ prefixLen - pos := by omega
    have hsegK : bitsSeg bits pos (prefixLen - pos) =
        bitsSeg bits pos child.PrefixLen ++
          bitsSeg bits (pos + child.PrefixLen) (prefixLen - (pos + child.PrefixLen)) := by
      have harith : prefixLen - pos = child.PrefixLen + (prefixLen - (pos + child.PrefixLen)) := by
        omega
      rw [harith, bitsSeg_append]
    have hip := insertRecursive_Pfx_PrefixLen child bits (pos + child.PrefixLen) prefixLen data
    cases k with
    | nil =>
      rw [if_neg (fun h => bitsSeg_ne_nil (by omega) h.symm), findKey_nil,
        TrieNode.Data_setChild, findKey_nil]
    | cons b rest =>
      have hb : b ≤ 1 := hk b (by simp)
      by_cases hbb : b = getBit bits pos
      · subst hbb
        have hklen : (getBit bits pos :: rest).length = rest.length + 1 := by simp
        rw [findKey_cons_some rest (TrieNode.child_setChild_same node _ _)]
        rw [findKey_cons_some rest hc]
        rw [hip.2, nodeBits_insertRecursive, hnb]
        by_cases hcond : child.PrefixLen ≤ (getBit bits pos :: rest).length ∧
            bitsSeg bits pos child.PrefixLen = (getBit bits pos :: rest).take child.PrefixLen
        · rw [if_pos hcond, if_pos hcond]
          rw [ih hcwf (by omega) ((getBit bits pos :: rest).drop child.PrefixLen)
            (fun x hx => hk x (List.mem_of_mem_drop hx))]
          have hiff : ((getBit bits pos :: rest).drop child.PrefixLen =
              bitsSeg bits (pos + child.PrefixLen) (prefixLen - (pos + child.PrefixLen)))
              ↔ (getBit bits pos :: rest = bitsSeg bits pos (prefixLen - pos)) := by
            constructor
            · intro hdk
              rw [← List.take_append_drop child.PrefixLen (getBit bits pos :: rest), hdk,
                ← hcond.2, hsegK]
            · intro hKk
              rw [hKk, drop_bitsSeg]
              congr 1
              omega
          by_cases hdk : (getBit bits pos :: rest).drop child.PrefixLen =
              bitsSeg bits (pos + child.PrefixLen) (prefixLen - (pos + child.PrefixLen))
          · rw [if_pos hdk, if_pos (hiff.mp hdk)]
          · rw [if_neg hdk, if_neg (fun h => hdk (hiff.mpr h))]
        · rw [if_neg hcond, if_neg hcond]
          have hKk : ¬ (getBit bits pos :: rest = bitsSeg bits pos (prefixLen - pos)) := by
            intro hKk
            apply hcond
            have hlen : (getBit bits pos :: rest).length = prefixLen - pos := by
              rw [hKk, length_bitsSeg]
            constructor
            · omega
            · rw [hKk, take_bitsSeg]
              congr 1
              omega
          rw [if_neg hKk]
      · rw [findKey_cons_congr rest
          (TrieNode.child_setChild_other node (some _) (getBit_le_one bits pos) hb hbb)]
        have hne2 : (b :: rest) ≠ bitsSeg bits pos (prefixLen - pos) := by
          apply ne_of_getElem?_ne 0
          rw [getElem?_bitsSeg, if_pos (by omega), Nat.add_zero,
            List.getElem?_cons_zero]
          simp only [ne_eq, Option.some.injEq]
          exact hbb
        rw [if_neg hne2]
  | case5 node bits pos prefixLen data hne bit child hc childBits childLen remainingLen commonLen h1 h2 =>
    intro hwf hpos k hk
    rw [insertRecursive_split_end data hne hc rfl h1 h2]
    obtain ⟨hclen, hcbit, hcwf⟩ := hwf.childWf (getBit_le_one bits pos) hc
    have hcne : commonLenFrom bits pos child.Pfx ((prefixLen - pos) ⊓ child.PrefixLen) 0 ≠ child.PrefixLen := h1
    have hceq : commonLenFrom bits pos child.Pfx ((prefixLen - pos) ⊓ child.PrefixLen) 0 = prefixLen - pos := h2
    clear h1 h2 commonLen remainingLen childLen childBits
    have hle := commonLenFrom_le bits pos child.Pfx
      ((prefixLen - pos) ⊓ child.PrefixLen) 0 (Nat.zero_le _)
    have hagree : bitsSeg child.Pfx 0 (commonLenFrom bits pos child.Pfx ((prefixLen - pos) ⊓ child.PrefixLen) 0) = bitsSeg bits pos (commonLenFrom bits pos child.Pfx ((prefixLen - pos) ⊓ child.PrefixLen) 0) :=
      @bitsSeg_agree_of_commonLen bits pos child.Pfx
        ((prefixLen - pos) ⊓ child.PrefixLen) _ (le_refl _)
    rw [hceq] at hcne hle hagree ⊢
    have hrem : 1 ≤ prefixLen - pos := by omega
    have hremlt : prefixLen - pos < child.PrefixLen := by omega
    have hnbc : nodeBits child = bitsSeg bits pos (prefixLen - pos) ++
        bitsSeg child.Pfx (prefixLen - pos) (child.PrefixLen - (prefixLen - pos)) := by
      unfold nodeBits
      rw [bitsSeg_split child.Pfx 0 child.PrefixLen (prefixLen - pos) (by omega),
        Nat.zero_add, hagree]
    have hnbsc : nodeBits (TrieNode.mk (extractBitsFromSlice child.Pfx (prefixLen - pos) (child.PrefixLen - (prefixLen - pos))) (child.PrefixLen - (prefixLen - pos)) child.Data child.Child0 child.Child1) =
        bitsSeg child.Pfx (prefixLen - pos) (child.PrefixLen - (prefixLen - pos)) := by
      rw [extractBitsFromSlice_eq, nodeBits_mk_extract]
    cases k with
    | nil =>
      rw [if_neg (fun h => bitsSeg_ne_nil (by omega) h.symm), findKey_nil,
        TrieNode.Data_setChild, findKey_nil]
    | cons b rest =>
      have hb : b ≤ 1 := hk b (by simp)
      by_cases hbb : b = getBit bits pos
      · subst hbb
        have hklen : (getBit bits pos :: rest).length = rest.length + 1 := by simp
        rw [findKey_cons_some rest (TrieNode.child_setChild_same node _ _)]
        rw [findKey_cons_some rest hc]
        rw [show ((((TrieNode.mk (extractBits bits pos (prefixLen - pos)) (prefixLen - pos)
            none none none).setChild (getBitFromSlice child.Pfx (prefixLen - pos))
            (some (TrieNode.mk (extractBitsFromSlice child.Pfx (prefixLen - pos) (child.PrefixLen - (prefixLen - pos))) (child.PrefixLen - (prefixLen - pos)) child.Data child.Child0 child.Child1))).setData (some data)).PrefixLen) = prefixLen - pos by simp]
        rw [show nodeBits ((((TrieNode.mk (extractBits bits pos (prefixLen - pos))
            (prefixLen - pos) none none none).setChild
            (getBitFromSlice child.Pfx (prefixLen - pos))
            (some (TrieNode.mk (extractBitsFromSlice child.Pfx (prefixLen - pos) (child.PrefixLen - (prefixLen - pos))) (child.PrefixLen - (prefixLen - pos)) child.Data child.Child0 child.Child1))).setData (some data))) =
            bitsSeg bits pos (prefixLen - pos) by
          rw [nodeBits_setData, nodeBits_setChild, nodeBits_mk_extract]]
        by_cases hCm : prefixLen - pos ≤ (getBit bits pos :: rest).length ∧
            bitsSeg bits pos (prefixLen - pos) =
              (getBit bits pos :: rest).take (prefixLen - pos)
        · rw [if_pos hCm]
          cases hdrop : (getBit bits pos :: rest).drop (prefixLen - pos) with
          | nil =>
            have hld := congrArg List.length hdrop
            rw [List.length_drop] at hld
            simp only [List.length_nil] at hld
            have hKk : getBit bits pos :: rest = bitsSeg bits pos (prefixLen - pos) := by
              have htk : (getBit bits pos :: rest).take (prefixLen - pos) =
                  getBit bits pos :: rest :=
                List.take_of_length_le (by omega)
              rw [← htk, ← hCm.2]
            rw [if_pos hKk, findKey_nil]
            simp
          | cons t ts =>
            have hld := congrArg List.length hdrop
            rw [List.length_drop] at hld
            simp only [List.length_cons] at hld
            have hKkne : getBit bits pos :: rest ≠ bitsSeg bits pos (prefixLen - pos) := by
              intro h
              have hlc := congrArg List.length h
              rw [length_bitsSeg] at hlc
              omega
            rw [if_neg hKkne]
            have htmem : t ∈ getBit bits pos :: rest := by
              apply List.mem_of_mem_drop
              rw [hdrop]
              simp
            by_cases ht : t = getBit child.Pfx (prefixLen - pos)
            · subst ht
              have hchild : ((((TrieNode.mk (extractBits bits pos (prefixLen - pos))
                  (prefixLen - pos) none none none).setChild
                  (getBitFromSlice child.Pfx (prefixLen - pos))
                  (some (TrieNode.mk (extractBitsFromSlice child.Pfx (prefixLen - pos) (child.PrefixLen - (prefixLen - pos))) (child.PrefixLen - (prefixLen - pos)) child.Data child.Child0 child.Child1))).setData (some data))).child
                  (getBit child.Pfx (prefixLen - pos)) = some (TrieNode.mk (extractBitsFromSlice child.Pfx (prefixLen - pos) (child.PrefixLen - (prefixLen - pos))) (child.PrefixLen - (prefixLen - pos)) child.Data child.Child0 child.Child1) := by
                rw [TrieNode.child_setData, getBitFromSlice_eq]
                exact TrieNode.child_setChild_same _ _ _
              rw [findKey_cons_some ts hchild]
              rw [TrieNode.PrefixLen_mk, hnbsc]
              have htslen : (getBit child.Pfx (prefixLen - pos) :: ts).length =
                  ts.length + 1 := by simp
              have hCiff : (child.PrefixLen ≤ (getBit bits pos :: rest).length ∧
                  nodeBits child = (getBit bits pos :: rest).take child.PrefixLen) ↔
                  (child.PrefixLen - (prefixLen - pos) ≤
                    (getBit child.Pfx (prefixLen - pos) :: ts).length ∧
                  bitsSeg child.Pfx (prefixLen - pos)
                    (child.PrefixLen - (prefixLen - pos)) =
                    (getBit child.Pfx (prefixLen - pos) :: ts).take
                      (child.PrefixLen - (prefixLen - pos))) := by
                have hsplit2 : (getBit bits pos :: rest).take child.PrefixLen =
                    (getBit bits pos :: rest).take (prefixLen - pos) ++
                    ((getBit bits pos :: rest).drop (prefixLen - pos)).take
                      (child.PrefixLen - (prefixLen - pos)) := by
                  rw [← List.take_add]
                  congr 1
                  omega
                constructor
                · rintro ⟨hl, hbits⟩
                  refine ⟨by omega, ?_⟩
                  rw [hsplit2, hdrop, ← hCm.2, hnbc] at hbits
                  exact List.append_cancel_left hbits
                · rintro ⟨hl, hbits⟩
                  refine ⟨by omega, ?_⟩
                  rw [hnbc, hsplit2, hdrop, ← hCm.2, hbits]
              by_cases hCsc : child.PrefixLen - (prefixLen - pos) ≤
                  (getBit child.Pfx (prefixLen - pos) :: ts).length ∧
                  bitsSeg child.Pfx (prefixLen - pos)
                    (child.PrefixLen - (prefixLen - pos)) =
                    (getBit child.Pfx (prefixLen - pos) :: ts).take
                      (child.PrefixLen - (prefixLen - pos))
              · rw [if_pos hCsc, if_pos (hCiff.mpr hCsc)]
                have hdd : (getBit child.Pfx (prefixLen - pos) :: ts).drop
                    (child.PrefixLen - (prefixLen - pos)) =
                    (getBit bits pos :: rest).drop child.PrefixLen := by
                  rw [← hdrop, List.drop_drop]
                  congr 1
                  omega
                rw [hdd]
                exact @findKey_eq_of_same_children (TrieNode.mk (extractBitsFromSlice child.Pfx (prefixLen - pos) (child.PrefixLen - (prefixLen - pos))) (child.PrefixLen - (prefixLen - pos)) child.Data child.Child0 child.Child1) child rfl rfl rfl _
              · rw [if_neg hCsc, if_neg (fun h => hCsc (hCiff.mp h))]
            · have htle : t ≤ 1 := hk t htmem
              have hchild : ((((TrieNode.mk (extractBits bits pos (prefixLen - pos))
                  (prefixLen - pos) none none none).setChild
                  (getBitFromSlice child.Pfx (prefixLen - pos))
                  (some (TrieNode.mk (extractBitsFromSlice child.Pfx (prefixLen - pos) (child.PrefixLen - (prefixLen - pos))) (child.PrefixLen - (prefixLen - pos)) child.Data child.Child0 child.Child1))).setData (some data))).child t = none := by
                rw [TrieNode.child_setData, getBitFromSlice_eq]
                rw [TrieNode.child_setChild_other _ _ (getBit_le_one child.Pfx _) htle ht]
                exact TrieNode.child_mk_none _ _ _ _
              rw [findKey_cons_none ts hchild]
              have hCc : ¬ (child.PrefixLen ≤ (getBit bits pos :: rest).length ∧
                  nodeBits child = (getBit bits pos :: rest).take child.PrefixLen) := by
                rintro ⟨hl, hbits⟩
                have h1q : (getBit bits pos :: rest)[prefixLen - pos]? = some t := by
                  have hq := List.getElem?_drop (getBit bits pos :: rest) (prefixLen - pos) 0
                  rw [hdrop] at hq
                  simpa using hq.symm
                have h2q : (getBit bits pos :: rest)[prefixLen - pos]? =
                    some (getBit child.Pfx (prefixLen - pos)) := by
                  have hx : ((getBit bits pos :: rest).take child.PrefixLen)[prefixLen - pos]? =
                      (getBit bits pos :: rest)[prefixLen - pos]? := by
                    rw [List.getElem?_take, if_pos (by omega)]
                  rw [← hx, ← hbits, hnbc, List.getElem?_append, length_bitsSeg,
                    if_neg (by omega), Nat.sub_self, getElem?_bitsSeg, if_pos (by omega),
                    Nat.add_zero]
                rw [h1q] at h2q
                injection h2q with h2r
                exact ht h2r
              rw [if_neg hCc]
        · rw [if_neg hCm]
          have hKkne : getBit bits pos :: rest ≠ bitsSeg bits pos (prefixLen - pos) := by
            intro h
            apply hCm
            have hlc := congrArg List.length h
            rw [length_bitsSeg] at hlc
            constructor
            · omega
            · rw [h, take_bitsSeg]
              congr 1
              omega
          rw [if_neg hKkne]
          have hCc : ¬ (child.PrefixLen ≤ (getBit bits pos :: rest).length ∧
              nodeBits child = (getBit bits pos :: rest).take child.PrefixLen) := by
            rintro ⟨hl, hbits⟩
            apply hCm
            constructor
            · omega
            · have h1q : (getBit bits pos :: rest).take (prefixLen - pos) =
                  ((getBit bits pos :: rest).take child.PrefixLen).take (prefixLen - pos) := by
                rw [List.take_take]
                congr 1
                omega
              rw [h1q, ← hbits, hnbc,
                take_append_length _ _ _ (length_bitsSeg bits pos (prefixLen - pos)).symm]
          rw [if_neg hCc]
      · rw [findKey_cons_congr rest
          (TrieNode.child_setChild_other node (some _) (getBit_le_one bits pos) hb hbb)]
        have hne2 : (b :: rest) ≠ bitsSeg bits pos (prefixLen - pos) := by
          apply ne_of_getElem?_ne 0
          rw [getElem?_bitsSeg, if_pos (by omega), Nat.add_zero,
            List.getElem?_cons_zero]
          simp only [ne_eq, Option.some.injEq]
          exact hbb
        rw [if_neg hne2]
  | case6 node bits pos prefixLen data hne bit child hc childBits childLen remainingLen commonLen h1 h2 =>
    intro hwf hpos k hk
    rw [insertRecursive_split_mid data hne hc rfl h1 h2]
    obtain ⟨hclen, hcbit, hcwf⟩ := hwf.childWf (getBit_le_one bits pos) hc
    have hcne : commonLenFrom bits pos child.Pfx ((prefixLen - pos) ⊓ child.PrefixLen) 0 ≠ child.PrefixLen := h1
    have hcne2 : commonLenFrom bits pos child.Pfx ((prefixLen - pos) ⊓ child.PrefixLen) 0 ≠ prefixLen - pos := h2
    clear h1 h2 commonLen remainingLen childLen childBits
    have hle := commonLenFrom_le bits pos child.Pfx
      ((prefixLen - pos) ⊓ child.PrefixLen) 0 (Nat.zero_le _)
    have hone : 1 ≤ commonLenFrom bits pos child.Pfx ((prefixLen - pos) ⊓ child.PrefixLen) 0 := commonLenFrom_one_le hcbit.symm (by omega)
    have hagree : bitsSeg child.Pfx 0 (commonLenFrom bits pos child.Pfx ((prefixLen - pos) ⊓ child.PrefixLen) 0) = bitsSeg bits pos (commonLenFrom bits pos child.Pfx ((prefixLen - pos) ⊓ child.PrefixLen) 0) :=
      @bitsSeg_agree_of_commonLen bits pos child.Pfx
        ((prefixLen - pos) ⊓ child.PrefixLen) _ (le_refl _)
    have hstop := commonLenFrom_stop bits pos child.Pfx
      ((prefixLen - pos) ⊓ child.PrefixLen) 0 (by omega)
    generalize hgen : commonLenFrom bits pos child.Pfx ((prefixLen - pos) ⊓ child.PrefixLen) 0 = cl
    rw [hgen] at hcne hcne2 hle hone hagree hstop
    have hrem : 1 ≤ prefixLen - pos := by omega
    have hlt1 : cl < child.PrefixLen := by omega
    have hlt2 : cl < prefixLen - pos := by omega
    have hnbc : nodeBits child = bitsSeg bits pos cl ++
        bitsSeg child.Pfx cl (child.PrefixLen - cl) := by
      unfold nodeBits
      rw [bitsSeg_split child.Pfx 0 child.PrefixLen cl (by omega), Nat.zero_add, hagree]
    have hnbsc : nodeBits (TrieNode.mk (extractBitsFromSlice child.Pfx cl (child.PrefixLen - cl)) (child.PrefixLen - cl) child.Data child.Child0 child.Child1) = bitsSeg child.Pfx cl (child.PrefixLen - cl) := by
      rw [extractBitsFromSlice_eq, nodeBits_mk_extract]
    have hsegK : bitsSeg bits pos (prefixLen - pos) =
        bitsSeg bits pos cl ++ bitsSeg bits (pos + cl) (prefixLen - pos - cl) :=
      bitsSeg_split bits pos (prefixLen - pos) cl (by omega)
    cases k with
    | nil =>
      rw [if_neg (fun h => bitsSeg_ne_nil (by omega) h.symm), findKey_nil,
        TrieNode.Data_setChild, findKey_nil]
    | cons b rest =>
      have hb : b ≤ 1 := hk b (by simp)
      by_cases hbb : b = getBit bits pos
      · subst hbb
        have hklen : (getBit bits pos :: rest).length = rest.length + 1 := by simp
        rw [findKey_cons_some rest (TrieNode.child_setChild_same node _ _)]
        rw [findKey_cons_some rest hc]
        rw [show (((TrieNode.mk (extractBits bits pos cl) cl none none none).setChild (getBitFromSlice child.Pfx cl) (some (TrieNode.mk (extractBitsFromSlice child.Pfx cl (child.PrefixLen - cl)) (child.PrefixLen - cl) child.Data child.Child0 child.Child1))).setChild (getBit bits (pos + cl)) (some (TrieNode.mk (extractBits bits (pos + cl) (prefixLen - pos - cl)) (prefixLen - pos - cl) (some data) none none))).PrefixLen = cl by simp]
        rw [show nodeBits (((TrieNode.mk (extractBits bits pos cl) cl none none none).setChild (getBitFromSlice child.Pfx cl) (some (TrieNode.mk (extractBitsFromSlice child.Pfx cl (child.PrefixLen - cl)) (child.PrefixLen - cl) child.Data child.Child0 child.Child1))).setChild (getBit bits (pos + cl)) (some (TrieNode.mk (extractBits bits (pos + cl) (prefixLen - pos - cl)) (prefixLen - pos - cl) (some data) none none))) = bitsSeg bits pos cl by
          rw [nodeBits_setChild, nodeBits_setChild, nodeBits_mk_extract]]
        by_cases hCm : cl ≤ (getBit bits pos :: rest).length ∧
            bitsSeg bits pos cl = (getBit bits pos :: rest).take cl
        · rw [if_pos hCm]
          cases hdrop : (getBit bits pos :: rest).drop cl with
          | nil =>
            have hld := congrArg List.length hdrop
            rw [List.length_drop] at hld
            simp only [List.length_nil] at hld
            have hKkne : (getBit bits pos :: rest) ≠ bitsSeg bits pos (prefixLen - pos) := by
              intro h
              have hlc := congrArg List.length h
              rw [length_bitsSeg] at hlc
              omega
            rw [if_neg hKkne, findKey_nil]
            have hCc : ¬ (child.PrefixLen ≤ (getBit bits pos :: rest).length ∧
                nodeBits child = (getBit bits pos :: rest).take child.PrefixLen) := by
              rintro ⟨hl, -⟩
              omega
            rw [if_neg hCc]
            simp
          | cons t ts =>
            have hld := congrArg List.length hdrop
            rw [List.length_drop] at hld
            simp only [List.length_cons] at hld
            have htmem : t ∈ getBit bits pos :: rest := by
              apply List.mem_of_mem_drop
              rw [hdrop]
              simp
            have hkq : (getBit bits pos :: rest)[cl]? = some t := by
              have hq := List.getElem?_drop (getBit bits pos :: rest) cl 0
              rw [hdrop] at hq
              simpa using hq.symm
            by_cases ht1 : t = getBit bits (pos + cl)
            · subst ht1
              have hchild : (((TrieNode.mk (extractBits bits pos cl) cl none none none).setChild (getBitFromSlice child.Pfx cl) (some (TrieNode.mk (extractBitsFromSlice child.Pfx cl (child.PrefixLen - cl)) (child.PrefixLen - cl) child.Data child.Child0 child.Child1))).setChild (getBit bits (pos + cl)) (some (TrieNode.mk (extractBits bits (pos + cl) (prefixLen - pos - cl)) (prefixLen - pos - cl) (some data) none none))).child (getBit bits (pos + cl)) =
                  some (TrieNode.mk (extractBits bits (pos + cl) (prefixLen - pos - cl)) (prefixLen - pos - cl) (some data) none none) :=
                TrieNode.child_setChild_same _ _ _
              rw [findKey_cons_some ts hchild]
              rw [TrieNode.PrefixLen_mk, nodeBits_mk_extract]
              have htslen : (getBit bits (pos + cl) :: ts).length = ts.length + 1 := by simp
              have hCc : ¬ (child.PrefixLen ≤ (getBit bits pos :: rest).length ∧
                  nodeBits child = (getBit bits pos :: rest).take child.PrefixLen) := by
                rintro ⟨hl, hbits⟩
                have h2q : (getBit bits pos :: rest)[cl]? = some (getBit child.Pfx cl) := by
                  have hx : ((getBit bits pos :: rest).take child.PrefixLen)[cl]? =
                      (getBit bits pos :: rest)[cl]? := by
                    rw [List.getElem?_take, if_pos (by omega)]
                  rw [← hx, ← hbits, hnbc, List.getElem?_append, length_bitsSeg,
                    if_neg (by omega), Nat.sub_self, getElem?_bitsSeg,
                    if_pos (by omega), Nat.add_zero]
                rw [hkq] at h2q
                injection h2q with h2r
                exact hstop h2r
              by_cases hCl : prefixLen - pos - cl ≤ (getBit bits (pos + cl) :: ts).length ∧
                  bitsSeg bits (pos + cl) (prefixLen - pos - cl) =
                    (getBit bits (pos + cl) :: ts).take (prefixLen - pos - cl)
              · rw [if_pos hCl]
                cases hdrop2 : (getBit bits (pos + cl) :: ts).drop (prefixLen - pos - cl) with
                | nil =>
                  have hld2 := congrArg List.length hdrop2
                  rw [List.length_drop] at hld2
                  simp only [List.length_nil, List.length_cons] at hld2
                  have hKk : (getBit bits pos :: rest) = bitsSeg bits pos (prefixLen - pos) := by
                    rw [hsegK]
                    have h1q : getBit bits (pos + cl) :: ts =
                        bitsSeg bits (pos + cl) (prefixLen - pos - cl) := by
                      have htk : (getBit bits (pos + cl) :: ts).take (prefixLen - pos - cl) =
                          getBit bits (pos + cl) :: ts :=
                        List.take_of_length_le (by omega)
                      rw [← htk, ← hCl.2]
                    rw [← List.take_append_drop cl (getBit bits pos :: rest), hdrop, ← hCm.2, h1q]
                  rw [if_pos hKk, findKey_nil, TrieNode.Data_mk]
                | cons u us =>
                  have hld2 := congrArg List.length hdrop2
                  rw [List.length_drop] at hld2
                  simp only [List.length_cons] at hld2
                  rw [findKey_cons_none us (TrieNode.child_mk_none _ _ _ _)]
                  have hKkne : (getBit bits pos :: rest) ≠ bitsSeg bits pos (prefixLen - pos) := by
                    intro h
                    have hlc := congrArg List.length h
                    rw [length_bitsSeg] at hlc
                    omega
                  rw [if_neg hKkne, if_neg hCc]
              · rw [if_neg hCl]
                have hKkne : (getBit bits pos :: rest) ≠ bitsSeg bits pos (prefixLen - pos) := by
                  intro h
                  apply hCl
                  have hdropK : getBit bits (pos + cl) :: ts =
                      bitsSeg bits (pos + cl) (prefixLen - pos - cl) := by
                    have hq := congrArg (List.drop cl) h
                    rw [hdrop, drop_bitsSeg] at hq
                    exact hq
                  constructor
                  · rw [hdropK, length_bitsSeg]
                  · rw [hdropK, take_bitsSeg, min_self]
                rw [if_neg hKkne, if_neg hCc]
            · by_cases ht2 : t = getBit child.Pfx cl
              · subst ht2
                have hchild : (((TrieNode.mk (extractBits bits pos cl) cl none none none).setChild (getBitFromSlice child.Pfx cl) (some (TrieNode.mk (extractBitsFromSlice child.Pfx cl (child.PrefixLen - cl)) (child.PrefixLen - cl) child.Data child.Child0 child.Child1))).setChild (getBit bits (pos + cl)) (some (TrieNode.mk (extractBits bits (pos + cl) (prefixLen - pos - cl)) (prefixLen - pos - cl) (some data) none none))).child (getBit child.Pfx cl) =
                    some (TrieNode.mk (extractBitsFromSlice child.Pfx cl (child.PrefixLen - cl)) (child.PrefixLen - cl) child.Data child.Child0 child.Child1) := by
                  rw [TrieNode.child_setChild_other _ _ (getBit_le_one bits (pos + cl))
                    (getBit_le_one child.Pfx cl) ht1]
                  rw [getBitFromSlice_eq]
                  exact TrieNode.child_setChild_same _ _ _
                rw [findKey_cons_some ts hchild]
                rw [TrieNode.PrefixLen_mk, hnbsc]
                have htslen : (getBit child.Pfx cl :: ts).length = ts.length + 1 := by simp
                have hKkne : (getBit bits pos :: rest) ≠ bitsSeg bits pos (prefixLen - pos) := by
                  intro h
                  have h2q : (getBit bits pos :: rest)[cl]? = some (getBit bits (pos + cl)) := by
                    rw [h, getElem?_bitsSeg, if_pos (by omega)]
                  rw [hkq] at h2q
                  injection h2q with h2r
                  exact hstop h2r.symm
                rw [if_neg hKkne]
                have hCiff : (child.PrefixLen ≤ (getBit bits pos :: rest).length ∧
                    nodeBits child = (getBit bits pos :: rest).take child.PrefixLen) ↔
                    (child.PrefixLen - cl ≤ (getBit child.Pfx cl :: ts).length ∧
                    bitsSeg child.Pfx cl (child.PrefixLen - cl) =
                      (getBit child.Pfx cl :: ts).take (child.PrefixLen - cl)) := by
                  have hsplit2 : (getBit bits pos :: rest).take child.PrefixLen =
                      (getBit bits pos :: rest).take cl ++
                      ((getBit bits pos :: rest).drop cl).take (child.PrefixLen - cl) := by
                    rw [← List.take_add]
                    congr 1
                    omega
                  constructor
                  · rintro ⟨hl, hbits⟩
                    refine ⟨by omega, ?_⟩
                    rw [hsplit2, hdrop, ← hCm.2, hnbc] at hbits
                    exact List.append_cancel_left hbits
                  · rintro ⟨hl, hbits⟩
                    refine ⟨by omega, ?_⟩
                    rw [hnbc, hsplit2, hdrop, ← hCm.2, hbits]
                by_cases hCsc : child.PrefixLen - cl ≤ (getBit child.Pfx cl :: ts).length ∧
                    bitsSeg child.Pfx cl (child.PrefixLen - cl) =
                      (getBit child.Pfx cl :: ts).take (child.PrefixLen - cl)
                · rw [if_pos hCsc, if_pos (hCiff.mpr hCsc)]
                  have hdd : (getBit child.Pfx cl :: ts).drop (child.PrefixLen - cl) =
                      (getBit bits pos :: rest).drop child.PrefixLen := by
                    rw [← hdrop, List.drop_drop]
                    congr 1
                    omega
                  rw [hdd]
                  exact @findKey_eq_of_same_children (TrieNode.mk (extractBitsFromSlice child.Pfx cl (child.PrefixLen - cl)) (child.PrefixLen - cl) child.Data child.Child0 child.Child1) child rfl rfl rfl _
                · rw [if_neg hCsc, if_neg (fun h => hCsc (hCiff.mp h))]
              · exfalso
                have htle : t ≤ 1 := hk t htmem
                have hbl := getBit_le_one bits (pos + cl)
                have hbc := getBit_le_one child.Pfx cl
                omega
        · rw [if_neg hCm]
          have hKkne : (getBit bits pos :: rest) ≠ bitsSeg bits pos (prefixLen - pos) := by
            intro h
            apply hCm
            have hlc := congrArg List.length h
            rw [length_bitsSeg] at hlc
            constructor
            · omega
            · rw [h, take_bitsSeg]
              congr 1
              omega
          rw [if_neg hKkne]
          have hCc : ¬ (child.PrefixLen ≤ (getBit bits pos :: rest).length ∧
              nodeBits child = (getBit bits pos :: rest).take child.PrefixLen) := by
            rintro ⟨hl, hbits⟩
            apply hCm
            constructor
            · omega
            · have h1q : (getBit bits pos :: rest).take cl =
                  ((getBit bits pos :: rest).take child.PrefixLen).take cl := by
                rw [List.take_take]
                congr 1
                omega
              rw [h1q, ← hbits, hnbc,
                take_append_length _ _ _ (length_bitsSeg bits pos cl).symm]
          rw [if_neg hCc]
      · rw [findKey_cons_congr rest
          (TrieNode.child_setChild_other node (some _) (getBit_le_one bits pos) hb hbb)]
        have hne2 : (b :: rest) ≠ bitsSeg bits pos (prefixLen - pos) := by
          apply ne_of_getElem?_ne 0
          rw [getElem?_bitsSeg, if_pos (by omega), Nat.add_zero,
            List.getElem?_cons_zero]
          simp only [ne_eq, Option.some.injEq]
          exact hbb
        rw [if_neg hne2]

/-- The record of the deepest matching data-node along the unique
descent path of `rbits` below `n` (the denotation that `lookupGo`
computes). -/
def deepestMatch (n : TrieNode) (rbits : List Nat) : Option PrefixData :=
  match rbits with
  | [] => n.Data
  | b :: rest =>
    match h : n.child b with
    | none => n.Data
    | some c =>
      if c.PrefixLen ≤ (b :: rest).length ∧ nodeBits c = (b :: rest).take c.PrefixLen then
        match deepestMatch c ((b :: rest).drop c.PrefixLen) with
        | some d => some d
        | none => n.Data
      else n.Data
termination_by n.size
decreasing_by exact TrieNode.child_size_lt h

/-- The running `lastMatch` update of the Go lookup loop. -/
def lastOf (n : TrieNode) (last : Option PrefixData) : Option PrefixData :=
  match n.Data with
  | some d => some d
  | none => last

theorem deepestMatch_nil (n : TrieNode) : deepestMatch n [] = n.Data := by
  rw [deepestMatch]

theorem deepestMatch_cons_none {n : TrieNode} {b : Nat} (rest : List Nat)
    (hc : n.child b = none) : deepestMatch n (b :: rest) = n.Data := by
  rw [deepestMatch]
  split
  · rfl
  · rename_i c hsome
    rw [hc] at hsome
    exact absurd hsome (by simp)

theorem deepestMatch_cons_some {n c : TrieNode} {b : Nat} (rest : List Nat)
    (hc : n.child b = some c) :
    deepestMatch n (b :: rest) =
      if c.PrefixLen ≤ (b :: rest).length ∧
          nodeBits c = (b :: rest).take c.PrefixLen then
        match deepestMatch c ((b :: rest).drop c.PrefixLen) with
        | some d => some d
        | none => n.Data
      else n.Data := by
  rw [deepestMatch]
  split
  · rename_i hnone
    rw [hc] at hnone
    exact absurd hnone (by simp)
  · rename_i c2 hsome
    rw [hc] at hsome
    injection hsome with hcc
    subst hcc
    rfl

/-- Keep the last `some` among `f 0, ..., f (N-1)`: how the longest
match is selected when scanning candidate match lengths in ascending
order. -/
def foldLastSome (f : Nat → Option PrefixData) (N : Nat) : Option PrefixData :=
  (List.range N).foldl (fun acc l => match f l with | some d => some d | none => acc) none

theorem foldLastSome_succ (f : Nat → Option PrefixData) (N : Nat) :
    foldLastSome f (N + 1) =
      match f N with
      | some d => some d
      | none => foldLastSome f N := by
  unfold foldLastSome
  rw [List.range_succ, List.foldl_append, List.foldl_cons, List.foldl_nil]

theorem foldLastSome_congr {f g : Nat → Option PrefixData} (N : Nat)
    (h : ∀ l, l < N → f l = g l) : foldLastSome f N = foldLastSome g N := by
  induction N with
  | zero => rfl
  | succ N ih =>
    rw [foldLastSome_succ, foldLastSome_succ, h N (by omega),
      ih (fun l hl => h l (by omega))]

theorem foldLastSome_of_tail_none {f : Nat → Option PrefixData} {N : Nat}
    (hN : 1 ≤ N) (h : ∀ l, 1 ≤ l → l < N → f l = none) :
    foldLastSome f N = f 0 := by
  induction N with
  | zero => omega
  | succ N ih =>
    by_cases hz : N = 0
    · subst hz
      rw [foldLastSome_succ]
      cases hf : f 0 <;> rfl
    · rw [foldLastSome_succ, h N (by omega) (by omega)]
      exact ih (by omega) (fun l h1 h2 => h l h1 (by omega))

theorem foldLastSome_shift (f g : Nat → Option PrefixData) (P : Nat)
    (hg : ∀ l2, g l2 = f (P + l2)) :
    ∀ N, 1 ≤ P → P ≤ N → (∀ l, 1 ≤ l → l < P → f l = none) →
    foldLastSome f (N + 1) =
      match foldLastSome g (N - P + 1) with
      | some d => some d
      | none => f 0 := by
  intro N
  induction N with
  | zero =>
    intro hP hPN h
    omega
  | succ N ih =>
    intro hP hPN h
    by_cases hPe : P = N + 1
    · subst hPe
      rw [foldLastSome_succ, Nat.sub_self]
      have hgz : foldLastSome g (0 + 1) =
          match f (N + 1) with
          | some d => some d
          | none => none := by
        rw [foldLastSome_succ, hg 0]
        rw [show N + 1 + 0 = N + 1 from rfl]
        cases hf : f (N + 1) <;> rfl
      rw [hgz]
      cases hf : f (N + 1)
      · exact foldLastSome_of_tail_none (by omega) h
      · rfl
    · have hPN2 : P ≤ N := by omega
      have harith : N + 1 - P = N - P + 1 := by omega
      rw [foldLastSome_succ, harith, foldLastSome_succ g (N - P + 1), hg (N - P + 1)]
      rw [show P + (N - P + 1) = N + 1 from by omega]
      cases hf : f (N + 1)
      · exact ih hP hPN2 h
      · rfl

/-! The lookup denotation: `lookupGo` computes the deepest stored match
along the descent path, i.e. the last `some` of `findKey` over the
prefixes of the address bits. -/

theorem Wf.childAny {n c : TrieNode} {b : Nat} (hwf : Wf n)
    (h : n.child b = some c) : 1 ≤ c.PrefixLen ∧ Wf c := by
  cases hwf with
  | intro n h0len h0bit h0wf h1len h1bit h1wf =>
    by_cases hb0 : b = 0
    · subst hb0
      exact ⟨h0len c h, h0wf c h⟩
    · rw [TrieNode.child_of_ne_zero n hb0] at h
      exact ⟨h1len c h, h1wf c h⟩

theorem deepestMatch_none_data {n : TrieNode} {rbits : List Nat}
    (h : deepestMatch n rbits = none) : n.Data = none := by
  cases rbits with
  | nil =>
    rw [deepestMatch_nil] at h
    exact h
  | cons b rest =>
    cases hc : n.child b with
    | none =>
      rw [deepestMatch_cons_none rest hc] at h
      exact h
    | some c =>
      rw [deepestMatch_cons_some rest hc] at h
      split at h
      · split at h
        · exact Option.noConfusion h
        · exact h
      · exact h

set_option maxHeartbeats 1000000 in
theorem deepestMatch_eq_fold :
    ∀ (n : TrieNode) (rbits : List Nat), Wf n →
      deepestMatch n rbits =
        foldLastSome (fun l => findKey n (rbits.take l)) (rbits.length + 1) := by
  intro n rbits
  induction n, rbits using deepestMatch.induct with
  | case1 n =>
    intro _
    rw [deepestMatch_nil, List.length_nil, foldLastSome_succ]
    simp only [List.take_nil, findKey_nil]
    cases hd : n.Data <;> rfl
  | case2 n b rest hc =>
    intro _
    rw [deepestMatch_cons_none rest hc]
    have htail : ∀ l, 1 ≤ l → l < (b :: rest).length + 1 →
        findKey n (List.take l (b :: rest)) = none := by
      intro l h1 _
      obtain ⟨l2, rfl⟩ : ∃ l2, l = l2 + 1 := ⟨l - 1, by omega⟩
      rw [List.take_succ_cons, findKey_cons_none _ hc]
    rw [foldLastSome_of_tail_none (by omega) htail]
    simp only [List.take_zero, findKey_nil]
  | case3 n b rest c hc hcond d hdeep ih =>
    intro hwf
    obtain ⟨hP1, hwfc⟩ := Wf.childAny hwf hc
    have hbits := hcond.2
    rw [deepestMatch_cons_some rest hc, if_pos hcond]
    have htail : ∀ l, 1 ≤ l → l < c.PrefixLen →
        findKey n (List.take l (b :: rest)) = none := by
      intro l h1 h2
      obtain ⟨l2, rfl⟩ : ∃ l2, l = l2 + 1 := ⟨l - 1, by omega⟩
      rw [List.take_succ_cons, findKey_cons_some _ hc, if_neg]
      rintro ⟨hlen, -⟩
      rw [List.length_cons, List.length_take] at hlen
      omega
    have hg : ∀ l2, findKey c (List.take l2 (List.drop c.PrefixLen (b :: rest))) =
        findKey n (List.take (c.PrefixLen + l2) (b :: rest)) := by
      intro l2
      have hrepr : (b :: List.take (c.PrefixLen - 1 + l2) rest) =
          List.take (c.PrefixLen - 1 + l2 + 1) (b :: rest) := by
        rw [List.take_succ_cons]
      rw [show c.PrefixLen + l2 = c.PrefixLen - 1 + l2 + 1 from by omega,
        List.take_succ_cons, findKey_cons_some _ hc, if_pos]
      · rw [hrepr, List.drop_take,
          show c.PrefixLen - 1 + l2 + 1 - c.PrefixLen = l2 from by omega]
      · constructor
        · rw [List.length_cons, List.length_take]
          have := hcond.1
          rw [List.length_cons] at this
          omega
        · rw [hrepr, List.take_take,
            show min c.PrefixLen (c.PrefixLen - 1 + l2 + 1) = c.PrefixLen from by omega]
          exact hbits
    rw [foldLastSome_shift (fun l => findKey n (List.take l (b :: rest)))
      (fun l2 => findKey c (List.take l2 (List.drop c.PrefixLen (b :: rest))))
      c.PrefixLen hg (b :: rest).length hP1 hcond.1 htail]
    have ihc := ih hwfc
    rw [List.length_drop] at ihc
    rw [ihc]
    cases hres : foldLastSome
        (fun l => findKey c (List.take l (List.drop c.PrefixLen (b :: rest))))
        ((b :: rest).length - c.PrefixLen + 1) with
    | none => simp only [List.take_zero, findKey_nil]
    | some e => rfl
  | case4 n b rest c hc hcond hdeep ih =>
    intro hwf
    obtain ⟨hP1, hwfc⟩ := Wf.childAny hwf hc
    have hbits := hcond.2
    rw [deepestMatch_cons_some rest hc, if_pos hcond]
    have htail : ∀ l, 1 ≤ l → l < c.PrefixLen →
        findKey n (List.take l (b :: rest)) = none := by
      intro l h1 h2
      obtain ⟨l2, rfl⟩ : ∃ l2, l = l2 + 1 := ⟨l - 1, by omega⟩
      rw [List.take_succ_cons, findKey_cons_some _ hc, if_neg]
      rintro ⟨hlen, -⟩
      rw [List.length_cons, List.length_take] at hlen
      omega
    have hg : ∀ l2, findKey c (List.take l2 (List.drop c.PrefixLen (b :: rest))) =
        findKey n (List.take (c.PrefixLen + l2) (b :: rest)) := by
      intro l2
      have hrepr : (b :: List.take (c.PrefixLen - 1 + l2) rest) =
          List.take (c.PrefixLen - 1 + l2 + 1) (b :: rest) := by
        rw [List.take_succ_cons]
      rw [show c.PrefixLen + l2 = c.PrefixLen - 1 + l2 + 1 from by omega,
        List.take_succ_cons, findKey_cons_some _ hc, if_pos]
      · rw [hrepr, List.drop_take,
          show c.PrefixLen - 1 + l2 + 1 - c.PrefixLen = l2 from by omega]
      · constructor
        · rw [List.length_cons, List.length_take]
          have := hcond.1
          rw [List.length_cons] at this
          omega
        · rw [hrepr, List.take_take,
            show min c.PrefixLen (c.PrefixLen - 1 + l2 + 1) = c.PrefixLen from by omega]
          exact hbits
    rw [foldLastSome_shift (fun l => findKey n (List.take l (b :: rest)))
      (fun l2 => findKey c (List.take l2 (List.drop c.PrefixLen (b :: rest))))
      c.PrefixLen hg (b :: rest).length hP1 hcond.1 htail]
    have ihc := ih hwfc
    rw [List.length_drop] at ihc
    rw [ihc]
    cases hres : foldLastSome
        (fun l => findKey c (List.take l (List.drop c.PrefixLen (b :: rest))))
        ((b :: rest).length - c.PrefixLen + 1) with
    | none => simp only [List.take_zero, findKey_nil]
    | some e => rfl
  | case5 n b rest c hc hncond =>
    intro _
    rw [deepestMatch_cons_some rest hc, if_neg hncond]
    have htail : ∀ l, 1 ≤ l → l < (b :: rest).length + 1 →
        findKey n (List.take l (b :: rest)) = none := by
      intro l h1 h2
      obtain ⟨l2, rfl⟩ : ∃ l2, l = l2 + 1 := ⟨l - 1, by omega⟩
      rw [List.take_succ_cons, findKey_cons_some _ hc, if_neg]
      rintro ⟨hlen, hb2⟩
      apply hncond
      constructor
      · rw [List.length_cons, List.length_take] at hlen
        rw [List.length_cons]
        omega
      · rw [List.length_cons, List.length_take] at hlen
        have hrepr : (b :: List.take l2 rest) = List.take (l2 + 1) (b :: rest) := by
          rw [List.take_succ_cons]
        rw [hrepr, List.take_take,
          show min c.PrefixLen (l2 + 1) = c.PrefixLen from by omega] at hb2
        exact hb2
    rw [foldLastSome_of_tail_none (by omega) htail]
    simp only [List.take_zero, findKey_nil]


theorem lastOf_eq (n : TrieNode) (last : Option PrefixData) :
    lastOf n last = match n.Data with | some d => some d | none => last := rfl

theorem match_data_lastOf (n : TrieNode) (last : Option PrefixData) :
    (match n.Data with
     | some d => some d
     | none => lastOf n last) = lastOf n last := by
  cases hd : n.Data with
  | some d => rw [lastOf_eq, hd]
  | none => rw [lastOf_eq, hd]

theorem lookupGo_stop {node : TrieNode} {bits : List Nat} {pos maxBits : Nat}
    (last : Option PrefixData) (h : maxBits ≤ pos) :
    lookupGo node bits pos maxBits last = lastOf node last := by
  rw [lookupGo]
  dsimp only
  rw [if_pos h]
  cases hd : node.Data with
  | some d => rw [lastOf_eq, hd]
  | none => rw [lastOf_eq, hd]

theorem lookupGo_go_none {node : TrieNode} {bits : List Nat} {pos maxBits : Nat}
    (last : Option PrefixData) (h : ¬ maxBits ≤ pos)
    (hc : node.child (getBit bits pos) = none) :
    lookupGo node bits pos maxBits last = lastOf node last := by
  rw [lookupGo]
  dsimp only
  rw [if_neg h]
  split
  · rfl
  · rename_i c hsome
    rw [hc] at hsome
    exact absurd hsome (by simp)

theorem lookupGo_go_some {node c : TrieNode} {bits : List Nat} {pos maxBits : Nat}
    (last : Option PrefixData) (h : ¬ maxBits ≤ pos)
    (hc : node.child (getBit bits pos) = some c) :
    lookupGo node bits pos maxBits last =
      (if lookupMatchFrom bits pos c.Pfx
          (if pos + c.PrefixLen > maxBits then maxBits - pos else c.PrefixLen)
          c.PrefixLen 0 then
        lookupGo c bits (pos + c.PrefixLen) maxBits (lastOf node last)
      else lastOf node last) := by
  rw [lookupGo]
  dsimp only
  rw [if_neg h]
  split
  · rename_i hnone
    rw [hc] at hnone
    exact absurd hnone (by simp)
  · rename_i c2 hsome
    rw [hc] at hsome
    injection hsome with hcc
    subst hcc
    rfl

theorem lookupMatch_iff_cond (bits : List Nat) (pos maxBits : Nat) (c : TrieNode)
    (hP : c.PrefixLen ≤ maxBits - pos) :
    lookupMatchFrom bits pos c.Pfx c.PrefixLen c.PrefixLen 0 = true ↔
      (c.PrefixLen ≤ (bitsSeg bits pos (maxBits - pos)).length ∧
       nodeBits c = List.take c.PrefixLen (bitsSeg bits pos (maxBits - pos))) := by
  rw [lookupMatchFrom_true_iff]
  constructor
  · intro hall
    constructor
    · rw [length_bitsSeg]
      exact hP
    · rw [take_bitsSeg, show min c.PrefixLen (maxBits - pos) = c.PrefixLen from by omega,
        nodeBits]
      apply List.ext_getElem?
      intro j
      rw [getElem?_bitsSeg, getElem?_bitsSeg]
      by_cases hj : j < c.PrefixLen
      · rw [if_pos hj, if_pos hj, Nat.zero_add, hall j (by omega) hj hj]
      · rw [if_neg hj, if_neg hj]
  · rintro ⟨-, hb⟩ j h0 hjL hjP
    rw [take_bitsSeg, show min c.PrefixLen (maxBits - pos) = c.PrefixLen from by omega,
      nodeBits] at hb
    have hpt := congrArg (fun l => l[j]?) hb
    simp only at hpt
    rw [getElem?_bitsSeg, getElem?_bitsSeg, if_pos hjP, if_pos hjP] at hpt
    injection hpt with h2
    rw [Nat.zero_add] at h2
    exact h2.symm

set_option maxHeartbeats 1000000 in
theorem lookupGo_eq_deepestMatch :
    ∀ (node : TrieNode) (bits : List Nat) (pos maxBits : Nat) (last : Option PrefixData),
      Bounded node (maxBits - pos) → pos ≤ maxBits →
      lookupGo node bits pos maxBits last =
        match deepestMatch node (bitsSeg bits pos (maxBits - pos)) with
        | some d => some d
        | none => lastOf node last := by
  intro node bits pos maxBits last
  induction node, bits, pos, maxBits, last using lookupGo.induct with
  | case1 node bits pos maxBits last hstop =>
    intro _ hle
    have heq : maxBits = pos := by omega
    subst heq
    rw [lookupGo_stop last (by omega), Nat.sub_self, bitsSeg_zero, deepestMatch_nil,
      match_data_lastOf]
  | case2 node bits pos maxBits last hpos bit hc =>
    intro _ _
    have hbit : bit = getBit bits pos := rfl
    rw [hbit] at hc
    have hseg : bitsSeg bits pos (maxBits - pos) =
        getBit bits pos :: bitsSeg bits (pos + 1) (maxBits - pos - 1) := by
      nth_rewrite 1 [show maxBits - pos = maxBits - pos - 1 + 1 from by omega]
      rw [bitsSeg_succ]
    rw [lookupGo_go_none last hpos hc, hseg, deepestMatch_cons_none _ hc,
      match_data_lastOf]
  | case3 node bits pos maxBits last last1 hpos bit child hc childLen hmatch ih =>
    intro hbd hle
    have hbit : bit = getBit bits pos := rfl
    rw [hbit] at hc
    obtain ⟨hPle, hbdc⟩ := Bounded.childBd hbd hc
    have hposlt : pos < maxBits := by omega
    have hchildLen : (if pos + child.PrefixLen > maxBits then maxBits - pos
        else child.PrefixLen) = child.PrefixLen := if_neg (by omega)
    have hmatch2 : lookupMatchFrom bits pos child.Pfx
        (if pos + child.PrefixLen > maxBits then maxBits - pos else child.PrefixLen)
        child.PrefixLen 0 = true := hmatch
    rw [hchildLen] at hmatch2
    rw [lookupGo_go_some last hpos hc, hchildLen, if_pos hmatch2]
    rw [Nat.sub_sub] at hbdc
    have ih2 := ih hbdc (by omega)
    have hlast1 : last1 = lastOf node last := rfl
    rw [hlast1] at ih2
    rw [ih2]
    have hseg : bitsSeg bits pos (maxBits - pos) =
        getBit bits pos :: bitsSeg bits (pos + 1) (maxBits - pos - 1) := by
      nth_rewrite 1 [show maxBits - pos = maxBits - pos - 1 + 1 from by omega]
      rw [bitsSeg_succ]
    have hcnd := (lookupMatch_iff_cond bits pos maxBits child hPle).mp hmatch2
    rw [hseg] at hcnd
    have hdrop : List.drop child.PrefixLen
        (getBit bits pos :: bitsSeg bits (pos + 1) (maxBits - pos - 1)) =
        bitsSeg bits (pos + child.PrefixLen) (maxBits - (pos + child.PrefixLen)) := by
      rw [← hseg, drop_bitsSeg,
        show maxBits - pos - child.PrefixLen = maxBits - (pos + child.PrefixLen) from by omega]
    rw [hseg, deepestMatch_cons_some _ hc, if_pos hcnd, hdrop]
    cases hD : deepestMatch child
        (bitsSeg bits (pos + child.PrefixLen) (maxBits - (pos + child.PrefixLen))) with
    | some d => rfl
    | none =>
      have hcd : child.Data = none := deepestMatch_none_data hD
      simp only [lastOf_eq, hcd]
      cases node.Data <;> rfl
  | case4 node bits pos maxBits last hpos bit child hc childLen hmatch =>
    intro hbd hle
    have hbit : bit = getBit bits pos := rfl
    rw [hbit] at hc
    obtain ⟨hPle, -⟩ := Bounded.childBd hbd hc
    have hposlt : pos < maxBits := by omega
    have hchildLen : (if pos + child.PrefixLen > maxBits then maxBits - pos
        else child.PrefixLen) = child.PrefixLen := if_neg (by omega)
    have hmatch2 : ¬ lookupMatchFrom bits pos child.Pfx
        (if pos + child.PrefixLen > maxBits then maxBits - pos else child.PrefixLen)
        child.PrefixLen 0 = true := hmatch
    rw [hchildLen] at hmatch2
    rw [lookupGo_go_some last hpos hc, hchildLen, if_neg hmatch2]
    have hseg : bitsSeg bits pos (maxBits - pos) =
        getBit bits pos :: bitsSeg bits (pos + 1) (maxBits - pos - 1) := by
      nth_rewrite 1 [show maxBits - pos = maxBits - pos - 1 + 1 from by omega]
      rw [bitsSeg_succ]
    have hncnd : ¬ (child.PrefixLen ≤ (bitsSeg bits pos (maxBits - pos)).length ∧
        nodeBits child = List.take child.PrefixLen (bitsSeg bits pos (maxBits - pos))) :=
      fun hcnd => hmatch2 ((lookupMatch_iff_cond bits pos maxBits child hPle).mpr hcnd)
    rw [hseg] at hncnd
    rw [hseg, deepestMatch_cons_some _ hc, if_neg hncnd, match_data_lastOf]

/-- Model of Go `netip.Addr`: the family tag (`Is6`) together with the
byte representation returned by `As4`/`As16`. -/
structure Addr where
  is6 : Bool
  bytes : List Nat
deriving DecidableEq

/-- Model of Go `netip.Prefix` as used by `Trie.Insert`: an address and
a prefix length in bits (`Prefix.Bits()`). -/
structure PfxKey where
  addr : Addr
  bits : Nat
deriving DecidableEq

/-- Go `prefixToBits`: the address bytes of a prefix. -/
def prefixToBits (p : PfxKey) : List Nat :=
  p.addr.bytes

/-- Go `addrToBits`: the bytes of an address. -/
def addrToBits (a : Addr) : List Nat :=
  a.bytes

/-- Go struct `Trie`. -/
structure Trie where
  Root : Option TrieNode
  IsIPv6 : Bool
  Count : Nat

/-- Go `NewTrie`. -/
def NewTrie (isIPv6 : Bool) : Trie :=
  { Root := some (.mk [] 0 none none none), IsIPv6 := isIPv6, Count := 0 }

/-- Go `Trie.Insert`.  A `nil` root cannot arise from `NewTrie`; the Go
code would dereference nil there, modelled as an error. -/
def Trie.Insert (t : Trie) (p : PfxKey) (data : PrefixData) : Except String Trie :=
  if p.addr.is6 ≠ t.IsIPv6 then .error "IP version mismatch"
  else
    match t.Root with
    | none => .error "nil root"
    | some root =>
        .ok { t with
          Root := some (insertRecursive root (prefixToBits p) 0 p.bits data),
          Count := t.Count + 1 }

/-- Go `Trie.Lookup`. -/
def Trie.Lookup (t : Trie) (ip : Addr) : Option PrefixData :=
  if ip.is6 ≠ t.IsIPv6 then none
  else
    lookupRecursive t.Root (addrToBits ip) 0 (if t.IsIPv6 then 128 else 32)

/-! Claim C1: longest-prefix-match correctness of the insert/lookup pair. -/

/-- The bit sequence of an inserted prefix key: the first `bits` bits of
the address bytes, as consumed by `insertRecursive`. -/
def keyBitsOf (p : PfxKey) : List Nat :=
  bitsSeg p.addr.bytes 0 p.bits

theorem keyBitsOf_def (p : PfxKey) : keyBitsOf p = bitsSeg p.addr.bytes 0 p.bits := rfl

/-- The full bit sequence of an address at its family's width. -/
def addrBits (a : Addr) : List Nat :=
  bitsSeg (addrToBits a) 0 (if a.is6 then 128 else 32)

theorem addrBits_eq (a : Addr) :
    addrBits a = bitsSeg (addrToBits a) 0 (if a.is6 then 128 else 32) := rfl

/-- The prefix of `kv` contains the address `a`: its bits are an initial
segment of the address bits. -/
def matchesAddr (kv : PfxKey × PrefixData) (a : Addr) : Prop :=
  keyBitsOf kv.1 = (addrBits a).take kv.1.bits

theorem matchesAddr_iff (kv : PfxKey × PrefixData) (a : Addr) :
    matchesAddr kv a ↔ keyBitsOf kv.1 = (addrBits a).take kv.1.bits := Iff.rfl

/-- One override step of the association view of inserts. -/
def assocStep (k : List Nat) : Option PrefixData → (PfxKey × PrefixData) → Option PrefixData :=
  fun acc kv => if keyBitsOf kv.1 = k then some kv.2 else acc

theorem assocStep_eq (k : List Nat) (acc : Option PrefixData) (kv : PfxKey × PrefixData) :
    assocStep k acc kv = if keyBitsOf kv.1 = k then some kv.2 else acc := rfl

/-- The record of the last insert whose key bits are exactly `k`. -/
def assocLast (kvs : List (PfxKey × PrefixData)) (k : List Nat) : Option PrefixData :=
  kvs.foldl (assocStep k) none

/-- A sequence of `Trie.Insert` calls, stopping at the first error. -/
def insertAll : Trie → List (PfxKey × PrefixData) → Except String Trie
  | t, [] => .ok t
  | t, kv :: rest =>
    match t.Insert kv.1 kv.2 with
    | .error e => .error e
    | .ok t2 => insertAll t2 rest

theorem lookupRecursive_some (n : TrieNode) (bits : List Nat) (pos maxBits : Nat) :
    lookupRecursive (some n) bits pos maxBits = lookupGo n bits pos maxBits none := by
  rw [lookupRecursive]

theorem lastOf_none (n : TrieNode) : lastOf n none = n.Data := by
  rw [lastOf_eq]
  cases n.Data <;> rfl

theorem mem_bitsSeg_le_one {data : List Nat} {start len : Nat} {b : Nat}
    (h : b ∈ bitsSeg data start len) : b ≤ 1 := by
  unfold bitsSeg at h
  obtain ⟨i, hi, rfl⟩ := List.mem_map.mp h
  exact getBit_le_one data (start + i)

theorem foldLastSome_none {f : Nat → Option PrefixData} {N : Nat}
    (h : foldLastSome f N = none) : ∀ l, l < N → f l = none := by
  induction N with
  | zero => intro l hl; omega
  | succ N ih =>
    rw [foldLastSome_succ] at h
    cases hf : f N with
    | some d =>
      rw [hf] at h
      exact Option.noConfusion h
    | none =>
      rw [hf] at h
      intro l hl
      by_cases he : l = N
      · subst he; exact hf
      · exact ih h l (by omega)

theorem foldLastSome_eq_none {f : Nat → Option PrefixData} {N : Nat}
    (h : ∀ l, l < N → f l = none) : foldLastSome f N = none := by
  induction N with
  | zero => rfl
  | succ N ih =>
    rw [foldLastSome_succ, h N (by omega)]
    exact ih (fun l hl => h l (by omega))

theorem foldLastSome_eq_some (f : Nat → Option PrefixData) (l : Nat) (d : PrefixData) :
    ∀ N, l < N → f l = some d → (∀ l2, l < l2 → l2 < N → f l2 = none) →
    foldLastSome f N = some d := by
  intro N
  induction N with
  | zero => intro hl _ _; omega
  | succ N ih =>
    intro hl hsome htail
    by_cases he : l = N
    · subst he
      rw [foldLastSome_succ, hsome]
    · rw [foldLastSome_succ, htail N (by omega) (by omega)]
      exact ih (by omega) hsome (fun l2 h1 h2 => htail l2 h1 (by omega))

theorem foldLastSome_some_exists {f : Nat → Option PrefixData} :
    ∀ {N : Nat} {d : PrefixData}, foldLastSome f N = some d →
      ∃ l, l < N ∧ f l = some d ∧ ∀ l2, l < l2 → l2 < N → f l2 = none := by
  intro N
  induction N with
  | zero =>
    intro d h
    exact Option.noConfusion h
  | succ N ih =>
    intro d h
    rw [foldLastSome_succ] at h
    cases hf : f N with
    | some e =>
      rw [hf] at h
      have h2 : some e = some d := h
      injection h2 with h3
      subst h3
      exact ⟨N, by omega, hf, fun l2 h1 h2 => by omega⟩
    | none =>
      rw [hf] at h
      obtain ⟨l, hl, hs, ht⟩ := ih h
      refine ⟨l, by omega, hs, fun l2 h1 h2 => ?_⟩
      by_cases he : l2 = N
      · subst he; exact hf
      · exact ht l2 h1 (by omega)

theorem assoc_no_match (k : List Nat) :
    ∀ (kvs : List (PfxKey × PrefixData)) (acc : Option PrefixData),
      (∀ kv ∈ kvs, keyBitsOf kv.1 ≠ k) →
      kvs.foldl (assocStep k) acc = acc := by
  intro kvs
  induction kvs with
  | nil => intro acc _; rfl
  | cons kv rest ih =>
    intro acc h
    rw [List.foldl_cons, assocStep_eq, if_neg (h kv (List.mem_cons_self kv rest))]
    exact ih acc (fun kv2 hm => h kv2 (List.mem_cons_of_mem kv hm))

theorem assoc_mem (k : List Nat) :
    ∀ (kvs : List (PfxKey × PrefixData)) (acc : Option PrefixData)
      (kv0 : PfxKey × PrefixData),
      (kvs.map (fun kv => keyBitsOf kv.1)).Nodup →
      kv0 ∈ kvs → keyBitsOf kv0.1 = k →
      kvs.foldl (assocStep k) acc = some kv0.2 := by
  intro kvs
  induction kvs with
  | nil =>
    intro acc kv0 _ hm _
    exact absurd hm (List.not_mem_nil kv0)
  | cons kv rest ih =>
    intro acc kv0 hnd hm hk
    rw [List.map_cons, List.nodup_cons] at hnd
    rw [List.foldl_cons]
    rcases List.mem_cons.mp hm with he | hm2
    · subst he
      rw [assocStep_eq, if_pos hk]
      apply assoc_no_match
      intro kv2 hm2 hk2
      apply hnd.1
      rw [hk, ← hk2]
      exact List.mem_map_of_mem _ hm2
    · exact ih (assocStep k acc kv) kv0 hnd.2 hm2 hk

theorem assocLast_some_iff {kvs : List (PfxKey × PrefixData)} {k : List Nat}
    {d : PrefixData} (hnd : (kvs.map (fun kv => keyBitsOf kv.1)).Nodup) :
    assocLast kvs k = some d ↔ ∃ kv, kv ∈ kvs ∧ keyBitsOf kv.1 = k ∧ kv.2 = d := by
  constructor
  · intro h
    by_cases hex : ∃ kv, kv ∈ kvs ∧ keyBitsOf kv.1 = k
    · obtain ⟨kv0, hm, hk⟩ := hex
      rw [assocLast, assoc_mem k kvs none kv0 hnd hm hk] at h
      injection h with h2
      exact ⟨kv0, hm, hk, h2⟩
    · rw [assocLast, assoc_no_match k kvs none (fun kv hm hk => hex ⟨kv, hm, hk⟩)] at h
      exact Option.noConfusion h
  · rintro ⟨kv0, hm, hk, hd⟩
    rw [assocLast, assoc_mem k kvs none kv0 hnd hm hk, hd]

theorem assoc_stays_some (k : List Nat) :
    ∀ (kvs : List (PfxKey × PrefixData)) (x : PrefixData),
      ∃ y, kvs.foldl (assocStep k) (some x) = some y := by
  intro kvs
  induction kvs with
  | nil => intro x; exact ⟨x, rfl⟩
  | cons kv rest ih =>
    intro x
    rw [List.foldl_cons, assocStep_eq]
    by_cases hk : keyBitsOf kv.1 = k
    · rw [if_pos hk]; exact ih kv.2
    · rw [if_neg hk]; exact ih x

theorem assocLast_none_iff {kvs : List (PfxKey × PrefixData)} {k : List Nat} :
    assocLast kvs k = none ↔ ∀ kv ∈ kvs, keyBitsOf kv.1 ≠ k := by
  induction kvs with
  | nil =>
    constructor
    · intro _ kv hm
      exact absurd hm (List.not_mem_nil kv)
    · intro _
      rfl
  | cons kv rest ih =>
    rw [assocLast, List.foldl_cons, assocStep_eq]
    by_cases hk : keyBitsOf kv.1 = k
    · rw [if_pos hk]
      obtain ⟨y, hy⟩ := assoc_stays_some k rest kv.2
      rw [hy]
      constructor
      · intro h
        exact Option.noConfusion h
      · intro h
        exact absurd hk (h kv (List.mem_cons_self kv rest))
    · rw [if_neg hk]
      constructor
      · intro h kv2 hm2
        rcases List.mem_cons.mp hm2 with he | hm3
        · subst he; exact hk
        · exact ih.mp h kv2 hm3
      · intro h
        exact ih.mpr (fun kv2 hm2 => h kv2 (List.mem_cons_of_mem kv hm2))

theorem insertAll_ok (fam : Bool) :
    ∀ (kvs : List (PfxKey × PrefixData)) (t t' : Trie),
      insertAll t kvs = .ok t' →
      t.IsIPv6 = fam →
      (∀ kv ∈ kvs, kv.1.addr.is6 = fam) →
      (∀ kv ∈ kvs, kv.1.bits ≤ (if fam then 128 else 32)) →
      ∀ root, t.Root = some root → Wf root → Bounded root (if fam then 128 else 32) →
      ∃ root', t'.Root = some root' ∧ t'.IsIPv6 = fam ∧ Wf root' ∧
        Bounded root' (if fam then 128 else 32) ∧
        ∀ k : List Nat, (∀ b ∈ k, b ≤ 1) →
          findKey root' k = kvs.foldl (assocStep k) (findKey root k) := by
  intro kvs
  induction kvs with
  | nil =>
    intro t t' hins hfam6 _ _ root hroot hwf hbd
    simp only [insertAll] at hins
    injection hins with ht
    subst ht
    exact ⟨root, hroot, hfam6, hwf, hbd, fun k _ => rfl⟩
  | cons kv rest ih =>
    intro t t' hins hfam6 hfam hlen root hroot hwf hbd
    have hins6 : kv.1.addr.is6 = t.IsIPv6 := by
      rw [hfam6]
      exact hfam kv (List.mem_cons_self kv rest)
    have hstep : t.Insert kv.1 kv.2 = .ok { t with
        Root := some (insertRecursive root (prefixToBits kv.1) 0 kv.1.bits kv.2),
        Count := t.Count + 1 } := by
      rw [Trie.Insert, if_neg (show ¬ kv.1.addr.is6 ≠ t.IsIPv6 from fun hne => hne hins6),
        hroot]
    simp only [insertAll] at hins
    rw [hstep] at hins
    have hins2 : insertAll { t with
        Root := some (insertRecursive root (prefixToBits kv.1) 0 kv.1.bits kv.2),
        Count := t.Count + 1 } rest = .ok t' := hins
    have hlenkv : kv.1.bits ≤ (if fam then 128 else 32) :=
      hlen kv (List.mem_cons_self kv rest)
    obtain ⟨root', h1, h2, h3, h4, h5⟩ := ih _ t' hins2 hfam6
      (fun kv2 hm => hfam kv2 (List.mem_cons_of_mem kv hm))
      (fun kv2 hm => hlen kv2 (List.mem_cons_of_mem kv hm))
      (insertRecursive root (prefixToBits kv.1) 0 kv.1.bits kv.2) rfl
      (Wf_insertRecursive hwf (Nat.zero_le _))
      (Bounded_insertRecursive hbd (Nat.zero_le _) (by rw [Nat.sub_zero]; exact hlenkv))
    refine ⟨root', h1, h2, h3, h4, ?_⟩
    intro k hk
    rw [h5 k hk, List.foldl_cons]
    congr 1
    rw [findKey_insertRecursive_all root (prefixToBits kv.1) 0 kv.1.bits kv.2 hwf
      (Nat.zero_le _) k hk, Nat.sub_zero, assocStep_eq]
    have hkb : bitsSeg (prefixToBits kv.1) 0 kv.1.bits = keyBitsOf kv.1 := rfl
    rw [hkb]
    by_cases hkk : k = keyBitsOf kv.1
    · rw [if_pos hkk, if_pos hkk.symm]
    · rw [if_neg hkk, if_neg (fun h => hkk h.symm)]


set_option maxHeartbeats 1000000 in
/-- C1: for every trie built by a sequence of inserts of distinct prefixes of
its family, and every address of that family, `Lookup` returns the record of
the longest inserted prefix whose bits are a prefix of the address, and
returns `none` when no inserted prefix contains the address (for an empty
insert list — an empty trie — the second part gives `none` for every
address). -/
theorem C1_lookup_longest_prefix_match (fam : Bool)
    (kvs : List (PfxKey × PrefixData)) (t : Trie) (a : Addr)
    (hfam : ∀ kv ∈ kvs, kv.1.addr.is6 = fam)
    (hlen : ∀ kv ∈ kvs, kv.1.bits ≤ (if fam then 128 else 32))
    (hnd : (kvs.map (fun kv => keyBitsOf kv.1)).Nodup)
    (hins : insertAll (NewTrie fam) kvs = .ok t)
    (ha : a.is6 = fam) :
    (∀ d, t.Lookup a = some d ↔
      ∃ kv, kv ∈ kvs ∧ matchesAddr kv a ∧ kv.2 = d ∧
        ∀ kv2 ∈ kvs, matchesAddr kv2 a → kv2.1.bits ≤ kv.1.bits) ∧
    (t.Lookup a = none ↔ ∀ kv ∈ kvs, ¬ matchesAddr kv a) := by
  obtain ⟨root', hroot', hfam', hwf', hbd', hfind⟩ :=
    insertAll_ok fam kvs (NewTrie fam) t hins rfl hfam hlen
      (TrieNode.mk [] 0 none none none) rfl (Wf_leaf [] 0 none)
      (Bounded_leaf [] 0 none _)
  have hfind2 : ∀ k : List Nat, (∀ b ∈ k, b ≤ 1) →
      findKey root' k = assocLast kvs k := by
    intro k hk
    rw [hfind k hk]
    have hbase : findKey (TrieNode.mk [] 0 none none none) k = none := by
      cases k with
      | nil =>
        rw [findKey_nil]
        rfl
      | cons b rest => exact findKey_cons_none rest (TrieNode.child_mk_none [] 0 none b)
    rw [hbase, assocLast]
  have hlk : t.Lookup a =
      foldLastSome
        (fun l => findKey root'
          ((bitsSeg (addrToBits a) 0 (if fam then 128 else 32)).take l))
        ((if fam then 128 else 32) + 1) := by
    rw [Trie.Lookup,
      if_neg (show ¬ a.is6 ≠ t.IsIPv6 from fun hne => hne (by rw [ha, hfam'])),
      hroot', lookupRecursive_some, hfam']
    rw [lookupGo_eq_deepestMatch root' (addrToBits a) 0 (if fam then 128 else 32) none
      (by rw [Nat.sub_zero]; exact hbd') (by omega)]
    rw [Nat.sub_zero]
    rw [deepestMatch_eq_fold root'
      (bitsSeg (addrToBits a) 0 (if fam then 128 else 32)) hwf', length_bitsSeg]
    cases hF : foldLastSome
        (fun l => findKey root'
          ((bitsSeg (addrToBits a) 0 (if fam then 128 else 32)).take l))
        ((if fam then 128 else 32) + 1) with
    | some d => rfl
    | none =>
      rw [lastOf_none]
      have h0 := foldLastSome_none hF 0 (by omega)
      simp only [List.take_zero, findKey_nil] at h0
      exact h0
  have hcongr : t.Lookup a =
      foldLastSome
        (fun l => assocLast kvs
          ((bitsSeg (addrToBits a) 0 (if fam then 128 else 32)).take l))
        ((if fam then 128 else 32) + 1) := by
    rw [hlk]
    apply foldLastSome_congr
    intro l _
    apply hfind2
    intro b hb
    exact mem_bitsSeg_le_one (List.mem_of_mem_take hb)
  constructor
  · intro d
    rw [hcongr]
    constructor
    · intro hsome
      obtain ⟨l, hlN, hfl, htail⟩ := foldLastSome_some_exists hsome
      obtain ⟨kv0, hm0, hk0, hv0⟩ := (assocLast_some_iff hnd).mp hfl
      have hlen0 : kv0.1.bits = l := by
        have h1 := congrArg List.length hk0
        rw [keyBitsOf_def, length_bitsSeg, List.length_take, length_bitsSeg] at h1
        omega
      refine ⟨kv0, hm0, ?_, hv0, ?_⟩
      · rw [matchesAddr_iff, addrBits_eq, ha, hlen0]
        exact hk0
      · intro kv2 hm2 hmatch2
        by_contra hgt
        push_neg at hgt
        have hl2 : kv2.1.bits ≤ (if fam then 128 else 32) := hlen kv2 hm2
        have hA := htail kv2.1.bits (by omega) (by omega)
        rw [matchesAddr_iff, addrBits_eq, ha] at hmatch2
        exact assocLast_none_iff.mp hA kv2 hm2 hmatch2
    · rintro ⟨kv0, hm0, hmatch0, hv0, hmax⟩
      rw [matchesAddr_iff, addrBits_eq, ha] at hmatch0
      have hl0 : kv0.1.bits ≤ (if fam then 128 else 32) := hlen kv0 hm0
      refine foldLastSome_eq_some _ kv0.1.bits d _ (by omega) ?_ ?_
      · exact (assocLast_some_iff hnd).mpr ⟨kv0, hm0, hmatch0.symm ▸ rfl, hv0⟩
      · intro l2 h1 h2
        apply assocLast_none_iff.mpr
        intro kv2 hm2 hk2
        have hlen2 : kv2.1.bits = l2 := by
          have hc := congrArg List.length hk2
          rw [keyBitsOf_def, length_bitsSeg, List.length_take, length_bitsSeg] at hc
          omega
        have hmm2 : matchesAddr kv2 a := by
          rw [matchesAddr_iff, addrBits_eq, ha, hlen2]
          exact hk2
        have := hmax kv2 hm2 hmm2
        omega
  · rw [hcongr]
    constructor
    · intro hnone kv0 hm0 hmatch0
      rw [matchesAddr_iff, addrBits_eq, ha] at hmatch0
      have hl0 := hlen kv0 hm0
      have hA := foldLastSome_none hnone kv0.1.bits (by omega)
      exact assocLast_none_iff.mp hA kv0 hm0 hmatch0
    · intro hno
      apply foldLastSome_eq_none
      intro l hl
      apply assocLast_none_iff.mpr
      intro kv2 hm2 hk2
      have hlen2 : kv2.1.bits = l := by
        have hc := congrArg List.length hk2
        rw [keyBitsOf_def, length_bitsSeg, List.length_take, length_bitsSeg] at hc
        omega
      apply hno kv2 hm2
      rw [matchesAddr_iff, addrBits_eq, ha, hlen2]
      exact hk2


instance (kv : PfxKey × PrefixData) (a : Addr) : Decidable (matchesAddr kv a) :=
  inferInstanceAs (Decidable (keyBitsOf kv.1 = (addrBits a).take kv.1.bits))



theorem C1_lookup_longest_prefix_match_witness :
    insertAll (NewTrie false)
        [(⟨⟨false, [10,0,0,0]⟩, 8⟩, (⟨"ZZ", "10.0.0.0/8"⟩ : PrefixData))] =
      .ok ⟨some (.mk [] 0 none
        (some (.mk [10] 8 (some ⟨"ZZ", "10.0.0.0/8"⟩) none none)) none), false, 1⟩ ∧
    Trie.Lookup ⟨some (.mk [] 0 none
        (some (.mk [10] 8 (some ⟨"ZZ", "10.0.0.0/8"⟩) none none)) none), false, 1⟩
      ⟨false, [10,5,5,5]⟩ = some ⟨"ZZ", "10.0.0.0/8"⟩ ∧
    Trie.Lookup ⟨some (.mk [] 0 none
        (some (.mk [10] 8 (some ⟨"ZZ", "10.0.0.0/8"⟩) none none)) none), false, 1⟩
      ⟨false, [192,5,5,5]⟩ = none := by
  have h2 : insertRecursive (.mk [] 0 none none none) [10,0,0,0] 0 8
      ⟨"ZZ", "10.0.0.0/8"⟩ =
      .mk [] 0 none (some (.mk [10] 8 (some ⟨"ZZ", "10.0.0.0/8"⟩) none none)) none := by
    rw [insertRecursive_nochild _ (by decide) (TrieNode.child_mk_none [] 0 none _)]
    rfl
  have hins : insertAll (NewTrie false)
      [(⟨⟨false, [10,0,0,0]⟩, 8⟩, (⟨"ZZ", "10.0.0.0/8"⟩ : PrefixData))] =
      .ok ⟨some (.mk [] 0 none
        (some (.mk [10] 8 (some ⟨"ZZ", "10.0.0.0/8"⟩) none none)) none), false, 1⟩ := by
    have h1 : Trie.Insert (NewTrie false) ⟨⟨false, [10,0,0,0]⟩, 8⟩
        ⟨"ZZ", "10.0.0.0/8"⟩ =
        .ok ⟨some (.mk [] 0 none
          (some (.mk [10] 8 (some ⟨"ZZ", "10.0.0.0/8"⟩) none none)) none), false, 1⟩ := by
      rw [Trie.Insert, if_neg (by decide)]
      show Except.ok ({ Root := some (insertRecursive (TrieNode.mk [] 0 none none none)
          [10,0,0,0] 0 8 ⟨"ZZ", "10.0.0.0/8"⟩), IsIPv6 := false, Count := 0 + 1 } : Trie) =
        .ok ⟨some (.mk [] 0 none
          (some (.mk [10] 8 (some ⟨"ZZ", "10.0.0.0/8"⟩) none none)) none), false, 1⟩
      rw [h2]
    simp only [insertAll]
    rw [h1]
  refine ⟨hins, ?_, ?_⟩
  · exact ((C1_lookup_longest_prefix_match false _ _ _ (by decide) (by decide) (by decide)
      hins rfl).1 ⟨"ZZ", "10.0.0.0/8"⟩).mpr
      ⟨(⟨⟨false, [10,0,0,0]⟩, 8⟩, ⟨"ZZ", "10.0.0.0/8"⟩), by decide, by decide, rfl,
        by decide⟩
  · exact (C1_lookup_longest_prefix_match false _ _ ⟨false, [192,5,5,5]⟩ (by decide)
      (by decide) (by decide) hins rfl).2.mpr (by decide)

/-! Claims C2 and C9: overwrite/count behaviour, and out-of-range bit reads. -/

/-- If the key bits agree with the edge bits over the whole window, the
common-length scan runs to the window's end. -/
theorem commonLenFrom_eq_max (bits : List Nat) (pos : Nat) (cb : List Nat)
    (maxC i : Nat) (hi : i ≤ maxC)
    (hagree : ∀ j, i ≤ j → j < maxC → getBit bits (pos + j) = getBit cb j) :
    commonLenFrom bits pos cb maxC i = maxC := by
  have hle := commonLenFrom_le bits pos cb maxC i hi
  by_contra hne
  have hlt : commonLenFrom bits pos cb maxC i < maxC := by omega
  exact commonLenFrom_stop bits pos cb maxC i hlt
    (hagree _ (commonLenFrom_ge bits pos cb maxC i) hlt)

/-- Evaluation of the double insert of `10.0.0.0/8`, first `ZZ` then `XX`:
the second insert overwrites the record and increments the count again. -/
theorem double_insert_eval :
    (NewTrie false).Insert ⟨⟨false, [10,0,0,0]⟩, 8⟩ ⟨"ZZ", "10.0.0.0/8"⟩ =
      .ok ⟨some (.mk [] 0 none
        (some (.mk [10] 8 (some ⟨"ZZ", "10.0.0.0/8"⟩) none none)) none), false, 1⟩ ∧
    (⟨some (.mk [] 0 none
        (some (.mk [10] 8 (some ⟨"ZZ", "10.0.0.0/8"⟩) none none)) none),
      false, 1⟩ : Trie).Insert ⟨⟨false, [10,0,0,0]⟩, 8⟩ ⟨"XX", "10.0.0.0/8"⟩ =
      .ok ⟨some (.mk [] 0 none
        (some (.mk [10] 8 (some ⟨"XX", "10.0.0.0/8"⟩) none none)) none), false, 2⟩ := by
  constructor
  · have h2 : insertRecursive (.mk [] 0 none none none) [10,0,0,0] 0 8
        ⟨"ZZ", "10.0.0.0/8"⟩ =
        .mk [] 0 none (some (.mk [10] 8 (some ⟨"ZZ", "10.0.0.0/8"⟩) none none)) none := by
      rw [insertRecursive_nochild _ (by decide) (TrieNode.child_mk_none [] 0 none _)]
      rfl
    rw [Trie.Insert, if_neg (by decide)]
    show Except.ok ({ Root := some (insertRecursive (TrieNode.mk [] 0 none none none)
        [10,0,0,0] 0 8 ⟨"ZZ", "10.0.0.0/8"⟩), IsIPv6 := false, Count := 0 + 1 } : Trie) =
      .ok ⟨some (.mk [] 0 none
        (some (.mk [10] 8 (some ⟨"ZZ", "10.0.0.0/8"⟩) none none)) none), false, 1⟩
    rw [h2]
  · have hcl : commonLenFrom [10,0,0,0] 0 [10] 8 0 = 8 := by
      apply commonLenFrom_eq_max [10,0,0,0] 0 [10] 8 0 (by omega)
      intro j _ hj
      interval_cases j <;> rfl
    have h3 : insertRecursive
        (.mk [] 0 none (some (.mk [10] 8 (some ⟨"ZZ", "10.0.0.0/8"⟩) none none)) none)
        [10,0,0,0] 0 8 ⟨"XX", "10.0.0.0/8"⟩ =
        .mk [] 0 none (some (.mk [10] 8 (some ⟨"XX", "10.0.0.0/8"⟩) none none)) none := by
      rw [insertRecursive_exact ⟨"XX", "10.0.0.0/8"⟩ (by decide) (by rfl) hcl rfl rfl]
      rfl
    rw [Trie.Insert, if_neg (by decide)]
    show Except.ok ({ Root := some (insertRecursive
        (TrieNode.mk [] 0 none
          (some (.mk [10] 8 (some ⟨"ZZ", "10.0.0.0/8"⟩) none none)) none)
        [10,0,0,0] 0 8 ⟨"XX", "10.0.0.0/8"⟩), IsIPv6 := false, Count := 1 + 1 } : Trie) =
      .ok ⟨some (.mk [] 0 none
        (some (.mk [10] 8 (some ⟨"XX", "10.0.0.0/8"⟩) none none)) none), false, 2⟩
    rw [h3]

/-- Evaluation of the lookup of `10.5.5.5` after the double insert. -/
theorem lookup_after_double_insert :
    (⟨some (.mk [] 0 none
        (some (.mk [10] 8 (some ⟨"XX", "10.0.0.0/8"⟩) none none)) none),
      false, 2⟩ : Trie).Lookup ⟨false, [10,5,5,5]⟩ = some ⟨"XX", "10.0.0.0/8"⟩ := by
  rw [Trie.Lookup, if_neg (by decide)]
  show lookupRecursive (some (.mk [] 0 none
      (some (.mk [10] 8 (some ⟨"XX", "10.0.0.0/8"⟩) none none)) none))
    [10,5,5,5] 0 32 = some ⟨"XX", "10.0.0.0/8"⟩
  rw [lookupRecursive_some]
  rw [lookupGo_go_some none (by decide) (by rfl)]
  simp only [TrieNode.Pfx_mk, TrieNode.PrefixLen_mk]
  rw [show (if 0 + 8 > 32 then 32 - 0 else 8) = 8 from rfl]
  have hmatch : lookupMatchFrom [10,5,5,5] 0 [10] 8 8 0 = true := by
    rw [lookupMatchFrom_true_iff]
    intro j h0 hL hP
    interval_cases j <;> rfl
  rw [if_pos hmatch]
  rw [lookupGo_go_none _ (by decide) (by rfl)]
  rfl

/-- C2 counterexample: after inserting `10.0.0.0/8 → ZZ` and then
`10.0.0.0/8 → XX` from a fresh v4 trie, the count is 2, not 1:
`Trie.Insert` increments `Count` unconditionally, also on an overwrite. -/
theorem C2_count_counterexample :
    ∃ t1 t2 : Trie,
      (NewTrie false).Insert ⟨⟨false, [10,0,0,0]⟩, 8⟩ ⟨"ZZ", "10.0.0.0/8"⟩ = .ok t1 ∧
      t1.Insert ⟨⟨false, [10,0,0,0]⟩, 8⟩ ⟨"XX", "10.0.0.0/8"⟩ = .ok t2 ∧
      ¬ t2.Count = 1 :=
  ⟨_, _, double_insert_eval.1, double_insert_eval.2, by decide⟩

/-- C2 (amended): re-inserting an existing prefix overwrites the stored
record — lookup of `10.5.5.5` returns the new `(XX, "10.0.0.0/8")` — but
`Count` increases on every insert, so after the two inserts it is 2. -/
theorem C2_overwrite_updates_record_but_count_increments :
    ∃ t1 t2 : Trie,
      (NewTrie false).Insert ⟨⟨false, [10,0,0,0]⟩, 8⟩ ⟨"ZZ", "10.0.0.0/8"⟩ = .ok t1 ∧
      t1.Insert ⟨⟨false, [10,0,0,0]⟩, 8⟩ ⟨"XX", "10.0.0.0/8"⟩ = .ok t2 ∧
      t2.Count = 2 ∧
      t2.Lookup ⟨false, [10,5,5,5]⟩ = some ⟨"XX", "10.0.0.0/8"⟩ :=
  ⟨_, _, double_insert_eval.1, double_insert_eval.2, rfl, lookup_after_double_insert⟩

/-- C9: the bit reader `getBit` returns 0 (rather than failing) whenever
the byte index `pos / 8` is at or beyond the end of the slice, so the
insert and lookup loops never index out of bounds even when a node's
`Pfx` slice is shorter than its declared `PrefixLen`. -/
theorem C9_getBit_out_of_bounds_is_zero (data : List Nat) (pos : Nat)
    (h : data.length ≤ pos / 8) : getBit data pos = 0 :=
  getBit_oob h

/-- Instance of C9 at a concrete out-of-range read. -/
theorem C9_getBit_out_of_bounds_is_zero_witness :
    ([10] : List Nat).length ≤ 13 / 8 ∧ getBit [10] 13 = 0 :=
  ⟨by decide, C9_getBit_out_of_bounds_is_zero [10] 13 (by decide)⟩

/-! Claims C5, C6 and C7: the snapshot store — directory listing,
latest-snapshot resolution, and the write paths. -/

/-- Byte-lexicographic comparison of byte sequences, as Go compares
strings (UTF-8 byte order, which agrees with code-point order). -/
def listLtNat (a b : List Nat) : Bool :=
  match a, b with
  | _, [] => false
  | [], _ :: _ => true
  | x :: xs, y :: ys =>
    if x < y then true else if y < x then false else listLtNat xs ys

/-- The byte key of a string (code points; UTF-8 order preserving). -/
def strKey (s : String) : List Nat :=
  s.data.map Char.toNat

/-- Go `a < b` on strings. -/
def goStrLt (a b : String) : Bool :=
  listLtNat (strKey a) (strKey b)

/-- Go `a <= b` on strings. -/
def goStrLe (a b : String) : Bool :=
  !(goStrLt b a)

theorem listLtNat_irrefl : ∀ a : List Nat, listLtNat a a = false := by
  intro a
  induction a with
  | nil => rfl
  | cons x xs ih => simp [listLtNat, ih]

theorem listLtNat_eq_of_not :
    ∀ a b : List Nat, listLtNat a b = false → listLtNat b a = false → a = b := by
  intro a
  induction a with
  | nil =>
    intro b h1 h2
    cases b with
    | nil => rfl
    | cons y ys => simp [listLtNat] at h1
  | cons x xs ih =>
    intro b h1 h2
    cases b with
    | nil => simp [listLtNat] at h2
    | cons y ys =>
      simp only [listLtNat] at h1 h2
      by_cases hxy : x < y
      · rw [if_pos hxy] at h1
        exact absurd h1 (by simp)
      · by_cases hyx : y < x
        · rw [if_pos hyx] at h2
          exact absurd h2 (by simp)
        · have hx : x = y := by omega
          subst hx
          rw [if_neg hxy, if_neg hxy] at h1
          rw [if_neg hxy, if_neg hxy] at h2
          rw [ih ys h1 h2]

theorem listLtNat_trans :
    ∀ a b c : List Nat, listLtNat a b = true → listLtNat b c = true →
      listLtNat a c = true := by
  intro a
  induction a with
  | nil =>
    intro b c h1 h2
    cases b with
    | nil => simp [listLtNat] at h1
    | cons y ys =>
      cases c with
      | nil => simp [listLtNat] at h2
      | cons z zs => simp [listLtNat]
  | cons x xs ih =>
    intro b c h1 h2
    cases b with
    | nil => simp [listLtNat] at h1
    | cons y ys =>
      cases c with
      | nil => simp [listLtNat] at h2
      | cons z zs =>
        simp only [listLtNat] at h1 h2 ⊢
        by_cases hxy : x < y
        · by_cases hyz : y < z
          · rw [if_pos (by omega : x < z)]
          · rw [if_neg hyz] at h2
            by_cases hzy : z < y
            · rw [if_pos hzy] at h2
              exact absurd h2 (by simp)
            · have hyzeq : y = z := by omega
              subst hyzeq
              rw [if_pos hxy]
        · rw [if_neg hxy] at h1
          by_cases hyx : y < x
          · rw [if_pos hyx] at h1
            exact absurd h1 (by simp)
          · have hx : x = y := by omega
            subst hx
            rw [if_neg hxy] at h1
            by_cases hxz : x < z
            · rw [if_pos hxz]
            · rw [if_neg hxz] at h2 ⊢
              by_cases hzx : z < x
              · rw [if_pos hzx] at h2
                exact absurd h2 (by simp)
              · rw [if_neg hzx] at h2 ⊢
                exact ih ys zs h1 h2

theorem goStrLe_refl (a : String) : goStrLe a a = true := by
  simp [goStrLe, goStrLt, listLtNat_irrefl]

theorem goStrLe_total (a b : String) : goStrLe a b = true ∨ goStrLe b a = true := by
  cases hab : goStrLt b a with
  | false =>
    left
    simp [goStrLe, hab]
  | true =>
    right
    have hba : goStrLt a b = false := by
      cases h2 : goStrLt a b with
      | false => rfl
      | true =>
        simp only [goStrLt] at hab h2
        have h3 := listLtNat_trans _ _ _ h2 hab
        rw [listLtNat_irrefl] at h3
        exact absurd h3 (by simp)
    simp [goStrLe, hba]

theorem goStrLe_trans (a b c : String) (h1 : goStrLe a b = true)
    (h2 : goStrLe b c = true) : goStrLe a c = true := by
  simp only [goStrLe, Bool.not_eq_true'] at h1 h2 ⊢
  simp only [goStrLt] at h1 h2 ⊢
  cases h3 : listLtNat (strKey c) (strKey a) with
  | false => rfl
  | true =>
    cases hcb : listLtNat (strKey c) (strKey b) with
    | true =>
      rw [h2] at hcb
      exact hcb.symm
    | false =>
      cases hbc : listLtNat (strKey b) (strKey c) with
      | true =>
        have h4 := listLtNat_trans _ _ _ hbc h3
        rw [h1] at h4
        exact h4.symm
      | false =>
        have hk := listLtNat_eq_of_not _ _ hcb hbc
        rw [hk] at h3
        rw [h1] at h3
        exact h3.symm

theorem strKey_inj {a b : String} (h : strKey a = strKey b) : a = b := by
  have hinj : Function.Injective Char.toNat := by
    intro x y hxy
    have h1 := Char.ofNat_toNat x
    have h2 := Char.ofNat_toNat y
    rw [← h1, ← h2, hxy]
  have hd : a.data = b.data := List.map_injective_iff.mpr hinj h
  cases a
  cases b
  simp_all

theorem goStrLe_antisymm (a b : String) (h1 : goStrLe a b = true)
    (h2 : goStrLe b a = true) : a = b := by
  simp only [goStrLe, Bool.not_eq_true'] at h1 h2
  simp only [goStrLt] at h1 h2
  exact strKey_inj (listLtNat_eq_of_not _ _ h2 h1)


/-- Number of hyphens in a string (Go `strings.Count(name, "-")`). -/
def hyphenCount (s : String) : Nat :=
  s.data.countP (fun c => c == '-')

/-- Go `Manager.ListSnapshots`, over the directory entries `(name, isDir)`
in the order `os.ReadDir` returns them (sorted by filename): keep the
directories other than `latest` whose name has byte length 10 and exactly
two hyphens. -/
def listSnapshots (entries : List (String × Bool)) : List String :=
  (entries.filter (fun e =>
    e.2 && !(e.1 == "latest") && (e.1.utf8ByteSize == 10)
      && (hyphenCount e.1 == 2))).map (fun e => e.1)

/-- Go struct `snapshot.Metadata` (`CreatedAt` kept abstract as text). -/
structure Metadata where
  Version : Nat
  CreatedAt : String
  RequestedTime : String
  ActualQueryTime : String
  CountriesCount : Nat
  Countries : List String
  PrefixesV4 : Nat
  PrefixesV6 : Nat
  IndexFormatVersion : Nat
  Source : String
  IsLatest : Bool
deriving DecidableEq

/-- Insertion into a descending list (one step of the Go
`sort.Sort(sort.Reverse(sort.StringSlice(...)))` modelled as an
insertion sort under the reversed order). -/
def insertDesc (x : String) : List String → List String
  | [] => [x]
  | y :: ys => if goStrLe y x then x :: y :: ys else y :: insertDesc x ys

/-- Sort a string list descending (Go byte order). -/
def sortDesc : List String → List String
  | [] => []
  | x :: xs => insertDesc x (sortDesc xs)

/-- Go `Manager.GetLatestSnapshot` over an abstract store: `link` is the
`latest` symlink's target (if readable), `entries` the snapshots
directory listing, and `metaLoad` resolves a snapshot name to its
metadata (if it loads). -/
def getLatestFallback (entries : List (String × Bool))
    (metaLoad : String → Option Metadata) : Except String (String × Metadata) :=
  if (listSnapshots entries).isEmpty then .error "no snapshots available"
  else
    match metaLoad ((sortDesc (listSnapshots entries)).headD "") with
    | some m => .ok ((sortDesc (listSnapshots entries)).headD "", m)
    | none => .error ("load metadata for " ++ (sortDesc (listSnapshots entries)).headD "")

def getLatestSnapshot (link : Option String) (entries : List (String × Bool))
    (metaLoad : String → Option Metadata) : Except String (String × Metadata) :=
  match link with
  | some target =>
    match metaLoad target with
    | some m => .ok (target, m)
    | none => getLatestFallback entries metaLoad
  | none => getLatestFallback entries metaLoad

theorem insertDesc_ne_nil (x : String) (l : List String) : insertDesc x l ≠ [] := by
  cases l with
  | nil => simp [insertDesc]
  | cons y ys =>
    by_cases h : goStrLe y x = true <;> simp [insertDesc, h]

theorem sortDesc_eq_nil {l : List String} (h : sortDesc l = []) : l = [] := by
  cases l with
  | nil => rfl
  | cons x xs => exact absurd h (insertDesc_ne_nil x (sortDesc xs))

theorem head_sortDesc_max :
    ∀ l : List String, l ≠ [] →
      (sortDesc l).headD "" ∈ l ∧ ∀ z ∈ l, goStrLe z ((sortDesc l).headD "") = true := by
  intro l
  induction l with
  | nil =>
    intro h
    exact absurd rfl h
  | cons x xs ih =>
    intro _
    by_cases hxs : xs = []
    · subst hxs
      constructor
      · simp [sortDesc, insertDesc]
      · intro z hz
        rw [List.mem_singleton] at hz
        subst hz
        simp [sortDesc, insertDesc, goStrLe_refl]
    · obtain ⟨hmem, hmax⟩ := ih hxs
      cases hseq : sortDesc xs with
      | nil => exact absurd (sortDesc_eq_nil hseq) hxs
      | cons y ys =>
        rw [hseq] at hmem hmax
        simp only [List.headD_cons] at hmem hmax
        rw [show sortDesc (x :: xs) = insertDesc x (sortDesc xs) from rfl, hseq,
          show insertDesc x (y :: ys) =
            if goStrLe y x then x :: y :: ys else y :: insertDesc x ys from rfl]
        by_cases hyx : goStrLe y x = true
        · rw [if_pos hyx]
          simp only [List.headD_cons]
          constructor
          · exact List.mem_cons_self x xs
          · intro z hz
            rcases List.mem_cons.mp hz with he | hz2
            · subst he
              exact goStrLe_refl z
            · exact goStrLe_trans z y x (hmax z hz2) hyx
        · have hxy : goStrLe x y = true := by
            rcases goStrLe_total x y with h | h
            · exact h
            · exact absurd h hyx
          rw [if_neg hyx]
          simp only [List.headD_cons]
          constructor
          · exact List.mem_cons_of_mem x hmem
          · intro z hz
            rcases List.mem_cons.mp hz with he | hz2
            · subst he
              exact hxy
            · exact hmax z hz2


/-- C7 counterexample: a 10-character directory name with two hyphens at
positions 2 and 7 (not 4 and 7) is listed anyway — `ListSnapshots` checks
only the length and the hyphen count, not the hyphen positions. -/
theorem C7_hyphen_positions_counterexample :
    listSnapshots [("20-2601-01", true)] = ["20-2601-01"] ∧
    ("20-2601-01" : String).data[2]? = some '-' ∧
    ("20-2601-01" : String).data[4]? ≠ some '-' := by
  decide

/-- C7 (amended): over directory entries in `os.ReadDir` order (sorted by
name), `listSnapshots` returns exactly the non-`latest` directories whose
name has byte length 10 and exactly two hyphens (at any positions), in
the same sorted order. -/
theorem C7_list_snapshots_characterization (entries : List (String × Bool))
    (hsorted : (entries.map (fun e => e.1)).Pairwise (fun a b => goStrLe a b = true)) :
    (∀ s, s ∈ listSnapshots entries ↔
      ((s, true) ∈ entries ∧ s ≠ "latest" ∧ s.utf8ByteSize = 10 ∧ hyphenCount s = 2)) ∧
    (listSnapshots entries).Pairwise (fun a b => goStrLe a b = true) := by
  constructor
  · intro s
    constructor
    · intro hs
      obtain ⟨e, hef, rfl⟩ := List.mem_map.mp hs
      obtain ⟨he, hcond⟩ := List.mem_filter.mp hef
      simp only [Bool.and_eq_true, beq_iff_eq, Bool.not_eq_true',
        beq_eq_false_iff_ne, ne_eq] at hcond
      obtain ⟨⟨⟨hdir, hlat⟩, hsz⟩, hcnt⟩ := hcond
      refine ⟨?_, hlat, hsz, hcnt⟩
      have : e = (e.1, true) := by
        cases e
        simp_all
      rw [← this]
      exact he
    · rintro ⟨hmem, h2, h3, h4⟩
      apply List.mem_map.mpr
      refine ⟨(s, true), List.mem_filter.mpr ⟨hmem, ?_⟩, rfl⟩
      simp only [Bool.and_eq_true, beq_iff_eq, Bool.not_eq_true',
        beq_eq_false_iff_ne, ne_eq]
      exact ⟨⟨⟨trivial, h2⟩, h3⟩, h4⟩
  · have hsub : List.Sublist (listSnapshots entries) (entries.map (fun e => e.1)) := by
      unfold listSnapshots
      exact (List.filter_sublist entries).map (fun e => e.1)
    exact List.Pairwise.sublist hsub hsorted

/-- C7 witness at a concrete listing: the malformed-but-accepted name and
the excluded entries behave as the characterization states. -/
theorem C7_list_snapshots_characterization_witness :
    (([("-124-01-01", true), ("2024-01-02", true), ("2024-1-2xy", false),
        ("latest", true)].map (fun e => e.1)).Pairwise
      (fun a b => goStrLe a b = true)) ∧
    ("2024-01-02" ∈ listSnapshots [("-124-01-01", true), ("2024-01-02", true),
        ("2024-1-2xy", false), ("latest", true)] ↔
      (("2024-01-02", true) ∈ [("-124-01-01", true), ("2024-01-02", true),
        ("2024-1-2xy", false), ("latest", true)] ∧ "2024-01-02" ≠ "latest" ∧
        ("2024-01-02" : String).utf8ByteSize = 10 ∧ hyphenCount "2024-01-02" = 2)) :=
  ⟨by decide,
    (C7_list_snapshots_characterization
      [("-124-01-01", true), ("2024-01-02", true), ("2024-1-2xy", false),
        ("latest", true)] (by decide)).1 "2024-01-02"⟩

/-- C6 counterexample: with no usable `latest` link and two snapshot
directories 2024-01-01 (metadata loads) and 2024-01-02 (metadata fails),
the code returns a load error for 2024-01-02 instead of falling back to
2024-01-01 as the claim demands — the fallback never skips a directory
whose metadata is unreadable. -/
theorem C6_no_skip_counterexample :
    getLatestSnapshot none [("2024-01-01", true), ("2024-01-02", true)]
      (fun d => if d = "2024-01-01" then
        some ⟨1, "", "2024-01-01", "", 0, [], 0, 0, 1, "", false⟩ else none) =
      .error "load metadata for 2024-01-02" ∧
    ∀ m : Metadata,
      getLatestSnapshot none [("2024-01-01", true), ("2024-01-02", true)]
        (fun d => if d = "2024-01-01" then
          some ⟨1, "", "2024-01-01", "", 0, [], 0, 0, 1, "", false⟩ else none) ≠
      .ok ("2024-01-01", m) := by
  have h1 : getLatestSnapshot none [("2024-01-01", true), ("2024-01-02", true)]
      (fun d => if d = "2024-01-01" then
        some ⟨1, "", "2024-01-01", "", 0, [], 0, 0, 1, "", false⟩ else none) =
      .error "load metadata for 2024-01-02" := by rfl
  refine ⟨h1, fun m h => ?_⟩
  rw [h1] at h
  exact Except.noConfusion h

/-- C6 (amended): `getLatestSnapshot` resolves in this order: (a) if the
`latest` link resolves and its target's metadata loads, that snapshot is
returned; (b) otherwise, if the snapshot list is empty, the
`no snapshots available` error is returned; (c) otherwise the
lexicographically greatest date is chosen — if its metadata loads it is
returned, and if not the result is a metadata-load error for that single
date (directories with unreadable metadata are never skipped). -/
theorem C6_get_latest_characterization (link : Option String)
    (entries : List (String × Bool)) (metaLoad : String → Option Metadata) :
    (∀ t m, link = some t → metaLoad t = some m →
      getLatestSnapshot link entries metaLoad = .ok (t, m)) ∧
    ((link = none ∨ ∃ t, link = some t ∧ metaLoad t = none) →
      (listSnapshots entries = [] →
        getLatestSnapshot link entries metaLoad = .error "no snapshots available") ∧
      (∀ D, D ∈ listSnapshots entries →
        (∀ z ∈ listSnapshots entries, goStrLe z D = true) →
        getLatestSnapshot link entries metaLoad =
          match metaLoad D with
          | some m => .ok (D, m)
          | none => .error ("load metadata for " ++ D))) := by
  constructor
  · intro t m hlink hmeta
    subst hlink
    unfold getLatestSnapshot
    dsimp only
    rw [hmeta]
  · intro hfall
    have hfall2 : getLatestSnapshot link entries metaLoad =
        getLatestFallback entries metaLoad := by
      rcases hfall with hnone | ⟨t, hsome, hmeta⟩
      · subst hnone
        unfold getLatestSnapshot
        rfl
      · subst hsome
        unfold getLatestSnapshot
        dsimp only
        rw [hmeta]
    constructor
    · intro hempty
      rw [hfall2]
      unfold getLatestFallback
      rw [if_pos (by rw [hempty]; rfl)]
    · intro D hD hmax
      have hne : listSnapshots entries ≠ [] := by
        intro h
        rw [h] at hD
        exact List.not_mem_nil D hD
      obtain ⟨hmem, hmax2⟩ := head_sortDesc_max (listSnapshots entries) hne
      have hhead : (sortDesc (listSnapshots entries)).headD "" = D :=
        goStrLe_antisymm _ _ (hmax _ hmem) (hmax2 D hD)
      rw [hfall2]
      unfold getLatestFallback
      rw [if_neg (by simp [List.isEmpty_iff, hne]), hhead]

/-- C6 witness: the characterization applied to a concrete store in which
the `latest` link resolves and its metadata loads. -/
theorem C6_get_latest_characterization_witness :
    getLatestSnapshot (some "2024-01-03") [("2024-01-03", true)]
      (fun d => if d = "2024-01-03" then
        some ⟨1, "", "2024-01-03", "", 0, [], 0, 0, 1, "", false⟩ else none) =
      .ok ("2024-01-03", ⟨1, "", "2024-01-03", "", 0, [], 0, 0, 1, "", false⟩) :=
  (C6_get_latest_characterization (some "2024-01-03") [("2024-01-03", true)]
    (fun d => if d = "2024-01-03" then
      some ⟨1, "", "2024-01-03", "", 0, [], 0, 0, 1, "", false⟩ else none)).1
    "2024-01-03" ⟨1, "", "2024-01-03", "", 0, [], 0, 0, 1, "", false⟩ rfl (by decide)


/-- A filesystem write operation, as issued by the save paths. -/
inductive FsOp where
  | create (path : String)
  | write (path : String) (data : List Nat)
deriving DecidableEq

/-- Effect of one operation on a filesystem (path ↦ contents):
`os.Create` truncates the file to empty at once, a completed write sets
the contents. -/
def applyOp (fs : String → Option (List Nat)) : FsOp → (String → Option (List Nat))
  | .create p => fun q => if q = p then some [] else fs q
  | .write p d => fun q => if q = p then some d else fs q

/-- Effect of a sequence of operations. -/
def applyOps (fs : String → Option (List Nat)) (ops : List FsOp) :
    String → Option (List Nat) :=
  ops.foldl applyOp fs

/-- The operations Go `saveTrie` issues against the destination:
`os.Create(path)` (truncate in place) followed by writing the serialized
bytes through the buffered writer.  No temporary file and no rename. -/
def saveTrieOps (path : String) (bytes : List Nat) : List FsOp :=
  [.create path, .write path bytes]

/-- The operation Go `Metadata.Save` issues: a direct `os.WriteFile` of
the marshalled JSON to the destination.  No temporary file and no rename. -/
def metadataSaveOps (path : String) (bytes : List Nat) : List FsOp :=
  [.write path bytes]

/-- C5 counterexample: the index writer truncates the destination in
place before writing, so a failure part-way (after `os.Create`, before
the write completes) leaves the previously existing destination file
emptied rather than unchanged — there is no temporary file and rename. -/
theorem C5_truncate_in_place_counterexample :
    applyOps (fun q => if q = "index_v4.bin" then some [7, 7] else none)
      ((saveTrieOps "index_v4.bin" [1, 2, 3]).take 1) "index_v4.bin" = some [] ∧
    applyOps (fun q => if q = "index_v4.bin" then some [7, 7] else none)
      ((saveTrieOps "index_v4.bin" [1, 2, 3]).take 1) "index_v4.bin" ≠ some [7, 7] := by
  constructor
  · rfl
  · intro h
    have h2 : some ([] : List Nat) = some [7, 7] := h
    injection h2 with h3
    exact List.noConfusion h3

/-- C5 (amended): both writers write the destination path directly —
`saveTrie` as a truncating create followed by the data write,
`Metadata.Save` as a single direct write; a completed save sets the
destination's contents and touches no other path, but no temporary file
or rename is involved at any point. -/
theorem C5_direct_write_behavior (path : String) (bytes : List Nat)
    (fs : String → Option (List Nat)) :
    saveTrieOps path bytes = [.create path, .write path bytes] ∧
    metadataSaveOps path bytes = [.write path bytes] ∧
    applyOps fs (saveTrieOps path bytes) path = some bytes ∧
    applyOps fs (metadataSaveOps path bytes) path = some bytes ∧
    (∀ q, q ≠ path → applyOps fs (saveTrieOps path bytes) q = fs q) ∧
    (∀ q, q ≠ path → applyOps fs (metadataSaveOps path bytes) q = fs q) := by
  refine ⟨rfl, rfl, ?_, ?_, ?_, ?_⟩
  · show (if path = path then some bytes else
      (fun q => if q = path then some [] else fs q) path) = some bytes
    rw [if_pos rfl]
  · show (if path = path then some bytes else fs path) = some bytes
    rw [if_pos rfl]
  · intro q hq
    show (if q = path then some bytes else
      (fun q => if q = path then some [] else fs q) q) = fs q
    rw [if_neg hq]
    show (if q = path then some [] else fs q) = fs q
    rw [if_neg hq]
  · intro q hq
    show (if q = path then some bytes else fs q) = fs q
    rw [if_neg hq]

/-- C5 witness: the amended behaviour at a concrete filesystem. -/
theorem C5_direct_write_behavior_witness :
    applyOps (fun _ => none) (saveTrieOps "index_v4.bin" [9]) "index_v4.bin" = some [9] ∧
    applyOps (fun _ => none) (saveTrieOps "index_v4.bin" [9]) "metadata.json" = none :=
  ⟨(C5_direct_write_behavior "index_v4.bin" [9] (fun _ => none)).2.2.1,
    (C5_direct_write_behavior "index_v4.bin" [9] (fun _ => none)).2.2.2.2.1
      "metadata.json" (by decide)⟩

/-! Claim C8: CIDR parsing, masking and canonical text (the netip parts
are modelled from the spec; the Go standard library is not in src/). -/

/-- Modelled from the spec: decimal value of a digit string (helper for
the `netip` parser model; Go standard library, outside this repository). -/
def digitsVal (cs : List Char) : Option Nat :=
  cs.foldl (fun acc c =>
    match acc with
    | none => none
    | some n => if c.isDigit then some (n * 10 + (c.toNat - 48)) else none) (some 0)

/-- Modelled from the spec: split a character list at a separator. -/
def splitChar (sep : Char) : List Char → List (List Char)
  | [] => [[]]
  | c :: rest =>
    let r := splitChar sep rest
    if c = sep then [] :: r
    else
      match r with
      | [] => [[c]]
      | h :: t2 => (c :: h) :: t2

/-- Modelled from the spec: one dotted-quad octet — nonempty, digits
only, no leading zero, at most 255. -/
def parseOctet (cs : List Char) : Option Nat :=
  if cs.isEmpty then none
  else if 1 < cs.length ∧ cs.headD ' ' = '0' then none
  else
    match digitsVal cs with
    | none => none
    | some n => if n ≤ 255 then some n else none

/-- Modelled from the spec: `netip` IPv4 address parsing — four octets
separated by dots. -/
def parseIPv4 (cs : List Char) : Option (List Nat) :=
  let parts := splitChar '.' cs
  if parts.length = 4 then parts.mapM parseOctet else none

/-- Modelled from the spec: the prefix-length field — nonempty, digits
only, no leading zero, at most the IPv4 family width 32. -/
def parseBits32 (cs : List Char) : Option Nat :=
  if cs.isEmpty then none
  else if 1 < cs.length ∧ cs.headD ' ' = '0' then none
  else
    match digitsVal cs with
    | none => none
    | some n => if n ≤ 32 then some n else none

/-- Modelled from the spec: Go `netip.ParsePrefix` restricted to IPv4
input — an address, one slash, and a prefix length in `[0, 32]`;
anything else is malformed. -/
def parsePrefixV4 (s : String) : Option (List Nat × Nat) :=
  match splitChar '/' s.data with
  | [a, b] =>
    match parseIPv4 a, parseBits32 b with
    | some octets, some bits => some (octets, bits)
    | _, _ => none
  | _ => none

/-- Modelled from the spec: Go `netip.Prefix.Masked` on the byte level —
zero every address bit at or beyond the prefix length. -/
def maskBytes (bytes : List Nat) (bits : Nat) : List Nat :=
  (List.range bytes.length).map (fun i =>
    if (i + 1) * 8 ≤ bits then bytes.getD i 0
    else if bits ≤ i * 8 then 0
    else bytes.getD i 0 / 2 ^ (8 - (bits - i * 8)) * 2 ^ (8 - (bits - i * 8)))

/-- Modelled from the spec: canonical dotted-quad rendering. -/
def v4Text (octets : List Nat) : String :=
  String.intercalate "." (octets.map Nat.repr)

/-- Modelled from the spec: canonical `addr/bits` rendering of an IPv4
prefix (`netip.Prefix.String`). -/
def prefixV4Text (octets : List Nat) (bits : Nat) : String :=
  v4Text octets ++ "/" ++ Nat.repr bits

/-- Go `strings.ToUpper` (ASCII-relevant part). -/
def strUpper (s : String) : String :=
  ⟨s.data.map Char.toUpper⟩

/-- Go `Trie.InsertCIDR` (IPv4): parse, mask, and insert the masked
prefix with the upper-cased country code and the re-rendered canonical
masked CIDR text. -/
def Trie.InsertCIDR (t : Trie) (cidr countryCode : String) : Except String Trie :=
  match parsePrefixV4 cidr with
  | none => .error ("invalid CIDR " ++ cidr)
  | some (octets, bits) =>
    let masked := maskBytes octets bits
    t.Insert ⟨⟨false, masked⟩, bits⟩
      ⟨strUpper countryCode, prefixV4Text masked bits⟩

theorem length_maskBytes (bytes : List Nat) (bits : Nat) :
    (maskBytes bytes bits).length = bytes.length := by
  rw [maskBytes, List.length_map, List.length_range]

theorem getD_maskBytes (bytes : List Nat) (bits i : Nat) (h : i < bytes.length) :
    (maskBytes bytes bits).getD i 0 =
      (if (i + 1) * 8 ≤ bits then bytes.getD i 0
       else if bits ≤ i * 8 then 0
       else bytes.getD i 0 / 2 ^ (8 - (bits - i * 8)) * 2 ^ (8 - (bits - i * 8))) := by
  rw [maskBytes, List.getD_eq_getElem?_getD, List.getElem?_map, List.getElem?_range h]
  rfl

theorem getBit_maskBytes (bytes : List Nat) (bits j : Nat) :
    getBit (maskBytes bytes bits) j = if j < bits then getBit bytes j else 0 := by
  by_cases hjb : j < bits
  · rw [if_pos hjb, getBit_eq_testBit, getBit_eq_testBit, length_maskBytes]
    by_cases hj : j / 8 < bytes.length
    · rw [if_pos hj, if_pos hj, getD_maskBytes bytes bits (j / 8) hj]
      set i := j / 8 with hi
      by_cases h1 : (i + 1) * 8 ≤ bits
      · rw [if_pos h1]
      · rw [if_neg h1]
        by_cases h2 : bits ≤ i * 8
        · omega
        · rw [if_neg h2]
          congr 1
          rw [Nat.mul_comm, Nat.testBit_mul_pow_two]
          have hk : (7 - j % 8) ≥ (8 - (bits - i * 8)) := by omega
          rw [decide_eq_true hk, Bool.true_and]
          rw [Nat.testBit_to_div_mod, Nat.testBit_to_div_mod, Nat.div_div_eq_div_mul,
            ← pow_add]
          have harith : 8 - (bits - i * 8) + (7 - j % 8 - (8 - (bits - i * 8))) =
              7 - j % 8 := by omega
          rw [harith]
    · rw [if_neg hj, if_neg hj]
  · rw [if_neg hjb, getBit_eq_testBit, length_maskBytes]
    by_cases hj : j / 8 < bytes.length
    · rw [if_pos hj, getD_maskBytes bytes bits (j / 8) hj]
      set i := j / 8 with hi
      by_cases h1 : (i + 1) * 8 ≤ bits
      · omega
      · rw [if_neg h1]
        by_cases h2 : bits ≤ i * 8
        · rw [if_pos h2, Nat.zero_testBit]
          rfl
        · rw [if_neg h2]
          rw [Nat.mul_comm, Nat.testBit_mul_pow_two]
          have hk : ¬ ((7 - j % 8) ≥ (8 - (bits - i * 8))) := by omega
          rw [decide_eq_false hk, Bool.false_and]
          rfl
    · rw [if_neg hj]

set_option maxHeartbeats 1000000 in
/-- C8: for every IPv4 CIDR string, insertion rejects a malformed
address or an out-of-range prefix length as an invalid-CIDR error, while
non-zero host bits beyond the prefix length never cause failure: the
address is masked (bits below the prefix length are kept, the rest are
zeroed) and the stored record's text is the recomputed canonical masked
form rendered from the masked address. -/
theorem C8_insert_cidr_rejects_or_masks (t : Trie) (cidr cc : String)
    (root : TrieNode) (hfam : t.IsIPv6 = false) (hroot : t.Root = some root) :
    (parsePrefixV4 cidr = none →
      t.InsertCIDR cidr cc = .error ("invalid CIDR " ++ cidr)) ∧
    (∀ octets bits, parsePrefixV4 cidr = some (octets, bits) →
      t.InsertCIDR cidr cc = .ok { t with
        Root := some (insertRecursive root (maskBytes octets bits) 0 bits
          ⟨strUpper cc, prefixV4Text (maskBytes octets bits) bits⟩),
        Count := t.Count + 1 } ∧
      (∀ j, j < bits → getBit (maskBytes octets bits) j = getBit octets j) ∧
      (∀ j, bits ≤ j → getBit (maskBytes octets bits) j = 0)) := by
  constructor
  · intro hp
    unfold Trie.InsertCIDR
    rw [hp]
  · intro octets bits hp
    refine ⟨?_, ?_, ?_⟩
    · unfold Trie.InsertCIDR
      rw [hp]
      dsimp only
      rw [Trie.Insert, if_neg (show ¬ ((⟨⟨false, maskBytes octets bits⟩, bits⟩ :
          PfxKey).addr.is6 ≠ t.IsIPv6) from by rw [hfam]; exact fun h => h rfl), hroot]
      rfl
    · intro j hj
      rw [getBit_maskBytes, if_pos hj]
    · intro j hj
      rw [getBit_maskBytes, if_neg (by omega)]

/-- C8 witness: `8.8.8.7/24` parses, is masked to `8.8.8.0`, is stored
with the canonical text `8.8.8.0/24`, and a malformed octet is rejected. -/
theorem C8_insert_cidr_rejects_or_masks_witness :
    parsePrefixV4 "8.8.8.7/24" = some ([8, 8, 8, 7], 24) ∧
    maskBytes [8, 8, 8, 7] 24 = [8, 8, 8, 0] ∧
    prefixV4Text (maskBytes [8, 8, 8, 7] 24) 24 = "8.8.8.0/24" ∧
    strUpper "zz" = "ZZ" ∧
    (NewTrie false).InsertCIDR "8.8.8.7/24" "zz" =
      .ok ⟨some (insertRecursive (.mk [] 0 none none none) (maskBytes [8, 8, 8, 7] 24)
        0 24 ⟨strUpper "zz", prefixV4Text (maskBytes [8, 8, 8, 7] 24) 24⟩),
        false, 0 + 1⟩ ∧
    parsePrefixV4 "8.8.8.300/24" = none ∧
    (NewTrie false).InsertCIDR "8.8.8.300/24" "zz" =
      .error ("invalid CIDR " ++ "8.8.8.300/24") := by
  refine ⟨by decide, by decide, by rfl, by decide, ?_, by decide, ?_⟩
  · exact ((C8_insert_cidr_rejects_or_masks (NewTrie false) "8.8.8.7/24" "zz"
      (.mk [] 0 none none none) rfl rfl).2 [8, 8, 8, 7] 24 (by decide)).1
  · exact (C8_insert_cidr_rejects_or_masks (NewTrie false) "8.8.8.300/24" "zz"
      (.mk [] 0 none none none) rfl rfl).1 (by decide)

/-! Claim C10: the metadata written by a completed update run. -/

/-- Go `ripestat.CountryResourceListResult` (fields used by `runUpdate`). -/
structure CountryResourceListResult where
  CountryCode : String
  IPv4 : List String
  IPv6 : List String
  QueryTime : String
deriving DecidableEq

/-- One iteration of the Go index-building loop:
`if err := trie.InsertCIDR(prefix, cc); err == nil { count++ }`. -/
def insertCIDRStep (cc : String) (acc : Trie × Nat) (p : String) : Trie × Nat :=
  match acc.1.InsertCIDR p cc with
  | .ok t2 => (t2, acc.2 + 1)
  | .error _ => (acc.1, acc.2)

/-- The Go IPv4 build loop of `runUpdate`: skip `nil` results (failed
fetches), insert every IPv4 prefix of the others, counting successes. -/
def buildV4 (results : List (Option CountryResourceListResult)) : Trie × Nat :=
  results.foldl (fun acc r =>
    match r with
    | none => acc
    | some res => res.IPv4.foldl (insertCIDRStep res.CountryCode) acc)
    (NewTrie false, 0)

/-- The Go `actualQueryTime` scan: the first non-`nil` result with a
non-empty query time, else the snapshot date. -/
def firstQueryTime : List (Option CountryResourceListResult) → String → String
  | [], d => d
  | none :: rest, d => firstQueryTime rest d
  | some res :: rest, d =>
    if res.QueryTime = "" then firstQueryTime rest d else res.QueryTime

/-- The metadata assembly of `runUpdate` (lines 213-224): the requested
country list is stored in full; only the prefix counters come from the
build loops.  `v6Count` is the IPv6 counter produced by the symmetric
IPv6 loop. -/
def buildMetadata (countryCodes : List String)
    (results : List (Option CountryResourceListResult))
    (snapshotDate createdAt : String) (v6Count : Nat) : Metadata :=
  { Version := 1
    CreatedAt := createdAt
    RequestedTime := snapshotDate
    ActualQueryTime := firstQueryTime results snapshotDate
    CountriesCount := countryCodes.length
    Countries := countryCodes
    PrefixesV4 := (buildV4 results).2
    PrefixesV6 := v6Count
    IndexFormatVersion := 1
    Source := "RIPEstat country-resource-list"
    IsLatest := true }

theorem insertCIDRStep_count (cc p : String) (t : Trie) (c : Nat)
    (h6 : t.IsIPv6 = false) (hr : ∃ r, t.Root = some r) :
    (insertCIDRStep cc (t, c) p).2 =
      c + (if (parsePrefixV4 p).isSome then 1 else 0) ∧
    (insertCIDRStep cc (t, c) p).1.IsIPv6 = false ∧
    (∃ r2, (insertCIDRStep cc (t, c) p).1.Root = some r2) := by
  obtain ⟨r, hroot⟩ := hr
  unfold insertCIDRStep
  cases hp : parsePrefixV4 p with
  | none =>
    have hcidr : Trie.InsertCIDR t p cc = .error ("invalid CIDR " ++ p) := by
      unfold Trie.InsertCIDR
      rw [hp]
    rw [hcidr]
    exact ⟨rfl, h6, r, hroot⟩
  | some ob =>
    have hcidr : Trie.InsertCIDR t p cc = .ok { t with
        Root := some (insertRecursive r (maskBytes ob.1 ob.2) 0 ob.2
          ⟨strUpper cc, prefixV4Text (maskBytes ob.1 ob.2) ob.2⟩),
        Count := t.Count + 1 } := by
      unfold Trie.InsertCIDR
      rw [hp]
      dsimp only
      rw [Trie.Insert, if_neg (show ¬ ((⟨⟨false, maskBytes ob.1 ob.2⟩, ob.2⟩ :
          PfxKey).addr.is6 ≠ t.IsIPv6) from by rw [h6]; exact fun h => h rfl), hroot]
      rfl
    rw [hcidr]
    refine ⟨rfl, h6, ?_⟩
    exact ⟨_, rfl⟩

theorem foldl_insertCIDRStep_count (cc : String) :
    ∀ (ps : List String) (t : Trie) (c : Nat),
      t.IsIPv6 = false → (∃ r, t.Root = some r) →
      (ps.foldl (insertCIDRStep cc) (t, c)).2 =
        c + ps.countP (fun p => (parsePrefixV4 p).isSome) ∧
      (ps.foldl (insertCIDRStep cc) (t, c)).1.IsIPv6 = false ∧
      (∃ r2, (ps.foldl (insertCIDRStep cc) (t, c)).1.Root = some r2) := by
  intro ps
  induction ps with
  | nil =>
    intro t c h6 hr
    exact ⟨by simp, h6, hr⟩
  | cons p rest ih =>
    intro t c h6 hr
    rw [List.foldl_cons]
    obtain ⟨hc, h6b, hrb⟩ := insertCIDRStep_count cc p t c h6 hr
    have hpair : insertCIDRStep cc (t, c) p =
        ((insertCIDRStep cc (t, c) p).1, (insertCIDRStep cc (t, c) p).2) := rfl
    rw [hpair, hc]
    obtain ⟨hsum, h6c, hrc⟩ := ih (insertCIDRStep cc (t, c) p).1
      (c + (if (parsePrefixV4 p).isSome then 1 else 0)) h6b hrb
    refine ⟨?_, h6c, hrc⟩
    rw [hsum, List.countP_cons]
    by_cases hps : (parsePrefixV4 p).isSome
    · simp [hps]
      omega
    · simp [hps]

theorem buildV4_count (results : List (Option CountryResourceListResult)) :
    (buildV4 results).2 =
      (results.map (fun r =>
        match r with
        | none => 0
        | some res => res.IPv4.countP (fun p => (parsePrefixV4 p).isSome))).sum ∧
    (buildV4 results).1.IsIPv6 = false ∧
    (∃ r2, (buildV4 results).1.Root = some r2) := by
  have hgen : ∀ (rs : List (Option CountryResourceListResult)) (t : Trie) (c : Nat),
      t.IsIPv6 = false → (∃ r, t.Root = some r) →
      (rs.foldl (fun acc r =>
        match r with
        | none => acc
        | some res => res.IPv4.foldl (insertCIDRStep res.CountryCode) acc) (t, c)).2 =
        c + (rs.map (fun r =>
          match r with
          | none => 0
          | some res => res.IPv4.countP (fun p => (parsePrefixV4 p).isSome))).sum ∧
      (rs.foldl (fun acc r =>
        match r with
        | none => acc
        | some res => res.IPv4.foldl (insertCIDRStep res.CountryCode) acc) (t, c)).1.IsIPv6
        = false ∧
      (∃ r2, (rs.foldl (fun acc r =>
        match r with
        | none => acc
        | some res => res.IPv4.foldl (insertCIDRStep res.CountryCode) acc)
          (t, c)).1.Root = some r2) := by
    intro rs
    induction rs with
    | nil =>
      intro t c h6 hr
      exact ⟨by simp, h6, hr⟩
    | cons r rest ih =>
      intro t c h6 hr
      rw [List.foldl_cons]
      cases r with
      | none =>
        dsimp only
        obtain ⟨hsum, h6c, hrc⟩ := ih t c h6 hr
        refine ⟨?_, h6c, hrc⟩
        rw [hsum, List.map_cons, List.sum_cons]
        simp
      | some res =>
        dsimp only
        have hpair : (res.IPv4.foldl (insertCIDRStep res.CountryCode) (t, c)) =
            ((res.IPv4.foldl (insertCIDRStep res.CountryCode) (t, c)).1,
             (res.IPv4.foldl (insertCIDRStep res.CountryCode) (t, c)).2) := rfl
        obtain ⟨hc, h6b, hrb⟩ :=
          foldl_insertCIDRStep_count res.CountryCode res.IPv4 t c h6 hr
        rw [hpair, hc]
        obtain ⟨hsum, h6c, hrc⟩ := ih _ _ h6b hrb
        refine ⟨?_, h6c, hrc⟩
        rw [hsum, List.map_cons, List.sum_cons]
        simp only []
        omega
  have h0 := hgen results (NewTrie false) 0 rfl ⟨_, rfl⟩
  obtain ⟨hsum, h6c, hrc⟩ := h0
  refine ⟨?_, h6c, hrc⟩
  rw [show buildV4 results = results.foldl (fun acc r =>
    match r with
    | none => acc
    | some res => res.IPv4.foldl (insertCIDRStep res.CountryCode) acc)
    (NewTrie false, 0) from rfl]
  rw [hsum]
  omega

/-- C10: the written metadata's `countries_count` equals the number of
requested country codes and its `countries` list is the full requested
list, even when some per-country fetches failed (`nil` results) and
contributed no prefixes; `prefixes_v4` counts exactly the prefixes of
successfully fetched results that parse (insert success is independent
of the trie state). -/
theorem C10_metadata_full_country_list (countryCodes : List String)
    (results : List (Option CountryResourceListResult))
    (snapshotDate createdAt : String) (v6Count : Nat) :
    (buildMetadata countryCodes results snapshotDate createdAt v6Count).CountriesCount =
      countryCodes.length ∧
    (buildMetadata countryCodes results snapshotDate createdAt v6Count).Countries =
      countryCodes ∧
    (buildMetadata countryCodes results snapshotDate createdAt v6Count).PrefixesV4 =
      (results.map (fun r =>
        match r with
        | none => 0
        | some res => res.IPv4.countP (fun p => (parsePrefixV4 p).isSome))).sum :=
  ⟨rfl, rfl, (buildV4_count results).1⟩

/-! Claims C3 and C4: the binary index format — serialization,
deserialization, and header validation. -/

/-- Little-endian 16-bit encoding (`binary.Write` of a `uint16`). -/
def u16le (n : Nat) : List Nat :=
  [n % 256, n / 256 % 256]

/-- Little-endian 32-bit encoding (`binary.Write` of a `uint32`). -/
def u32le (n : Nat) : List Nat :=
  [n % 256, n / 256 % 256, n / 65536 % 256, n / 16777216 % 256]

/-- Little-endian 64-bit encoding (`binary.Write` of a `uint64`). -/
def u64le (n : Nat) : List Nat :=
  [n % 256, n / 256 % 256, n / 65536 % 256, n / 16777216 % 256,
   n / 4294967296 % 256, n / 1099511627776 % 256,
   n / 281474976710656 % 256, n / 72057594037927936 % 256]

/-- Little-endian value of the first `k` bytes (`binary.Read`). -/
def leVal : Nat → List Nat → Nat
  | 0, _ => 0
  | _ + 1, [] => 0
  | k + 1, b :: rest => b + 256 * leVal k rest

/-- A Go `bool` on the wire: one byte, 1 or 0. -/
def boolByte (b : Bool) : Nat :=
  if b then 1 else 0

/-- Go `[]byte(s)`: the byte values of a string (code points; faithful
for the ASCII data this format stores). -/
def strBytes (s : String) : List Nat :=
  s.data.map Char.toNat

/-- Go `string(bs)`: a string from byte values. -/
def strOfBytes (bs : List Nat) : String :=
  ⟨bs.map Char.ofNat⟩

/-- The prefix-byte block `serializeNode` writes: `(PrefixLen+7)/8`
bytes, padding `Prefix` with zeros or truncating it to that length. -/
def pfxBlock (n : TrieNode) : List Nat :=
  if 0 < (n.PrefixLen + 7) / 8 then
    (if n.Pfx.length < (n.PrefixLen + 7) / 8 then
      n.Pfx ++ List.replicate ((n.PrefixLen + 7) / 8 - n.Pfx.length) 0
    else n.Pfx.take ((n.PrefixLen + 7) / 8))
  else []

/-- The data block `serializeNode` writes: a has-data byte, and if set
the first two country-code bytes (zeros if the code is shorter than
two bytes) followed by the length-prefixed CIDR text. -/
def dataBlock : Option PrefixData → List Nat
  | none => [0]
  | some d =>
    [1] ++
    (if 2 ≤ (strBytes d.CountryCode).length then (strBytes d.CountryCode).take 2
     else [0, 0]) ++
    u16le (strBytes d.PrefixStr).length ++ strBytes d.PrefixStr

/-- Go `serializeNode` on a non-nil node: prefix length byte (`uint8`
truncation), prefix bytes, data block, child flags, then the children
in order. -/
def serializeNodeGo (n : TrieNode) : List Nat :=
  [n.PrefixLen % 256] ++ pfxBlock n ++ dataBlock n.Data ++
  [boolByte n.Child0.isSome, boolByte n.Child1.isSome] ++
  (match h0 : n.Child0 with
   | some c => serializeNodeGo c
   | none => []) ++
  (match h1 : n.Child1 with
   | some c => serializeNodeGo c
   | none => [])
termination_by n.size
decreasing_by
  · have hc : n.child 0 = some c := by
      unfold TrieNode.child
      rw [if_pos rfl]
      exact h0
    exact TrieNode.child_size_lt hc
  · have hc : n.child 1 = some c := by
      unfold TrieNode.child
      rw [if_neg one_ne_zero]
      exact h1
    exact TrieNode.child_size_lt hc

/-- Go `saveTrie` as the byte stream it writes: the 32-byte header
(magic, version, family flag, two zero offsets), the serialized root
(nil marker if the root pointer is nil), and the `uint32` node count. -/
def saveTrieBytes (t : Trie) (isIPv6 : Bool) : List Nat :=
  (strBytes "IP2CCIDX" ++ (u32le 1 ++ (u32le (if isIPv6 then 2 else 1) ++
    (u64le 0 ++ u64le 0)))) ++
  ((match t.Root with
    | none => [255]
    | some r => serializeNodeGo r) ++
   u32le (t.Count % 4294967296))

/-- The data-block reader of Go `deserializeNode`: has-data byte
(non-zero means present), two country-code bytes, `uint16` length and
that many CIDR-text bytes. -/
def readData (bytes : List Nat) : Option (Option PrefixData × List Nat) :=
  match bytes with
  | [] => none
  | hd :: rest =>
    if hd ≠ 0 then
      match rest with
      | c1 :: c2 :: l1 :: l2 :: rest4 =>
        if rest4.length < l1 + 256 * l2 then none
        else some (some ⟨strOfBytes [c1, c2], strOfBytes (rest4.take (l1 + 256 * l2))⟩,
          rest4.drop (l1 + 256 * l2))
      | _ => none
    else some (none, rest)

/-- Go `deserializeNode`, with explicit fuel (the Go recursion is
bounded by the stream length): prefix length byte (`0xFF` is the nil
marker), prefix bytes, data block, child flags, children. -/
def deserializeNodeF : Nat → List Nat → Option (Option TrieNode × List Nat)
  | 0, _ => none
  | fuel + 1, bytes =>
    match bytes with
    | [] => none
    | pl :: rest =>
      if pl = 255 then some (none, rest)
      else if rest.length < (pl + 7) / 8 then none
      else
        match readData (rest.drop ((pl + 7) / 8)) with
        | none => none
        | some (data, rest2) =>
          match rest2 with
          | hL :: hR :: rest3 =>
            match (if hL ≠ 0 then deserializeNodeF fuel rest3
                   else some (none, rest3)) with
            | none => none
            | some (left, rest4) =>
              match (if hR ≠ 0 then deserializeNodeF fuel rest4
                     else some (none, rest4)) with
              | none => none
              | some (right, rest5) =>
                some (some (.mk (rest.take ((pl + 7) / 8)) pl data left right), rest5)
          | _ => none

/-- Go `loadTrie`: read and validate the header (magic and version
only — the flags field is read but never checked), deserialize the
node tree, read the node count. -/
def loadTrie (bytes : List Nat) (isIPv6 : Bool) : Except String Trie :=
  if bytes.length < 32 then .error "read header"
  else if bytes.take 8 ≠ strBytes "IP2CCIDX" then .error "invalid magic"
  else if leVal 4 (bytes.drop 8) ≠ 1 then .error "unsupported index version"
  else
    match deserializeNodeF (bytes.length + 1) (bytes.drop 32) with
    | none => .error "deserialize nodes"
    | some (root, rest) =>
      if rest.length < 4 then .error "read count"
      else .ok { Root := root, IsIPv6 := isIPv6, Count := leVal 4 rest }

/-- The serialization wellformedness of a node: the prefix length fits
a byte below the nil marker, the edge byte slice has exactly the
written length, the country code is exactly two bytes, and the CIDR
text fits a `uint16` length. -/
inductive WfSer : TrieNode → Prop where
  | intro (n : TrieNode)
      (hlen : n.PrefixLen < 255)
      (hpfx : n.Pfx.length = (n.PrefixLen + 7) / 8)
      (hcc : ∀ d, n.Data = some d → (strBytes d.CountryCode).length = 2)
      (hps : ∀ d, n.Data = some d → (strBytes d.PrefixStr).length < 65536)
      (h0 : ∀ c, n.Child0 = some c → WfSer c)
      (h1 : ∀ c, n.Child1 = some c → WfSer c) : WfSer n


theorem TrieNode.mk_eta (n : TrieNode) :
    TrieNode.mk n.Pfx n.PrefixLen n.Data n.Child0 n.Child1 = n := by
  cases n
  rfl

theorem strOfBytes_strBytes (s : String) : strOfBytes (strBytes s) = s := by
  unfold strOfBytes strBytes
  rw [List.map_map]
  have hco : Char.ofNat ∘ Char.toNat = id := funext Char.ofNat_toNat
  rw [hco, List.map_id]

theorem pfxBlock_eq {n : TrieNode} (hpfx : n.Pfx.length = (n.PrefixLen + 7) / 8) :
    pfxBlock n = n.Pfx := by
  unfold pfxBlock
  by_cases h : 0 < (n.PrefixLen + 7) / 8
  · rw [if_pos h, if_neg (by omega)]
    exact List.take_of_length_le (by omega)
  · rw [if_neg h]
    have hz : n.Pfx.length = 0 := by omega
    exact (List.eq_nil_of_length_eq_zero hz).symm

theorem readData_dataBlock (dopt : Option PrefixData) (rest : List Nat)
    (hcc : ∀ d, dopt = some d → (strBytes d.CountryCode).length = 2)
    (hps : ∀ d, dopt = some d → (strBytes d.PrefixStr).length < 65536) :
    readData (dataBlock dopt ++ rest) = some (dopt, rest) := by
  cases dopt with
  | none => simp [dataBlock, readData]
  | some d =>
    obtain ⟨b0, b1, hb⟩ := List.length_eq_two.mp (hcc d rfl)
    have hlen := hps d rfl
    have hshape : dataBlock (some d) ++ rest =
        1 :: b0 :: b1 :: ((strBytes d.PrefixStr).length % 256) ::
        ((strBytes d.PrefixStr).length / 256 % 256) ::
        (strBytes d.PrefixStr ++ rest) := by
      simp only [dataBlock, u16le]
      rw [if_pos (le_of_eq (hcc d rfl).symm), hb]
      rfl
    rw [hshape]
    simp only [readData]
    rw [if_pos (show (1:Nat) ≠ 0 from one_ne_zero)]
    have hL : (strBytes d.PrefixStr).length % 256 +
        256 * ((strBytes d.PrefixStr).length / 256 % 256) =
        (strBytes d.PrefixStr).length := by omega
    rw [hL]
    rw [if_neg (by rw [List.length_append]; omega)]
    rw [List.take_left, List.drop_left]
    have hrec : (⟨strOfBytes [b0, b1], strOfBytes (strBytes d.PrefixStr)⟩ :
        PrefixData) = d := by
      rw [← hb, strOfBytes_strBytes, strOfBytes_strBytes]
    rw [hrec]

theorem serializeNodeGo_eq (n : TrieNode) :
    serializeNodeGo n =
      [n.PrefixLen % 256] ++ pfxBlock n ++ dataBlock n.Data ++
      [boolByte n.Child0.isSome, boolByte n.Child1.isSome] ++
      (match n.Child0 with
       | some c => serializeNodeGo c
       | none => []) ++
      (match n.Child1 with
       | some c => serializeNodeGo c
       | none => []) := by
  rw [serializeNodeGo]
  cases n.Child0 <;> cases n.Child1 <;> rfl

set_option maxHeartbeats 1000000 in
theorem deserializeNodeF_serializeNodeGo :
    ∀ (fuel : Nat) (n : TrieNode) (rest : List Nat), WfSer n → n.size < fuel →
      deserializeNodeF fuel (serializeNodeGo n ++ rest) = some (some n, rest) := by
  intro fuel
  induction fuel with
  | zero =>
    intro n rest _ h
    omega
  | succ fuel ih =>
    intro n rest hwf hsz
    have hstep : ∀ (co : Option TrieNode) (bs more : List Nat),
        (∀ c, co = some c → WfSer c) →
        (∀ c, co = some c → c.size < fuel) →
        (match co with | some c => serializeNodeGo c | none => []) = bs →
        (if boolByte co.isSome ≠ 0 then deserializeNodeF fuel (bs ++ more)
         else some (none, bs ++ more)) = some (co, more) := by
      intro co bs more hwfc hszc hbs
      cases co with
      | none =>
        subst hbs
        simp [boolByte]
      | some c =>
        subst hbs
        rw [if_pos (by simp [boolByte])]
        exact ih c more (hwfc c rfl) (hszc c rfl)
    cases hwf with
    | intro n hlen hpfx hcc hps h0 h1 =>
      have hpl : n.PrefixLen % 256 = n.PrefixLen := Nat.mod_eq_of_lt (by omega)
      have hshape : serializeNodeGo n ++ rest =
          n.PrefixLen :: (n.Pfx ++ (dataBlock n.Data ++
            (boolByte n.Child0.isSome :: boolByte n.Child1.isSome ::
              ((match n.Child0 with
                | some c => serializeNodeGo c
                | none => []) ++
               ((match n.Child1 with
                 | some c => serializeNodeGo c
                 | none => []) ++ rest))))) := by
        rw [serializeNodeGo_eq, pfxBlock_eq hpfx, hpl]
        simp only [List.append_assoc, List.cons_append, List.singleton_append,
          List.nil_append]
      rw [hshape]
      rw [deserializeNodeF]
      rw [if_neg (by omega)]
      have hlen2 : ¬ ((n.Pfx ++ (dataBlock n.Data ++
          (boolByte n.Child0.isSome :: boolByte n.Child1.isSome ::
            ((match n.Child0 with
              | some c => serializeNodeGo c
              | none => []) ++
             ((match n.Child1 with
               | some c => serializeNodeGo c
               | none => []) ++ rest))))).length < (n.PrefixLen + 7) / 8) := by
        rw [List.length_append]
        omega
      rw [if_neg hlen2]
      rw [← hpfx, List.drop_left, List.take_left]
      rw [readData_dataBlock n.Data _ hcc hps]
      dsimp only
      rw [hstep n.Child0 _ _ (fun c hc => h0 c hc)
        (fun c hc => by
          have := TrieNode.child_size_lt (show n.child 0 = some c from by
            unfold TrieNode.child
            rw [if_pos rfl]
            exact hc)
          omega) rfl]
      dsimp only
      rw [hstep n.Child1 _ _ (fun c hc => h1 c hc)
        (fun c hc => by
          have := TrieNode.child_size_lt (show n.child 1 = some c from by
            unfold TrieNode.child
            rw [if_neg one_ne_zero]
            exact hc)
          omega) rfl]
      dsimp only
      rw [TrieNode.mk_eta]


theorem leVal4_u32le (m : Nat) (X : List Nat) :
    leVal 4 (u32le m ++ X) = m % 4294967296 := by
  simp only [u32le, List.cons_append, List.nil_append, leVal]
  omega

theorem leVal4_u32le2 (m : Nat) : leVal 4 (u32le m) = m % 4294967296 := by
  simp only [u32le, leVal]
  omega

theorem size_le_length_serializeNodeGo :
    ∀ (fuel : Nat) (n : TrieNode), n.size < fuel →
      n.size ≤ (serializeNodeGo n).length := by
  intro fuel
  induction fuel with
  | zero =>
    intro n h
    omega
  | succ fuel ih =>
    intro n hsz
    rw [serializeNodeGo_eq]
    simp only [List.length_append, List.length_cons, List.length_nil]
    have hsize : n.size = 1 +
        (match n.Child0 with | some c => c.size | none => 0) +
        (match n.Child1 with | some c => c.size | none => 0) := by
      cases n with
      | mk p l d c0 c1 => cases c0 <;> cases c1 <;> rfl
    rw [hsize]
    have hc0 : (match n.Child0 with | some c => c.size | none => 0) ≤
        (match n.Child0 with | some c => serializeNodeGo c | none => []).length := by
      cases hc : n.Child0 with
      | none => simp
      | some c =>
        have hlt := TrieNode.child_size_lt (show n.child 0 = some c from by
          unfold TrieNode.child
          rw [if_pos rfl]
          exact hc)
        exact ih c (by omega)
    have hc1 : (match n.Child1 with | some c => c.size | none => 0) ≤
        (match n.Child1 with | some c => serializeNodeGo c | none => []).length := by
      cases hc : n.Child1 with
      | none => simp
      | some c =>
        have hlt := TrieNode.child_size_lt (show n.child 1 = some c from by
          unfold TrieNode.child
          rw [if_neg one_ne_zero]
          exact hc)
        exact ih c (by omega)
    omega

set_option maxHeartbeats 1000000 in
theorem loadTrie_roundtrip (t : Trie) (root : TrieNode) (fam : Bool)
    (hroot : t.Root = some root) (hwf : WfSer root)
    (hcount : t.Count < 4294967296) (hfam : t.IsIPv6 = fam) :
    loadTrie (saveTrieBytes t fam) fam = .ok t := by
  have hsave : saveTrieBytes t fam =
      (strBytes "IP2CCIDX" ++ (u32le 1 ++ (u32le (if fam then 2 else 1) ++
        (u64le 0 ++ u64le 0)))) ++
      (serializeNodeGo root ++ u32le (t.Count % 4294967296)) := by
    unfold saveTrieBytes
    rw [hroot]
  rw [hsave]
  have hH : (strBytes "IP2CCIDX" ++ (u32le 1 ++ (u32le (if fam then 2 else 1) ++
      (u64le 0 ++ u64le 0)))).length = 32 := by
    cases fam <;> rfl
  have htake : ((strBytes "IP2CCIDX" ++ (u32le 1 ++ (u32le (if fam then 2 else 1) ++
      (u64le 0 ++ u64le 0)))) ++
      (serializeNodeGo root ++ u32le (t.Count % 4294967296))).take 8 =
      strBytes "IP2CCIDX" := by
    rw [List.take_append_of_le_length (by rw [hH]; omega)]
    rw [show (8 : Nat) = (strBytes "IP2CCIDX").length from rfl,
      List.take_append_of_le_length (le_refl _), List.take_length]
  have hdrop8 : ((strBytes "IP2CCIDX" ++ (u32le 1 ++ (u32le (if fam then 2 else 1) ++
      (u64le 0 ++ u64le 0)))) ++
      (serializeNodeGo root ++ u32le (t.Count % 4294967296))).drop 8 =
      (u32le 1 ++ (u32le (if fam then 2 else 1) ++ (u64le 0 ++ u64le 0))) ++
      (serializeNodeGo root ++ u32le (t.Count % 4294967296)) := by
    rw [List.append_assoc, show (8 : Nat) = (strBytes "IP2CCIDX").length from rfl,
      List.drop_left]
  have hver : leVal 4 ((u32le 1 ++ (u32le (if fam then 2 else 1) ++
      (u64le 0 ++ u64le 0))) ++
      (serializeNodeGo root ++ u32le (t.Count % 4294967296))) = 1 := by
    rw [List.append_assoc, leVal4_u32le]
  have hdrop32 : ((strBytes "IP2CCIDX" ++ (u32le 1 ++ (u32le (if fam then 2 else 1) ++
      (u64le 0 ++ u64le 0)))) ++
      (serializeNodeGo root ++ u32le (t.Count % 4294967296))).drop 32 =
      serializeNodeGo root ++ u32le (t.Count % 4294967296) :=
    List.drop_left' hH
  have hfuel : root.size < ((strBytes "IP2CCIDX" ++ (u32le 1 ++
      (u32le (if fam then 2 else 1) ++ (u64le 0 ++ u64le 0)))) ++
      (serializeNodeGo root ++ u32le (t.Count % 4294967296))).length + 1 := by
    have h1 := size_le_length_serializeNodeGo (root.size + 1) root (by omega)
    simp only [List.length_append]
    omega
  unfold loadTrie
  rw [if_neg (by rw [List.length_append, hH]; omega)]
  rw [htake, if_neg (fun hne => hne rfl)]
  rw [hdrop8, hver, if_neg (fun hne => hne rfl)]
  rw [hdrop32]
  rw [deserializeNodeF_serializeNodeGo _ root _ hwf hfuel]
  dsimp only
  rw [if_neg (show ¬ ((u32le (t.Count % 4294967296)).length < 4) from by
    rw [show (u32le (t.Count % 4294967296)).length = 4 from rfl]
    omega)]
  rw [leVal4_u32le2]
  have hcnt : t.Count % 4294967296 % 4294967296 = t.Count := by omega
  rw [hcnt]
  obtain ⟨R, I, C⟩ := t
  dsimp only at hroot hfam
  rw [hroot, hfam]


theorem loadTrie_cases (bytes : List Nat) (fam1 fam2 : Bool) :
    (∀ t, loadTrie bytes fam1 = .ok t →
      loadTrie bytes fam2 = .ok { t with IsIPv6 := fam2 }) ∧
    (∀ e, loadTrie bytes fam1 = .error e → loadTrie bytes fam2 = .error e) := by
  by_cases h1 : bytes.length < 32
  · have e1 : ∀ fam, loadTrie bytes fam = .error "read header" := fun fam => by
      unfold loadTrie
      rw [if_pos h1]
    constructor
    · intro t h
      rw [e1 fam1] at h
      exact Except.noConfusion h
    · intro e h
      rw [e1 fam1] at h
      rw [e1 fam2]
      exact h
  · by_cases h2 : bytes.take 8 ≠ strBytes "IP2CCIDX"
    · have e2 : ∀ fam, loadTrie bytes fam = .error "invalid magic" := fun fam => by
        unfold loadTrie
        rw [if_neg h1, if_pos h2]
      constructor
      · intro t h
        rw [e2 fam1] at h
        exact Except.noConfusion h
      · intro e h
        rw [e2 fam1] at h
        rw [e2 fam2]
        exact h
    · by_cases h3 : leVal 4 (bytes.drop 8) ≠ 1
      · have e3 : ∀ fam, loadTrie bytes fam = .error "unsupported index version" :=
          fun fam => by
            unfold loadTrie
            rw [if_neg h1, if_neg h2, if_pos h3]
        constructor
        · intro t h
          rw [e3 fam1] at h
          exact Except.noConfusion h
        · intro e h
          rw [e3 fam1] at h
          rw [e3 fam2]
          exact h
      · cases hd : deserializeNodeF (bytes.length + 1) (bytes.drop 32) with
        | none =>
          have e4 : ∀ fam, loadTrie bytes fam = .error "deserialize nodes" :=
            fun fam => by
              unfold loadTrie
              rw [if_neg h1, if_neg h2, if_neg h3, hd]
          constructor
          · intro t h
            rw [e4 fam1] at h
            exact Except.noConfusion h
          · intro e h
            rw [e4 fam1] at h
            rw [e4 fam2]
            exact h
        | some pr =>
          obtain ⟨rootp, restp⟩ := pr
          by_cases h5 : restp.length < 4
          · have e5 : ∀ fam, loadTrie bytes fam = .error "read count" := fun fam => by
              unfold loadTrie
              rw [if_neg h1, if_neg h2, if_neg h3, hd]
              dsimp only
              rw [if_pos h5]
            constructor
            · intro t h
              rw [e5 fam1] at h
              exact Except.noConfusion h
            · intro e h
              rw [e5 fam1] at h
              rw [e5 fam2]
              exact h
          · have e6 : ∀ fam, loadTrie bytes fam =
                .ok { Root := rootp, IsIPv6 := fam, Count := leVal 4 restp } :=
              fun fam => by
                unfold loadTrie
                rw [if_neg h1, if_neg h2, if_neg h3, hd]
                dsimp only
                rw [if_neg h5]
            constructor
            · intro t h
              rw [e6 fam1] at h
              injection h with h7
              rw [e6 fam2, ← h7]
            · intro e h
              rw [e6 fam1] at h
              exact Except.noConfusion h

/-- C4 counterexample: an index file written with the IPv6 flag loads
fine when requested as an IPv4 index — no FamilyMismatch error exists.
The second conjunct shows the file's flags field is the IPv6 bit. -/
theorem C4_v6_file_loads_as_v4_counterexample :
    loadTrie (saveTrieBytes ⟨some (.mk [] 0 none none none), true, 0⟩ true) false =
      .ok ⟨some (.mk [] 0 none none none), false, 0⟩ ∧
    ((saveTrieBytes ⟨some (.mk [] 0 none none none), true, 0⟩ true).drop 12).take 4 =
      [2, 0, 0, 0] := by
  constructor
  · have hok : loadTrie (saveTrieBytes ⟨some (.mk [] 0 none none none), true, 0⟩ true)
        true = .ok ⟨some (.mk [] 0 none none none), true, 0⟩ :=
      loadTrie_roundtrip _ (.mk [] 0 none none none) true rfl
        (WfSer.intro _ (by decide) (by simp)
          (fun d hd => Option.noConfusion hd) (fun d hd => Option.noConfusion hd)
          (fun c hc => Option.noConfusion hc) (fun c hc => Option.noConfusion hc))
        (by decide) rfl
    exact (loadTrie_cases _ true false).1 _ hok
  · have hs : serializeNodeGo (.mk [] 0 none none none) = [0, 0, 0, 0] := by
      rw [serializeNodeGo]
      rfl
    rw [show saveTrieBytes ⟨some (.mk [] 0 none none none), true, 0⟩ true =
      (strBytes "IP2CCIDX" ++ (u32le 1 ++ (u32le 2 ++ (u64le 0 ++ u64le 0)))) ++
      (serializeNodeGo (.mk [] 0 none none none) ++ u32le (0 % 4294967296)) from rfl]
    rw [hs]
    rfl

/-- C4 (amended): loading validates only the magic and the version — a
header whose flags field does not match the requested family is accepted:
the result of a load is independent of the requested family except for
the family tag stored in the returned trie, and the only header errors
are `invalid magic` and `unsupported index version`. -/
theorem C4_flags_not_validated (bytes : List Nat) (fam1 fam2 : Bool) :
    (∀ t, loadTrie bytes fam1 = .ok t →
      loadTrie bytes fam2 = .ok { t with IsIPv6 := fam2 }) ∧
    (∀ e, loadTrie bytes fam1 = .error e → loadTrie bytes fam2 = .error e) ∧
    (32 ≤ bytes.length → bytes.take 8 ≠ strBytes "IP2CCIDX" →
      loadTrie bytes fam1 = .error "invalid magic") ∧
    (32 ≤ bytes.length → bytes.take 8 = strBytes "IP2CCIDX" →
      leVal 4 (bytes.drop 8) ≠ 1 →
      loadTrie bytes fam1 = .error "unsupported index version") := by
  refine ⟨(loadTrie_cases bytes fam1 fam2).1, (loadTrie_cases bytes fam1 fam2).2,
    ?_, ?_⟩
  · intro hge hne
    unfold loadTrie
    rw [if_neg (by omega), if_pos hne]
  · intro hge heq hne
    unfold loadTrie
    rw [if_neg (by omega), if_neg (fun hx => hx heq), if_pos hne]

/-- C4 witness: the amended behaviour at the concrete v6-flagged file of
the counterexample scenario. -/
theorem C4_flags_not_validated_witness :
    loadTrie (saveTrieBytes ⟨some (.mk [] 0 none none none), true, 0⟩ true) false =
      .ok ⟨some (.mk [] 0 none none none), false, 0⟩ :=
  (C4_flags_not_validated
    (saveTrieBytes ⟨some (.mk [] 0 none none none), true, 0⟩ true) true false).1
    ⟨some (.mk [] 0 none none none), true, 0⟩
    (loadTrie_roundtrip _ (.mk [] 0 none none none) true rfl
      (WfSer.intro _ (by decide) (by simp)
        (fun d hd => Option.noConfusion hd) (fun d hd => Option.noConfusion hd)
        (fun c hc => Option.noConfusion hc) (fun c hc => Option.noConfusion hc))
      (by decide) rfl)


/-- The lookup of `10.5.5.5` in a v4 trie holding one record at
`10.0.0.0/8`. -/
theorem lookup_single_node (d : PrefixData) (cnt : Nat) :
    Trie.Lookup ⟨some (.mk [] 0 none (some (.mk [10] 8 (some d) none none)) none),
      false, cnt⟩ ⟨false, [10, 5, 5, 5]⟩ = some d := by
  rw [Trie.Lookup, if_neg (fun h => h rfl)]
  show lookupRecursive (some (.mk [] 0 none
      (some (.mk [10] 8 (some d) none none)) none)) [10, 5, 5, 5] 0 32 = some d
  rw [lookupRecursive_some]
  rw [lookupGo_go_some none (by decide) (by rfl)]
  simp only [TrieNode.Pfx_mk, TrieNode.PrefixLen_mk]
  rw [show (if 0 + 8 > 32 then 32 - 0 else 8) = 8 from rfl]
  have hmatch : lookupMatchFrom [10, 5, 5, 5] 0 [10] 8 8 0 = true := by
    rw [lookupMatchFrom_true_iff]
    intro j h0 hL hP
    interval_cases j <;> rfl
  rw [if_pos hmatch]
  rw [lookupGo_go_none _ (by decide) (by rfl)]
  rfl

/-- C3 counterexample: the trie storing `10.0.0.0/8 → "ABC"` (a
three-byte country code) serializes to the same bytes as the trie
storing `"AB"` — `serializeNode` keeps only the first two country-code
bytes — so the deserialized trie answers lookups with `"AB"`, not the
original `"ABC"`: the round trip does not preserve every lookup result
for every trie. -/
theorem C3_countrycode_truncation_counterexample :
    loadTrie (saveTrieBytes ⟨some (.mk [] 0 none (some (.mk [10] 8
        (some ⟨"ABC", "10.0.0.0/8"⟩) none none)) none), false, 1⟩ false) false =
      .ok ⟨some (.mk [] 0 none (some (.mk [10] 8
        (some ⟨"AB", "10.0.0.0/8"⟩) none none)) none), false, 1⟩ ∧
    Trie.Lookup ⟨some (.mk [] 0 none (some (.mk [10] 8
        (some ⟨"ABC", "10.0.0.0/8"⟩) none none)) none), false, 1⟩
      ⟨false, [10, 5, 5, 5]⟩ = some ⟨"ABC", "10.0.0.0/8"⟩ ∧
    Trie.Lookup ⟨some (.mk [] 0 none (some (.mk [10] 8
        (some ⟨"AB", "10.0.0.0/8"⟩) none none)) none), false, 1⟩
      ⟨false, [10, 5, 5, 5]⟩ = some ⟨"AB", "10.0.0.0/8"⟩ ∧
    some (⟨"ABC", "10.0.0.0/8"⟩ : PrefixData) ≠
      some (⟨"AB", "10.0.0.0/8"⟩ : PrefixData) := by
  refine ⟨?_, lookup_single_node ⟨"ABC", "10.0.0.0/8"⟩ 1,
    lookup_single_node ⟨"AB", "10.0.0.0/8"⟩ 1, by decide⟩
  have h1 : serializeNodeGo (.mk [10] 8 (some ⟨"ABC", "10.0.0.0/8"⟩) none none) =
      serializeNodeGo (.mk [10] 8 (some ⟨"AB", "10.0.0.0/8"⟩) none none) := by
    rw [serializeNodeGo_eq, serializeNodeGo_eq]
    rfl
  have h2 : serializeNodeGo (.mk [] 0 none (some (.mk [10] 8
      (some ⟨"ABC", "10.0.0.0/8"⟩) none none)) none) =
      serializeNodeGo (.mk [] 0 none (some (.mk [10] 8
      (some ⟨"AB", "10.0.0.0/8"⟩) none none)) none) := by
    rw [serializeNodeGo_eq, serializeNodeGo_eq]
    simp only [TrieNode.Pfx_mk, TrieNode.PrefixLen_mk, TrieNode.Data_mk,
      TrieNode.Child0_mk, TrieNode.Child1_mk]
    rw [h1]
    rfl
  have hser : saveTrieBytes ⟨some (.mk [] 0 none (some (.mk [10] 8
      (some ⟨"ABC", "10.0.0.0/8"⟩) none none)) none), false, 1⟩ false =
      saveTrieBytes ⟨some (.mk [] 0 none (some (.mk [10] 8
      (some ⟨"AB", "10.0.0.0/8"⟩) none none)) none), false, 1⟩ false := by
    rw [show saveTrieBytes ⟨some (.mk [] 0 none (some (.mk [10] 8
        (some ⟨"ABC", "10.0.0.0/8"⟩) none none)) none), false, 1⟩ false =
      (strBytes "IP2CCIDX" ++ (u32le 1 ++ (u32le 1 ++ (u64le 0 ++ u64le 0)))) ++
      (serializeNodeGo (.mk [] 0 none (some (.mk [10] 8
        (some ⟨"ABC", "10.0.0.0/8"⟩) none none)) none) ++
       u32le (1 % 4294967296)) from rfl]
    rw [show saveTrieBytes ⟨some (.mk [] 0 none (some (.mk [10] 8
        (some ⟨"AB", "10.0.0.0/8"⟩) none none)) none), false, 1⟩ false =
      (strBytes "IP2CCIDX" ++ (u32le 1 ++ (u32le 1 ++ (u64le 0 ++ u64le 0)))) ++
      (serializeNodeGo (.mk [] 0 none (some (.mk [10] 8
        (some ⟨"AB", "10.0.0.0/8"⟩) none none)) none) ++
       u32le (1 % 4294967296)) from rfl]
    rw [h2]
  rw [hser]
  exact loadTrie_roundtrip _ (.mk [] 0 none (some (.mk [10] 8
      (some ⟨"AB", "10.0.0.0/8"⟩) none none)) none) false rfl
    (by
      refine WfSer.intro _ (by decide) (by decide)
        (fun d hd => Option.noConfusion hd) (fun d hd => Option.noConfusion hd)
        ?_ (fun c hc => Option.noConfusion hc)
      intro c hc
      injection hc with h
      subst h
      exact WfSer.intro _ (by decide) (by decide)
        (fun d hd => by injection hd with h2; subst h2; decide)
        (fun d hd => by injection hd with h2; subst h2; decide)
        (fun c hc => Option.noConfusion hc) (fun c hc => Option.noConfusion hc))
    (by decide) rfl

set_option maxHeartbeats 1000000 in
/-- C3 (amended): for every trie of either family whose nodes are
serialization-wellformed — prefix lengths below 255, edge byte slices of
exactly the written length, two-byte country codes, CIDR texts shorter
than 65536 bytes — and whose count fits 32 bits, deserializing the
serialized bytes yields the trie back exactly, so the count and every
lookup result (including the stored CIDR text) are preserved.  Outside
these bounds the round trip can change the data (see the
counterexample). -/
theorem C3_roundtrip_wellformed (t : Trie) (root : TrieNode) (fam : Bool)
    (hroot : t.Root = some root) (hwf : WfSer root)
    (hcount : t.Count < 4294967296) (hfam : t.IsIPv6 = fam) :
    loadTrie (saveTrieBytes t fam) fam = .ok t :=
  loadTrie_roundtrip t root fam hroot hwf hcount hfam

/-- C3 witness: the round trip at a concrete wellformed one-record trie. -/
theorem C3_roundtrip_wellformed_witness :
    loadTrie (saveTrieBytes ⟨some (.mk [] 0 none (some (.mk [10] 8
        (some ⟨"ZZ", "10.0.0.0/8"⟩) none none)) none), false, 1⟩ false) false =
      .ok ⟨some (.mk [] 0 none (some (.mk [10] 8
        (some ⟨"ZZ", "10.0.0.0/8"⟩) none none)) none), false, 1⟩ :=
  C3_roundtrip_wellformed _ (.mk [] 0 none (some (.mk [10] 8
      (some ⟨"ZZ", "10.0.0.0/8"⟩) none none)) none) false rfl
    (by
      refine WfSer.intro _ (by decide) (by decide)
        (fun d hd => Option.noConfusion hd) (fun d hd => Option.noConfusion hd)
        ?_ (fun c hc => Option.noConfusion hc)
      intro c hc
      injection hc with h
      subst h
      exact WfSer.intro _ (by decide) (by decide)
        (fun d hd => by injection hd with h2; subst h2; decide)
        (fun d hd => by injection hd with h2; subst h2; decide)
        (fun c hc => Option.noConfusion hc) (fun c hc => Option.noConfusion hc))
    (by decide) rfl

end Ip2cc
